import Mathlib

/-!
# Verification of the graph-accel traversal engine

Shallow embedding of the `graph-accel` Rust crates (core graph store,
traversal algorithms, and the PostgreSQL extension surface) together with
proofs and refutations of the specification claims.

Conventions of the embedding:
* `HashMap<K, V>` containers are modelled as association lists
  (`List (K × V)`) with first-match lookup; `insert` replaces the first
  binding or appends a fresh one, matching map semantics.  The source
  never relies on hash iteration order for any claim proved here; where
  iteration order is observable (BFS visited maps) the association list
  realises one admissible order (insertion order).
* Rust `u64`/`u16` node and relationship-type ids are modelled as `Nat`;
  no arithmetic is performed on them apart from equality, so no wrapping
  is involved.  Where a wrapping cast *is* performed by the source
  (`max_depth as u32` on an `i32`), it is modelled explicitly with
  `% 2 ^ 32` on `Int`.
* The `f32` confidence scalar is modelled as `Option ℚ`: the source uses
  a NaN sentinel (`Edge::NO_CONFIDENCE`) for "not loaded", which is
  modelled as `none`; a loaded confidence in `[0, 1]` is `some q`.
  The only float operation the source performs on confidences is an
  order comparison against a non-NaN threshold, which agrees with `ℚ`.
* Functions that panic in Rust (`assert!`, `error!`) return `Option`
  (`none` = fatal error).
-/

/-- First-match lookup in an association list (models `HashMap::get`). -/
def alookup {α β : Type} [DecidableEq α] (k : α) : List (α × β) → Option β
  | [] => none
  | (a, b) :: t => if a = k then some b else alookup k t

/-- Insert-or-replace in an association list (models `HashMap::insert`). -/
def ainsert {α β : Type} [DecidableEq α] (k : α) (v : β) : List (α × β) → List (α × β)
  | [] => [(k, v)]
  | (a, b) :: t => if a = k then (k, v) :: t else (a, b) :: ainsert k v t

/-- Insert only when the key is absent (models `HashMap::entry(..).or_insert(..)`). -/
def aInsertIfAbsent {α β : Type} [DecidableEq α] (k : α) (v : β) (l : List (α × β)) :
    List (α × β) :=
  match alookup k l with
  | some _ => l
  | none => l ++ [(k, v)]

theorem alookup_ainsert_self {α β : Type} [DecidableEq α] (k : α) (v : β)
    (l : List (α × β)) : alookup k (ainsert k v l) = some v := by
  induction l with
  | nil => simp [ainsert, alookup]
  | cons h t ih =>
    obtain ⟨a, b⟩ := h
    by_cases hak : a = k
    · simp [ainsert, hak, alookup]
    · simp [ainsert, hak, alookup, ih]

theorem alookup_ainsert_ne {α β : Type} [DecidableEq α] (k k' : α) (v : β)
    (l : List (α × β)) (hne : k ≠ k') :
    alookup k' (ainsert k v l) = alookup k' l := by
  induction l with
  | nil => simp [ainsert, alookup, hne]
  | cons h t ih =>
    obtain ⟨a, b⟩ := h
    by_cases hak : a = k
    · subst hak
      simp [ainsert, alookup, hne, ih]
    · simp only [ainsert, if_neg hak]
      by_cases hak' : a = k'
      · simp [alookup, hak']
      · simp [alookup, hak', ih]

theorem alookup_append {α β : Type} [DecidableEq α] (k : α)
    (l₁ l₂ : List (α × β)) :
    alookup k (l₁ ++ l₂) =
      match alookup k l₁ with
      | some v => some v
      | none => alookup k l₂ := by
  induction l₁ with
  | nil => simp [alookup]
  | cons h t ih =>
    obtain ⟨a, b⟩ := h
    by_cases hak : a = k
    · simp [alookup, hak]
    · simp [alookup, hak, ih]

theorem ainsert_of_absent {α β : Type} [DecidableEq α] (k : α) (v : β)
    (l : List (α × β)) (h : alookup k l = none) :
    ainsert k v l = l ++ [(k, v)] := by
  induction l with
  | nil => simp [ainsert]
  | cons hd t ih =>
    obtain ⟨a, b⟩ := hd
    by_cases hak : a = k
    · simp [alookup, hak] at h
    · simp only [alookup, if_neg hak] at h
      simp [ainsert, hak, ih h]

theorem alookup_aInsertIfAbsent_present {α β : Type} [DecidableEq α]
    (k k' : α) (v v' : β) (l : List (α × β)) (h : alookup k' l = some v') :
    alookup k' (aInsertIfAbsent k v l) = some v' := by
  unfold aInsertIfAbsent
  cases hk : alookup k l with
  | some w => simpa [hk] using h
  | none =>
    simp only [hk]
    rw [alookup_append]
    simp [h]

/-! ## Data model (src/graph-accel/core/src/graph.rs) -/

/-- Traversal direction of a single edge step
(`Direction` in the source, values `Outgoing` / `Incoming`). -/
inductive Direction : Type where
  | outgoing
  | incoming
  deriving DecidableEq

/-- Direction filter for a query (`TraversalDirection` in the source). -/
inductive TraversalDirection : Type where
  | outgoingOnly
  | incomingOnly
  | both
  deriving DecidableEq

/-- A directed edge in an adjacency list (`Edge` in the source).
The `confidence` field and `has_confidence` are modelled from the spec:
the snapshot of `graph.rs` under `src/` predates the confidence field
that `traversal.rs` reads (`e.confidence`, `e.has_confidence()`,
`Edge::NO_CONFIDENCE`); per the spec an `f32` with NaN sentinel "not
loaded", modelled as `Option ℚ` with `none` for the sentinel. -/
structure Edge : Type where
  target : Nat
  relType : Nat
  confidence : Option ℚ
  deriving DecidableEq

/-- `Edge::has_confidence`: true when the confidence is not the NaN
sentinel. Modelled from the spec (see `Edge`). -/
def Edge.hasConfidence (e : Edge) : Bool :=
  e.confidence.isSome

/-- Node metadata (`NodeInfo` in the source). -/
structure NodeInfo : Type where
  label : String
  appId : Option String
  deriving DecidableEq

/-- Maximum number of distinct relationship types
(`MAX_REL_TYPES = u16::MAX` in the source). -/
def MAX_REL_TYPES : Nat := 65535

/-- The in-memory graph (`Graph` in the source): adjacency lists keyed by
node id, node metadata, app-id index and the relationship-type interner.
`estimated_avg_degree` only tunes `Vec` pre-allocation and is dropped. -/
structure Graph : Type where
  outgoing : List (Nat × List Edge)
  incoming : List (Nat × List Edge)
  nodes : List (Nat × NodeInfo)
  appIdIndex : List (String × Nat)
  relTypes : List String
  relTypeMap : List (String × Nat)

/-- `Graph::new()`. -/
def Graph.empty : Graph :=
  { outgoing := [], incoming := [], nodes := [], appIdIndex := [],
    relTypes := [], relTypeMap := [] }

/-- `Graph::node`. -/
def Graph.node (g : Graph) (id : Nat) : Option NodeInfo :=
  alookup id g.nodes

/-- `Graph::neighbors_out` (empty slice for an unknown node). -/
def Graph.neighborsOut (g : Graph) (id : Nat) : List Edge :=
  (alookup id g.outgoing).getD []

/-- `Graph::neighbors_in` (empty slice for an unknown node). -/
def Graph.neighborsIn (g : Graph) (id : Nat) : List Edge :=
  (alookup id g.incoming).getD []

/-- `Graph::rel_type_name`. -/
def Graph.relTypeName (g : Graph) (id : Nat) : Option String :=
  g.relTypes.get? id

/-- `Graph::resolve_app_id`. -/
def Graph.resolveAppId (g : Graph) (appId : String) : Option Nat :=
  alookup appId g.appIdIndex

/-- `Graph::intern_rel_type`: returns the existing id when the name is
present, else appends; the `assert!(len < MAX_REL_TYPES)` failure
(a fatal load error) is `none`. -/
def Graph.internRelType (g : Graph) (relType : String) : Option (Nat × Graph) :=
  match alookup relType g.relTypeMap with
  | some id => some (id, g)
  | none =>
    if g.relTypes.length < MAX_REL_TYPES then
      some (g.relTypes.length,
        { g with
          relTypes := g.relTypes ++ [relType],
          relTypeMap := ainsert relType g.relTypes.length g.relTypeMap })
    else
      none

/-- `Graph::add_node`: registers or overwrites metadata; when an app id is
provided it is inserted (overwriting) into `app_id_index`. -/
def Graph.addNode (g : Graph) (id : Nat) (label : String)
    (appId : Option String) : Graph :=
  let g' :=
    match appId with
    | some aid => { g with appIdIndex := ainsert aid id g.appIdIndex }
    | none => g
  { g' with nodes := ainsert id { label := label, appId := appId } g'.nodes }

/-- Append an edge to the adjacency list of `k`
(`entry(k).or_insert_with(Vec::new).push(e)`). -/
def adjPush (k : Nat) (e : Edge) (l : List (Nat × List Edge)) :
    List (Nat × List Edge) :=
  match alookup k l with
  | some v => ainsert k (v ++ [e]) l
  | none => l ++ [(k, [e])]

/-- `Graph::add_edge`: appends to `outgoing[from]` and, mirrored, to
`incoming[to]`.  The confidence argument is modelled from the spec (the
`graph.rs` snapshot under `src/` predates it; `traversal.rs` reads it). -/
def Graph.addEdge (g : Graph) (source target relType : Nat)
    (confidence : Option ℚ) : Graph :=
  { g with
    outgoing := adjPush source
      { target := target, relType := relType, confidence := confidence } g.outgoing,
    incoming := adjPush target
      { target := source, relType := relType, confidence := confidence } g.incoming }

/-- An edge record consumed by the bulk loader (`EdgeRecord`), with the
confidence field the spec describes (NaN sentinel modelled as `none`). -/
structure EdgeRecord : Type where
  fromId : Nat
  toId : Nat
  relType : String
  fromLabel : String
  toLabel : String
  fromAppId : Option String
  toAppId : Option String
  confidence : Option ℚ

/-- The metadata-registration phase of one `Graph::load_edges` step:
register app ids (`entry(..).or_insert(..)`, first occurrence wins) and
node metadata (`entry(..).or_insert_with(..)`, first occurrence wins). -/
def Graph.loadRegister (g : Graph) (r : EdgeRecord) : Graph :=
  let g₁ :=
    match r.fromAppId with
    | some aid => { g with appIdIndex := aInsertIfAbsent aid r.fromId g.appIdIndex }
    | none => g
  let g₂ :=
    match r.toAppId with
    | some aid => { g₁ with appIdIndex := aInsertIfAbsent aid r.toId g₁.appIdIndex }
    | none => g₁
  let fromInfo : NodeInfo := { label := r.fromLabel, appId := r.fromAppId }
  let toInfo : NodeInfo := { label := r.toLabel, appId := r.toAppId }
  let g₃ := { g₂ with nodes := aInsertIfAbsent r.fromId fromInfo g₂.nodes }
  { g₃ with nodes := aInsertIfAbsent r.toId toInfo g₃.nodes }

/-- One step of `Graph::load_edges`: register app ids and nodes (first
occurrence wins), intern the type name, append the edge.  `none` when
interning overflows (fatal load error). -/
def Graph.loadEdgeRecord (g : Graph) (r : EdgeRecord) : Option Graph :=
  match (g.loadRegister r).internRelType r.relType with
  | none => none
  | some (rt, g₅) => some (g₅.addEdge r.fromId r.toId rt r.confidence)

/-- `Graph::load_edges` over a stream of records. -/
def Graph.loadEdges (g : Graph) : List EdgeRecord → Option Graph
  | [] => some g
  | r :: rest =>
    match g.loadEdgeRecord r with
    | none => none
    | some g' => g'.loadEdges rest

/-! ## Neighbor iteration (src/graph-accel/core/src/traversal.rs, `iter_neighbors`) -/

/-- The confidence filter applied by `iter_neighbors`
(`!e.has_confidence() || e.confidence >= min` under `Some(min)`). -/
def confidencePasses (minConfidence : Option ℚ) (e : Edge) : Bool :=
  match minConfidence with
  | none => true
  | some m =>
    !e.hasConfidence ||
      match e.confidence with
      | none => false
      | some c => decide (m ≤ c)

/-- `iter_neighbors`: outgoing entries (tagged `Outgoing`) then incoming
entries (tagged `Incoming`), masked by the direction filter, then
filtered by confidence. -/
def iterNeighbors (g : Graph) (node : Nat) (dir : TraversalDirection)
    (minConfidence : Option ℚ) : List (Edge × Direction) :=
  let useOut : Bool :=
    match dir with
    | .outgoingOnly => true
    | .incomingOnly => false
    | .both => true
  let useInc : Bool :=
    match dir with
    | .outgoingOnly => false
    | .incomingOnly => true
    | .both => true
  ((((g.neighborsOut node).map (fun e => (e, Direction.outgoing))).filter
      (fun _ => useOut)) ++
    (((g.neighborsIn node).map (fun e => (e, Direction.incoming))).filter
      (fun _ => useInc))).filter
    (fun p => confidencePasses minConfidence p.1)

/-- The confidence filter applied to emitted edges by `extract_subgraph`
(skip iff `e.has_confidence() && e.confidence < min`). -/
def subgraphEdgePasses (minConfidence : Option ℚ) (e : Edge) : Bool :=
  match minConfidence with
  | none => true
  | some m =>
    !(e.hasConfidence &&
      match e.confidence with
      | none => false
      | some c => decide (c < m))

/-! ## Generation protocol (src/graph-accel/ext/src/generation.rs) -/

/-- The host's `graph_accel.generation` table: graph name to generation
counter (one row per name; absence of a binding models absence of a row). -/
abbrev GenTable : Type := List (String × Int)

/-- `fetch_generation` against an accessible store: current generation, or
0 when no row exists (the inaccessible-store branch returns the SQL
error upward and is not modelled). -/
def fetchGeneration (t : GenTable) (graphName : String) : Int :=
  (alookup graphName t).getD 0

/-- `graph_accel_invalidate`: the SQL upsert
`INSERT .. VALUES (name, 1) ON CONFLICT DO UPDATE SET generation =
generation + 1 RETURNING generation`, plus the returned new generation. -/
def graphAccelInvalidate (t : GenTable) (graphName : String) : Int × GenTable :=
  match alookup graphName t with
  | none => (1, ainsert graphName 1 t)
  | some g => (g + 1, ainsert graphName (g + 1) t)

/-! ## Loaded state (src/graph-accel/ext/src/state.rs, load.rs) -/

/-- Per-connection loaded snapshot state (`GraphState`); `load_time_ms`
and `loaded_at` are wall-clock bookkeeping and are dropped. -/
structure GraphState : Type where
  graph : Graph
  sourceGraph : String
  loadedGeneration : Int

/-- Modelled from the spec: the part of `graph_accel_load` that installs
the new snapshot.  The `load.rs` snapshot under `src/` predates the
`loaded_generation` field of `GraphState` (declared in `state.rs`) and
does not initialise it; per the spec the load records the value returned
by `fetch` for the loaded graph name, fixed per load. -/
def graphAccelLoad (t : GenTable) (graphName : String) (g : Graph) : GraphState :=
  { graph := g, sourceGraph := graphName,
    loadedGeneration := fetchGeneration t graphName }

/-- The staleness predicate of `ensure_fresh` / `graph_accel_status`:
stale iff `loaded_generation < current generation`. -/
def isStale (st : GraphState) (t : GenTable) : Bool :=
  decide (st.loadedGeneration < fetchGeneration t st.sourceGraph)

/-! ## Host binding parameter handling (src/graph-accel/ext/src) -/

/-- `check_non_negative` (util.rs): fatal error (`none`) when the `i32`
parameter is negative, else the value as `u32`. -/
def checkNonNegative (v : Int) : Option Nat :=
  if v < 0 then none else some v.toNat

/-- Rust `v as u32` on an `i32` value: two's-complement wrap. -/
def i32AsU32 (v : Int) : Nat :=
  (v % (2 : Int) ^ 32).toNat

/-- How `graph_accel_neighborhood` treats its `max_depth` argument:
`max_depth as u32`, with no non-negativity check (neighborhood.rs). -/
def neighborhoodDepthArg (maxDepth : Int) : Option Nat :=
  some (i32AsU32 maxDepth)

/-- How `graph_accel_subgraph` treats its `max_depth` argument:
`max_depth as u32`, with no non-negativity check (subgraph.rs). -/
def subgraphDepthArg (maxDepth : Int) : Option Nat :=
  some (i32AsU32 maxDepth)

/-- How `graph_accel_path` treats its `max_hops` argument
(`check_non_negative(max_hops, "max_hops")`, path.rs). -/
def pathHopsArg (maxHops : Int) : Option Nat :=
  checkNonNegative maxHops

/-- How `graph_accel_paths` treats its `max_hops` and `max_paths`
arguments (both checked, path.rs). -/
def pathsArgs (maxHops maxPaths : Int) : Option (Nat × Nat) :=
  match checkNonNegative maxHops with
  | none => none
  | some h =>
    match checkNonNegative maxPaths with
    | none => none
    | some k => some (h, k)

/-! ## C4: the confidence filter -/

/-- C4 — An edge passes the confidence filter (in neighbor iteration and
in subgraph edge emission alike) iff `min_confidence` is absent, or the
edge's confidence is the NaN "not loaded" sentinel (modelled `none`), or
the confidence is ≥ the threshold; in particular a sentinel confidence
passes every threshold. -/
theorem confidence_filter_spec (e : Edge) (mc : Option ℚ) :
    (confidencePasses mc e = true ↔
      mc = none ∨ e.confidence = none ∨
        ∃ t c, mc = some t ∧ e.confidence = some c ∧ t ≤ c)
    ∧ subgraphEdgePasses mc e = confidencePasses mc e := by
  cases mc with
  | none => simp [confidencePasses, subgraphEdgePasses]
  | some m =>
    cases hc : e.confidence with
    | none =>
      simp [confidencePasses, subgraphEdgePasses, Edge.hasConfidence, hc]
    | some c =>
      constructor
      · constructor
        · intro h
          have hval : confidencePasses (some m) e = decide (m ≤ c) := by
            simp [confidencePasses, Edge.hasConfidence, hc]
          rw [hval] at h
          exact Or.inr (Or.inr ⟨m, c, rfl, rfl, of_decide_eq_true h⟩)
        · intro h
          rcases h with h | h | ⟨t, c', ht, hc', hlec⟩
          · exact absurd h (Option.some_ne_none m)
          · exact absurd h (Option.some_ne_none c)
          · have ht' : m = t := Option.some.inj ht
            have hc'' : c = c' := Option.some.inj hc'
            have hmc : m ≤ c := by
              rw [ht', hc'']
              exact hlec
            simp [confidencePasses, Edge.hasConfidence, hc, hmc]
      · simp only [confidencePasses, subgraphEdgePasses, Edge.hasConfidence, hc]
        by_cases hle : m ≤ c
        · simp [hle, not_lt.mpr hle]
        · simp [hle, lt_of_not_le hle]

/-! ## C5: generation counter -/

/-- C5 — `invalidate` returns 1 on the first call for a name, returns the
previous generation plus one on later calls (so successive calls return
strictly increasing values), and leaves every other name's generation
unchanged. -/
theorem generation_invalidate_spec (t : GenTable) (name other : String)
    (hne : other ≠ name) :
    (alookup name t = none → (graphAccelInvalidate t name).1 = 1)
    ∧ (∀ gval, alookup name t = some gval →
        (graphAccelInvalidate t name).1 = gval + 1)
    ∧ (graphAccelInvalidate (graphAccelInvalidate t name).2 name).1
        = (graphAccelInvalidate t name).1 + 1
    ∧ alookup other (graphAccelInvalidate t name).2 = alookup other t := by
  refine ⟨?_, ?_, ?_, ?_⟩
  · intro h
    simp [graphAccelInvalidate, h]
  · intro gval h
    simp [graphAccelInvalidate, h]
  · cases h : alookup name t with
    | none =>
      simp [graphAccelInvalidate, h, alookup_ainsert_self]
    | some gval =>
      simp [graphAccelInvalidate, h, alookup_ainsert_self]
  · cases h : alookup name t with
    | none =>
      simp only [graphAccelInvalidate, h]
      exact alookup_ainsert_ne name other 1 t (fun he => hne he.symm)
    | some gval =>
      simp only [graphAccelInvalidate, h]
      exact alookup_ainsert_ne name other (gval + 1) t (fun he => hne he.symm)

/-- Witness for C5 at a concrete table and names. -/
theorem generation_invalidate_spec_witness :
    (graphAccelInvalidate [] "g").1 = 1
    ∧ (graphAccelInvalidate (graphAccelInvalidate [] "g").2 "g").1
        = (graphAccelInvalidate [] "g").1 + 1
    ∧ alookup "h" (graphAccelInvalidate [] "g").2 = alookup "h" ([] : GenTable) :=
  have h := generation_invalidate_spec [] "g" "h" (by decide)
  ⟨h.1 rfl, h.2.2.1, h.2.2.2⟩

/-! ## C6: load records the fetched generation -/

/-- C6 — A successful load installs a snapshot whose `loaded_generation`
equals the value `fetch` returns for the loaded graph name, so the fresh
snapshot is not stale against the same table state.  (Modelled from the
spec: see `graphAccelLoad`.) -/
theorem load_records_generation (t : GenTable) (gname : String) (g : Graph) :
    (graphAccelLoad t gname g).loadedGeneration = fetchGeneration t gname
    ∧ isStale (graphAccelLoad t gname g) t = false := by
  constructor
  · rfl
  · simp [isStale, graphAccelLoad]

/-! ## C8: negative depth/hops/paths parameters -/

/-- C8 — Evaluation of the entry-point parameter handling at the failing
input `-1`: `graph_accel_path` / `graph_accel_paths` reject a negative
`max_hops` / `max_paths` with a fatal error (`none`), but
`graph_accel_neighborhood` and `graph_accel_subgraph` pass `max_depth`
through `as u32`, reinterpreting `-1` as `4294967295` and proceeding
with the traversal — contradicting the claim for those entry points. -/
theorem negative_params_divergence :
    neighborhoodDepthArg (-1) = some 4294967295
    ∧ subgraphDepthArg (-1) = some 4294967295
    ∧ checkNonNegative (-1) = none
    ∧ pathHopsArg (-1) = none
    ∧ pathsArgs 10 (-1) = none := by
  refine ⟨?_, ?_, ?_, ?_, ?_⟩ <;> decide

/-! ## C7: relationship-type interning bound -/

/-- `i` pairwise-distinct relationship-type names (distinct lengths). -/
def nmStr (i : Nat) : String :=
  String.mk (List.replicate i 'a')

theorem nmStr_inj {i j : Nat} (h : nmStr i = nmStr j) : i = j := by
  have hd : List.replicate i 'a' = List.replicate j 'a' := congrArg String.data h
  have := congrArg List.length hd
  simpa using this

/-- Intern a list of names in order, discarding the returned ids
(`none` as soon as one intern call fails fatally). -/
def internList (g : Graph) : List String → Option Graph
  | [] => some g
  | n :: rest =>
    match g.internRelType n with
    | none => none
    | some (_, g') => internList g' rest

theorem internList_append (g : Graph) (l₁ l₂ : List String) :
    internList g (l₁ ++ l₂) =
      match internList g l₁ with
      | none => none
      | some g' => internList g' l₂ := by
  induction l₁ generalizing g with
  | nil => simp [internList]
  | cons n rest ih =>
    simp only [List.cons_append, internList]
    cases g.internRelType n with
    | none => rfl
    | some p => exact ih p.2

/-- The first `k` distinct names. -/
def namesUpTo (k : Nat) : List String :=
  (List.range k).map nmStr

theorem alookup_nmStr_of_not_mem (k : Nat) (l : List Nat) (hk : k ∉ l) :
    alookup (nmStr k) (l.map fun j => (nmStr j, j)) = none := by
  induction l with
  | nil => rfl
  | cons j rest ih =>
    have hjk : nmStr j ≠ nmStr k := by
      intro he
      exact hk (by simp [nmStr_inj he])
    simp only [List.map_cons, alookup, if_neg hjk]
    exact ih (fun hm => hk (List.mem_cons_of_mem j hm))

/-- Interning the first `k ≤ 65535` distinct names succeeds and produces
the dense table `0, 1, …, k−1`. -/
theorem internList_namesUpTo (k : Nat) (hk : k ≤ MAX_REL_TYPES) :
    internList Graph.empty (namesUpTo k) =
      some { Graph.empty with
        relTypes := namesUpTo k,
        relTypeMap := (List.range k).map fun j => (nmStr j, j) } := by
  induction k with
  | zero => rfl
  | succ n ih =>
    have hn : n ≤ MAX_REL_TYPES := Nat.le_of_succ_le hk
    have hrange : List.range (n + 1) = List.range n ++ [n] := List.range_succ n
    have hnames : namesUpTo (n + 1) = namesUpTo n ++ [nmStr n] := by
      simp [namesUpTo, hrange]
    rw [hnames, internList_append, ih hn]
    have hfresh : alookup (nmStr n)
        ((List.range n).map fun j => (nmStr j, j)) = none :=
      alookup_nmStr_of_not_mem n (List.range n) (by simp)
    have hlen : (namesUpTo n).length = n := by simp [namesUpTo]
    simp only [internList, Graph.internRelType, hfresh, hlen]
    rw [if_pos (Nat.lt_of_lt_of_le (Nat.lt_succ_of_le (Nat.le_refl n)) hk)]
    simp only [internList]
    rw [ainsert_of_absent _ _ _ hfresh]
    simp [namesUpTo, hrange]

theorem internRelType_eq_none (g : Graph) (name : String)
    (hfresh : alookup name g.relTypeMap = none)
    (hlen : MAX_REL_TYPES ≤ g.relTypes.length) :
    g.internRelType name = none := by
  simp [Graph.internRelType, hfresh, Nat.not_lt.mpr hlen]

theorem internList_single_fail (g : Graph) (name : String)
    (h : g.internRelType name = none) : internList g [name] = none := by
  simp [internList, h]

/-- The interner state after loading 65,535 distinct names. -/
def g65535 : Graph :=
  { Graph.empty with
    relTypes := namesUpTo 65535,
    relTypeMap := (List.range 65535).map fun j => (nmStr j, j) }

/-- C7 counterexample — the claim says the first 65,536 distinct names
all intern successfully (failure starts at would-be id ≥ 65,536).  In
fact interning 65,535 distinct names succeeds but the 65,536th distinct
name (would-be id 65,535) already fails fatally. -/
theorem intern_bound_counterexample :
    (internList Graph.empty (namesUpTo 65535)).isSome = true
    ∧ internList Graph.empty (namesUpTo 65536) = none := by
  have hload : internList Graph.empty (namesUpTo 65535) = some g65535 :=
    internList_namesUpTo 65535 (Nat.le_refl _)
  constructor
  · rw [hload]
    rfl
  · have hr : List.range 65536 = List.range 65535 ++ [65535] := List.range_succ 65535
    have hnames : namesUpTo 65536 = namesUpTo 65535 ++ [nmStr 65535] := by
      rw [namesUpTo, hr]
      simp [namesUpTo]
    have hmap : g65535.relTypeMap = (List.range 65535).map fun j => (nmStr j, j) := by
      simp only [g65535]
    have hrt : g65535.relTypes = namesUpTo 65535 := by
      simp only [g65535]
    have hfresh : alookup (nmStr 65535) g65535.relTypeMap = none := by
      rw [hmap]
      exact alookup_nmStr_of_not_mem 65535 (List.range 65535) (by simp)
    have hlen : MAX_REL_TYPES ≤ g65535.relTypes.length := by
      have h : (namesUpTo 65535).length = 65535 := by
        rw [namesUpTo, List.length_map, List.length_range]
      rw [hrt, h]
      exact Nat.le_refl 65535
    rw [hnames, internList_append, hload]
    exact internList_single_fail g65535 (nmStr 65535)
      (internRelType_eq_none g65535 (nmStr 65535) hfresh hlen)

/-- C7 (amended) — interning an already-present name returns its existing
id with the graph unchanged; interning a new name while fewer than
65,535 types exist appends it, returns the next dense id (= current
count), and the new id resolves back to the name; and interning fails
fatally exactly when the name is new and the would-be id is ≥ 65,535
(not 65,536: the 65,536th distinct name is the first to fail). -/
theorem intern_rel_type_spec (g : Graph) (name : String) :
    (∀ id, alookup name g.relTypeMap = some id →
      g.internRelType name = some (id, g))
    ∧ (alookup name g.relTypeMap = none → g.relTypes.length < MAX_REL_TYPES →
        ∃ g', g.internRelType name = some (g.relTypes.length, g')
          ∧ g'.relTypes = g.relTypes ++ [name]
          ∧ g'.relTypeName g.relTypes.length = some name)
    ∧ (g.internRelType name = none ↔
        alookup name g.relTypeMap = none ∧ MAX_REL_TYPES ≤ g.relTypes.length) := by
  refine ⟨?_, ?_, ?_⟩
  · intro id h
    simp [Graph.internRelType, h]
  · intro h hlt
    let gNew : Graph :=
      { g with relTypes := g.relTypes ++ [name],
               relTypeMap := ainsert name g.relTypes.length g.relTypeMap }
    refine ⟨gNew, ?_, rfl, ?_⟩
    · simp [Graph.internRelType, h, hlt, gNew]
    · show (g.relTypes ++ [name]).get? g.relTypes.length = some name
      simp
  · constructor
    · intro h
      cases hl : alookup name g.relTypeMap with
      | some id => simp [Graph.internRelType, hl] at h
      | none =>
        refine ⟨rfl, ?_⟩
        by_cases hlt : g.relTypes.length < MAX_REL_TYPES
        · simp [Graph.internRelType, hl, hlt] at h
        · exact Nat.le_of_not_lt hlt
    · rintro ⟨hl, hge⟩
      simp [Graph.internRelType, hl, Nat.not_lt.mpr hge]

/-- Witness for C7's amended theorem at a concrete graph and name. -/
theorem intern_rel_type_spec_witness :
    Graph.empty.internRelType "R" = some (0, Graph.empty)
      ∨ (∃ g', Graph.empty.internRelType "R"
            = some (Graph.empty.relTypes.length, g')
          ∧ g'.relTypes = Graph.empty.relTypes ++ ["R"]
          ∧ g'.relTypeName Graph.empty.relTypes.length = some "R") :=
  Or.inr ((intern_rel_type_spec Graph.empty "R").2.1 rfl (by decide))

/-! ## C9: app-id index registration -/

/-- C9 counterexample — a later `add_node` with an already-registered
app id overwrites the index entry: after `add_node(1, "A", "x")` then
`add_node(2, "B", "x")` the index maps `"x"` to 2, not to the first
occurrence 1. -/
theorem app_id_first_wins_counterexample :
    alookup "x"
        ((Graph.empty.addNode 1 "A" (some "x")).addNode 2 "B" (some "x")).appIdIndex
      = some 2
    ∧ (2 : Nat) ≠ 1 := by
  constructor
  · rfl
  · decide

theorem internRelType_appIdIndex (g : Graph) (n : String) (id : Nat) (g' : Graph)
    (h : g.internRelType n = some (id, g')) : g'.appIdIndex = g.appIdIndex := by
  unfold Graph.internRelType at h
  cases hl : alookup n g.relTypeMap with
  | some i =>
    rw [hl] at h
    cases h
    rfl
  | none =>
    rw [hl] at h
    by_cases hlt : g.relTypes.length < MAX_REL_TYPES
    · rw [if_pos hlt] at h
      cases h
      rfl
    · rw [if_neg hlt] at h
      cases h

theorem loadRegister_preserves_appId (g : Graph) (r : EdgeRecord)
    (s : String) (v : Nat) (h : alookup s g.appIdIndex = some v) :
    alookup s (g.loadRegister r).appIdIndex = some v := by
  unfold Graph.loadRegister
  cases r.fromAppId with
  | none =>
    cases r.toAppId with
    | none => exact h
    | some aid₂ => exact alookup_aInsertIfAbsent_present _ _ _ _ _ h
  | some aid₁ =>
    cases r.toAppId with
    | none => exact alookup_aInsertIfAbsent_present _ _ _ _ _ h
    | some aid₂ =>
      exact alookup_aInsertIfAbsent_present _ _ _ _ _
        (alookup_aInsertIfAbsent_present _ _ _ _ _ h)

theorem loadEdgeRecord_preserves_appId (g : Graph) (r : EdgeRecord) (g' : Graph)
    (s : String) (v : Nat) (hload : g.loadEdgeRecord r = some g')
    (h : alookup s g.appIdIndex = some v) :
    alookup s g'.appIdIndex = some v := by
  unfold Graph.loadEdgeRecord at hload
  cases hi : (g.loadRegister r).internRelType r.relType with
  | none =>
    rw [hi] at hload
    cases hload
  | some p =>
    rw [hi] at hload
    cases hload
    have h₂ : p.2.appIdIndex = (g.loadRegister r).appIdIndex :=
      internRelType_appIdIndex (g.loadRegister r) r.relType p.1 p.2 (by
        rw [hi])
    show alookup s (Graph.addEdge p.2 r.fromId r.toId p.1 r.confidence).appIdIndex
      = some v
    have hproj : (Graph.addEdge p.2 r.fromId r.toId p.1 r.confidence).appIdIndex
        = p.2.appIdIndex := rfl
    rw [hproj, h₂]
    exact loadRegister_preserves_appId g r s v h

/-- C9 (amended) — once `app_id_index` maps `s` to a node, later
`load_edges` records never change that mapping (first occurrence wins
there), but a later `add_node` carrying the same app id overwrites the
mapping to the new node id. -/
theorem app_id_index_spec (g : Graph) (s : String) (v : Nat) :
    (∀ recs g', alookup s g.appIdIndex = some v → g.loadEdges recs = some g' →
      alookup s g'.appIdIndex = some v)
    ∧ (∀ id label, alookup s ((g.addNode id label (some s)).appIdIndex) = some id) := by
  constructor
  · intro recs
    induction recs generalizing g with
    | nil =>
      intro g' h hload
      cases hload
      exact h
    | cons r rest ih =>
      intro g' h hload
      unfold Graph.loadEdges at hload
      cases hr : g.loadEdgeRecord r with
      | none =>
        rw [hr] at hload
        cases hload
      | some g₁ =>
        rw [hr] at hload
        exact ih g₁ g' (loadEdgeRecord_preserves_appId g r g₁ s v hr h) hload
  · intro id label
    show alookup s (ainsert s id g.appIdIndex) = some id
    exact alookup_ainsert_self s id g.appIdIndex

/-- Witness for C9's amended theorem at a concrete graph. -/
theorem app_id_index_spec_witness :
    alookup "s" ((Graph.empty.addNode 5 "L" (some "s")).appIdIndex) = some 5
    ∧ alookup "s"
        (((Graph.empty.addNode 5 "L" (some "s")).addNode 7 "M" (some "s")).appIdIndex)
      = some 7 :=
  have h := app_id_index_spec (Graph.empty.addNode 5 "L" (some "s")) "s" 5
  ⟨h.1 [] _ rfl rfl, (app_id_index_spec _ "s" 5).2 7 "M"⟩

/-! ## Path steps and reconstruction (traversal.rs) -/

/-- A single step of a shortest path (`PathStep` in the source). -/
structure PathStep : Type where
  nodeId : Nat
  label : String
  appId : Option String
  relType : Option String
  direction : Option Direction
  deriving DecidableEq

/-- The single-step path returned when `start == target`. -/
def selfPathStep (g : Graph) (start : Nat) : PathStep :=
  { nodeId := start,
    label := ((g.node start).map NodeInfo.label).getD "",
    appId := (g.node start).bind NodeInfo.appId,
    relType := none,
    direction := none }

/-- Visited map of the shortest-path BFS:
node ↦ (parent, rel_type, traversed direction). -/
abbrev SpVis : Type := List (Nat × (Nat × Nat × Direction))

/-- The `PathStep` emitted by `reconstruct_sp_path` for one visited node:
label and app id from the node metadata, rel type and direction absent
exactly for the start node. -/
def spStepOf (g : Graph) (start current rt : Nat) (dr : Direction) : PathStep :=
  { nodeId := current,
    label := ((g.node current).map NodeInfo.label).getD "",
    appId := (g.node current).bind NodeInfo.appId,
    relType := if current = start then none else g.relTypeName rt,
    direction := if current = start then none else some dr }

/-- `reconstruct_sp_path`: walk parent pointers from `current` back to
`start`, emitting one `PathStep` per node (start first).  The source
walks a `loop` and reverses; here the walk recurses on explicit fuel and
appends, which produces the same list; `none` models the two ways the
source walk would misbehave (a missing key panics, a parent cycle hangs)
— both are proved unreachable for BFS-produced maps. -/
def reconstructSpPath (g : Graph) (vis : SpVis) (start : Nat) :
    Nat → Nat → Option (List PathStep)
  | 0, _ => none
  | fuel + 1, current =>
    match alookup current vis with
    | none => none
    | some (parent, rt, dr) =>
      if current = start then
        some [spStepOf g start current rt dr]
      else
        match reconstructSpPath g vis start fuel parent with
        | none => none
        | some l => some (l ++ [spStepOf g start current rt dr])

/-! ## Spec-side step relation and distances

The reference notion of one traversal step: there is an edge in the
direction- and confidence-filtered neighbor list of `v` leading to `w`,
and `w` / the edge are not excluded. -/

/-- One allowed step from `v` to `w` for the plain traversals. -/
def stepB (g : Graph) (dir : TraversalDirection) (mc : Option ℚ)
    (v w : Nat) : Bool :=
  (iterNeighbors g v dir mc).any (fun p => decide (p.1.target = w))

/-- One allowed step from `v` to `w` for the exclusion-aware traversal
(Yen's inner search): an allowed plain step whose target node is not
excluded and whose (from, to) pair is not an excluded edge. -/
def stepExB (g : Graph) (dir : TraversalDirection) (mc : Option ℚ)
    (exn : List Nat) (exe : List (Nat × Nat)) (v w : Nat) : Bool :=
  stepB g dir mc v w && !(exn.any fun n => decide (n = w)) &&
    !(exe.any fun p => decide (p = (v, w)))

/-- Paths of a given hop count over an abstract step function:
`RPath R a b n` holds when there is a walk of exactly `n` steps from `a`
to `b`, each step allowed by `R`. -/
inductive RPath (R : Nat → Nat → Bool) : Nat → Nat → Nat → Prop where
  | single (a : Nat) : RPath R a a 0
  | snoc {a b c : Nat} {n : Nat} :
      RPath R a b n → R b c = true → RPath R a c (n + 1)

/-- `d` is the true shortest-path distance from `a` to `b` over `R`. -/
def IsDist (R : Nat → Nat → Bool) (a b d : Nat) : Prop :=
  RPath R a b d ∧ ∀ e, RPath R a b e → d ≤ e

theorem isDist_unique {R : Nat → Nat → Bool} {a b d d' : Nat}
    (h : IsDist R a b d) (h' : IsDist R a b d') : d = d' :=
  Nat.le_antisymm (h.2 d' h'.1) (h'.2 d h.1)

theorem isDist_exists {R : Nat → Nat → Bool} {a b n : Nat}
    (h : RPath R a b n) : ∃ d, IsDist R a b d ∧ d ≤ n := by
  classical
  let P : Nat → Prop := fun m => RPath R a b m
  have hP : ∃ m, P m := ⟨n, h⟩
  refine ⟨Nat.find hP, ⟨Nat.find_spec hP, ?_⟩, Nat.find_min' hP h⟩
  intro e he
  exact Nat.find_min' hP he

theorem rpath_mono {R R' : Nat → Nat → Bool}
    (hsub : ∀ v w, R v w = true → R' v w = true) {a b n : Nat}
    (h : RPath R a b n) : RPath R' a b n := by
  induction h with
  | single => exact RPath.single _
  | snoc p hr ih => exact RPath.snoc ih (hsub _ _ hr)

/-- Crossing lemma: a path from inside a set to outside it contains a
step out of the set, at a shorter prefix distance. -/
theorem rpath_crossing {R : Nat → Nat → Bool} {a b n : Nat}
    (P : Nat → Prop) (h : RPath R a b n) (ha : P a) (hb : ¬ P b) :
    ∃ u v m, RPath R a u m ∧ m < n ∧ R u v = true ∧ P u ∧ ¬ P v := by
  induction h with
  | single => exact absurd ha hb
  | @snoc b c m p hr ih =>
    by_cases hp : P b
    · exact ⟨b, c, m, p, Nat.lt_succ_self m, hr, hp, hb⟩
    · obtain ⟨u, v, m', pu, hm, hruv, hpu, hpv⟩ := ih hp
      exact ⟨u, v, m', pu, Nat.lt_succ_of_lt hm, hruv, hpu, hpv⟩

/-! ## Fuel bound for the BFS loops -/

/-- Every node id that occurs as a stored edge target (in either
adjacency map). -/
def allTargets (g : Graph) : List Nat :=
  (g.outgoing.map (fun p => p.2.map Edge.target)).flatten ++
    (g.incoming.map (fun p => p.2.map Edge.target)).flatten

/-- Upper bound on the size of a BFS visited map seeded at one start. -/
def visBound (g : Graph) : Nat :=
  1 + (allTargets g).length

theorem alookup_mem {α β : Type} [DecidableEq α] {k : α} {v : β}
    {l : List (α × β)} (h : alookup k l = some v) : (k, v) ∈ l := by
  induction l with
  | nil => simp [alookup] at h
  | cons hd t ih =>
    obtain ⟨a, b⟩ := hd
    by_cases hak : a = k
    · subst hak
      have hbv : some b = some v := by simpa [alookup] using h
      cases Option.some.inj hbv
      exact List.mem_cons_self _ _
    · simp only [alookup, if_neg hak] at h
      exact List.mem_cons_of_mem _ (ih h)

theorem neighborsOut_targets_mem (g : Graph) (v : Nat) (e : Edge)
    (he : e ∈ g.neighborsOut v) : e.target ∈ allTargets g := by
  unfold Graph.neighborsOut at he
  cases hl : alookup v g.outgoing with
  | none => simp [hl] at he
  | some edges =>
    rw [hl] at he
    simp only [Option.getD_some] at he
    have hp : (v, edges) ∈ g.outgoing := alookup_mem hl
    unfold allTargets
    refine List.mem_append_left _ ?_
    rw [List.mem_flatten]
    exact ⟨edges.map Edge.target, List.mem_map_of_mem _ hp, List.mem_map_of_mem _ he⟩

theorem neighborsIn_targets_mem (g : Graph) (v : Nat) (e : Edge)
    (he : e ∈ g.neighborsIn v) : e.target ∈ allTargets g := by
  unfold Graph.neighborsIn at he
  cases hl : alookup v g.incoming with
  | none => simp [hl] at he
  | some edges =>
    rw [hl] at he
    simp only [Option.getD_some] at he
    have hp : (v, edges) ∈ g.incoming := alookup_mem hl
    unfold allTargets
    refine List.mem_append_right _ ?_
    rw [List.mem_flatten]
    exact ⟨edges.map Edge.target, List.mem_map_of_mem _ hp, List.mem_map_of_mem _ he⟩

theorem iterNeighbors_target_mem (g : Graph) (v : Nat)
    (dir : TraversalDirection) (mc : Option ℚ) (e : Edge) (dr : Direction)
    (he : (e, dr) ∈ iterNeighbors g v dir mc) : e.target ∈ allTargets g := by
  unfold iterNeighbors at he
  rw [List.mem_filter] at he
  rcases List.mem_append.mp he.1 with hmem | hmem
  · have := (List.mem_filter.mp hmem).1
    obtain ⟨e', he', heq⟩ := List.mem_map.mp this
    cases heq
    exact neighborsOut_targets_mem g v e he'
  · have := (List.mem_filter.mp hmem).1
    obtain ⟨e', he', heq⟩ := List.mem_map.mp this
    cases heq
    exact neighborsIn_targets_mem g v e he'

/-! ## Shortest-path BFS loop (traversal.rs, `shortest_path` /
`shortest_path_excluding`)

The two source functions share one loop body; `shortest_path` is the
instance with empty exclusion sets (its compiled form elides the two
always-false membership tests, exactly as the checks on `[]` reduce
here).  The loop recursion is bounded by explicit fuel; `visBound`-many
steps are proved sufficient, matching the source's termination by
visited-set pruning. -/

/-- Expansion of one dequeued node over its filtered neighbor list, with
early exit (`Sum.inr`) as soon as the target is inserted. -/
def speExpand (g : Graph) (exn : List Nat) (exe : List (Nat × Nat))
    (target cur depth : Nat) :
    List (Edge × Direction) → SpVis → List (Nat × Nat) →
    (SpVis × List (Nat × Nat)) ⊕ SpVis
  | [], vis, adds => Sum.inl (vis, adds)
  | (e, dr) :: rest, vis, adds =>
    if exn.any fun n => decide (n = e.target) then
      speExpand g exn exe target cur depth rest vis adds
    else if exe.any fun p => decide (p = (cur, e.target)) then
      speExpand g exn exe target cur depth rest vis adds
    else if (alookup e.target vis).isSome then
      speExpand g exn exe target cur depth rest vis adds
    else
      let vis' := vis ++ [(e.target, (cur, e.relType, dr))]
      if e.target = target then Sum.inr vis'
      else speExpand g exn exe target cur depth rest vis' (adds ++ [(e.target, depth + 1)])

/-- The BFS loop of `shortest_path(_excluding)`: pop the queue front,
skip expansion at `depth ≥ max_hops`, otherwise expand; `some vis` as
soon as the target is inserted, `none` when the queue empties. -/
def speLoop (g : Graph) (dir : TraversalDirection) (mc : Option ℚ)
    (maxHops target : Nat) (exn : List Nat) (exe : List (Nat × Nat)) :
    Nat → List (Nat × Nat) → SpVis → Option SpVis
  | 0, _, _ => none
  | _ + 1, [], _ => none
  | fuel + 1, (cur, depth) :: qs, vis =>
    if maxHops ≤ depth then
      speLoop g dir mc maxHops target exn exe fuel qs vis
    else
      match speExpand g exn exe target cur depth
          (iterNeighbors g cur dir mc) vis [] with
      | Sum.inr vis' => some vis'
      | Sum.inl (vis', adds) =>
        speLoop g dir mc maxHops target exn exe fuel (qs ++ adds) vis'

/-- `shortest_path_excluding` (traversal.rs 416-480): pre-checks, the
`start == target` self path, `max_hops = 0`, then the BFS loop with
reconstruction on success. -/
def shortestPathExcluding (g : Graph) (start target maxHops : Nat)
    (dir : TraversalDirection) (mc : Option ℚ)
    (exn : List Nat) (exe : List (Nat × Nat)) : Option (List PathStep) :=
  match g.node start, g.node target with
  | some _, some _ =>
    if (exn.any fun n => decide (n = start)) ||
        (exn.any fun n => decide (n = target)) then
      none
    else if start = target then
      some [selfPathStep g start]
    else if maxHops = 0 then
      none
    else
      match speLoop g dir mc maxHops target exn exe (visBound g)
          [(start, 0)] [(start, (start, 0, Direction.outgoing))] with
      | none => none
      | some vis' => reconstructSpPath g vis' start vis'.length target
  | _, _ => none

/-- `shortest_path` (traversal.rs 207-261): the same loop with no
exclusions. -/
def shortestPath (g : Graph) (start target maxHops : Nat)
    (dir : TraversalDirection) (mc : Option ℚ) : Option (List PathStep) :=
  match g.node start, g.node target with
  | some _, some _ =>
    if start = target then
      some [selfPathStep g start]
    else if maxHops = 0 then
      none
    else
      match speLoop g dir mc maxHops target [] [] (visBound g)
          [(start, 0)] [(start, (start, 0, Direction.outgoing))] with
      | none => none
      | some vis' => reconstructSpPath g vis' start vis'.length target
  | _, _ => none

/-! ## Walk lemmas -/

theorem reconstructSpPath_append (g : Graph) (vis ext : SpVis) (start : Nat)
    (fuel n : Nat) (l : List PathStep)
    (h : reconstructSpPath g vis start fuel n = some l) :
    reconstructSpPath g (vis ++ ext) start fuel n = some l := by
  induction fuel generalizing n l with
  | zero => simp [reconstructSpPath] at h
  | succ fuel ih =>
    unfold reconstructSpPath at h ⊢
    cases hl : alookup n vis with
    | none => rw [hl] at h; cases h
    | some entry =>
      rw [hl] at h
      have hl' : alookup n (vis ++ ext) = some entry := by
        rw [alookup_append, hl]
      rw [hl']
      obtain ⟨parent, rt, dr⟩ := entry
      by_cases hns : n = start
      · simp only [if_pos hns] at h ⊢
        exact h
      · simp only [if_neg hns] at h ⊢
        cases hrec : reconstructSpPath g vis start fuel parent with
        | none => rw [hrec] at h; cases h
        | some l' =>
          rw [hrec] at h
          rw [ih parent l' hrec]
          exact h

theorem reconstructSpPath_fuel_mono (g : Graph) (vis : SpVis) (start : Nat)
    (fuel fuel' n : Nat) (l : List PathStep) (hf : fuel ≤ fuel')
    (h : reconstructSpPath g vis start fuel n = some l) :
    reconstructSpPath g vis start fuel' n = some l := by
  induction fuel generalizing fuel' n l with
  | zero => simp [reconstructSpPath] at h
  | succ fuel ih =>
    obtain ⟨fuel'', rfl⟩ : ∃ k, fuel' = k + 1 := by
      cases fuel' with
      | zero => exact absurd hf (by simp)
      | succ k => exact ⟨k, rfl⟩
    have hf' : fuel ≤ fuel'' := Nat.le_of_succ_le_succ hf
    unfold reconstructSpPath at h ⊢
    cases hl : alookup n vis with
    | none => rw [hl] at h; cases h
    | some entry =>
      rw [hl] at h
      obtain ⟨parent, rt, dr⟩ := entry
      by_cases hns : n = start
      · simp only [if_pos hns] at h ⊢
        exact h
      · simp only [if_neg hns] at h ⊢
        cases hrec : reconstructSpPath g vis start fuel parent with
        | none => rw [hrec] at h; cases h
        | some l' =>
          rw [hrec] at h
          rw [ih fuel'' parent l' hf' hrec]
          exact h

/-! ## Auxiliary lemmas for the BFS invariant -/

/-- Keys of a visited map, in insertion order. -/
def visKeys {β : Type} (vis : List (Nat × β)) : List Nat :=
  vis.map Prod.fst

theorem alookup_eq_none_iff {α β : Type} [DecidableEq α] (k : α)
    (l : List (α × β)) : alookup k l = none ↔ k ∉ l.map Prod.fst := by
  induction l with
  | nil => simp [alookup]
  | cons hd t ih =>
    obtain ⟨a, b⟩ := hd
    by_cases hak : a = k
    · subst hak
      simp [alookup]
    · simp only [alookup, if_neg hak, List.map_cons, List.mem_cons]
      rw [ih]
      constructor
      · intro h hmem
        rcases hmem with he | hm
        · exact hak he.symm
        · exact h hm
      · intro h hm
        exact h (Or.inr hm)

theorem alookup_isSome_iff {α β : Type} [DecidableEq α] (k : α)
    (l : List (α × β)) : (alookup k l).isSome = true ↔ k ∈ l.map Prod.fst := by
  constructor
  · intro h
    by_contra hmem
    rw [← alookup_eq_none_iff] at hmem
    rw [hmem] at h
    cases h
  · intro h
    cases hl : alookup k l with
    | none => exact absurd ((alookup_eq_none_iff k l).mp hl) (by simp [h])
    | some v => rfl

theorem nodup_length_le_of_subset {α : Type} [DecidableEq α]
    {l l' : List α} (hn : l.Nodup) (hs : ∀ x ∈ l, x ∈ l') :
    l.length ≤ l'.length := by
  calc l.length = l.toFinset.card := (List.toFinset_card_of_nodup hn).symm
    _ ≤ l'.toFinset.card := Finset.card_le_card (by
        intro x hx
        rw [List.mem_toFinset] at hx
        rw [List.mem_toFinset]
        exact hs x hx)
    _ ≤ l'.length := l'.toFinset_card_le

theorem rpath_zero {R : Nat → Nat → Bool} {a b : Nat}
    (h : RPath R a b 0) : a = b := by
  cases h
  rfl

/-- The full BFS invariant for the shortest-path loop (shared by
`shortest_path` and `shortest_path_excluding`). -/
structure SpeInv (g : Graph) (dir : TraversalDirection) (mc : Option ℚ)
    (maxHops target start : Nat) (exn : List Nat) (exe : List (Nat × Nat))
    (q : List (Nat × Nat)) (vis : SpVis) (k : Nat) : Prop where
  nodup : (visKeys vis).Nodup
  startMem : alookup start vis = some (start, 0, Direction.outgoing)
  keysSub : ∀ n ∈ visKeys vis, n = start ∨ n ∈ allTargets g
  tgtNot : alookup target vis = none
  visExn : ∀ n ∈ visKeys vis, (exn.any fun m => decide (m = n)) = false
  walkOk : ∀ n ∈ visKeys vis, ∃ l d,
      reconstructSpPath g vis start vis.length n = some l ∧
      IsDist (stepExB g dir mc exn exe) start n d ∧
      l.length = d + 1 ∧
      (l.map PathStep.nodeId).Nodup ∧
      (∀ m ∈ l.map PathStep.nodeId, m ∈ visKeys vis) ∧
      (l.map PathStep.nodeId).head? = some start ∧
      (l.map PathStep.nodeId).getLast? = some n
  qmem : ∀ p ∈ q, p.1 ∈ visKeys vis ∧
      IsDist (stepExB g dir mc exn exe) start p.1 p.2
  qbound : ∀ p ∈ q, p.2 ≤ maxHops
  qsplit : ∃ A B, q = A ++ B ∧ (∀ p ∈ A, p.2 = k) ∧ (∀ p ∈ B, p.2 = k + 1)
  level : ∀ n d, IsDist (stepExB g dir mc exn exe) start n d → d ≤ k →
      n ∈ visKeys vis
  qcover : ∀ n ∈ visKeys vis, ∀ d,
      IsDist (stepExB g dir mc exn exe) start n d → d < maxHops →
      n ∈ q.map Prod.fst ∨
        ∀ w, stepExB g dir mc exn exe n w = true → w ∈ visKeys vis

/-- The per-node facts maintained for every visited map of the
shortest-path BFS. -/
def WalkSpec (g : Graph) (dir : TraversalDirection) (mc : Option ℚ)
    (exn : List Nat) (exe : List (Nat × Nat)) (start : Nat)
    (vis : SpVis) : Prop :=
  ∀ n ∈ visKeys vis, ∃ l d,
    reconstructSpPath g vis start vis.length n = some l ∧
    IsDist (stepExB g dir mc exn exe) start n d ∧
    l.length = d + 1 ∧
    (l.map PathStep.nodeId).Nodup ∧
    (∀ m ∈ l.map PathStep.nodeId, m ∈ visKeys vis) ∧
    (l.map PathStep.nodeId).head? = some start ∧
    (l.map PathStep.nodeId).getLast? = some n

/-- The visited-map part of the BFS invariant. -/
def VisGood (g : Graph) (dir : TraversalDirection) (mc : Option ℚ)
    (exn : List Nat) (exe : List (Nat × Nat)) (start : Nat)
    (vis : SpVis) : Prop :=
  (visKeys vis).Nodup ∧
  alookup start vis = some (start, 0, Direction.outgoing) ∧
  (∀ n ∈ visKeys vis, n = start ∨ n ∈ allTargets g) ∧
  (∀ n ∈ visKeys vis, (exn.any fun m => decide (m = n)) = false) ∧
  WalkSpec g dir mc exn exe start vis

theorem visKeys_append {β : Type} (vis ext : List (Nat × β)) :
    visKeys (vis ++ ext) = visKeys vis ++ visKeys ext := by
  simp [visKeys]

theorem start_mem_keys {vis : SpVis} {start : Nat}
    (h : alookup start vis = some (start, 0, Direction.outgoing)) :
    start ∈ visKeys vis := by
  rw [visKeys, ← alookup_isSome_iff start vis, h]
  rfl

/-- Adding one freshly discovered node to the visited map preserves the
visited-map invariant, and the new node's true distance is exactly one
more than its parent's. -/
theorem visInsert_good (g : Graph) (dir : TraversalDirection) (mc : Option ℚ)
    (exn : List Nat) (exe : List (Nat × Nat)) (start cur k w rt : Nat)
    (dr : Direction) (vis : SpVis)
    (hvg : VisGood g dir mc exn exe start vis)
    (hcur : cur ∈ visKeys vis)
    (hcurd : IsDist (stepExB g dir mc exn exe) start cur k)
    (hwfresh : alookup w vis = none)
    (hstep : stepExB g dir mc exn exe cur w = true)
    (hlevel : ∀ n d, IsDist (stepExB g dir mc exn exe) start n d → d ≤ k →
      n ∈ visKeys vis)
    (hwexn : (exn.any fun m => decide (m = w)) = false)
    (hwtgt : w ∈ allTargets g) :
    VisGood g dir mc exn exe start (vis ++ [(w, (cur, rt, dr))]) ∧
      IsDist (stepExB g dir mc exn exe) start w (k + 1) := by
  obtain ⟨hnodup, hstart, hsub, hexn, hwalk⟩ := hvg
  have hwnotin : w ∉ visKeys vis := (alookup_eq_none_iff w vis).mp hwfresh
  have hkeys' : visKeys (vis ++ [(w, (cur, rt, dr))]) = visKeys vis ++ [w] := by
    simp [visKeys]
  have hws : w ≠ start := by
    intro he
    exact hwnotin (he ▸ start_mem_keys hstart)
  -- the new node's distance is exactly k + 1
  have hdw : IsDist (stepExB g dir mc exn exe) start w (k + 1) := by
    refine ⟨RPath.snoc hcurd.1 hstep, ?_⟩
    intro e he
    by_contra hlt
    have he' : e ≤ k := Nat.le_of_lt_succ (Nat.lt_of_not_le hlt)
    obtain ⟨d', hd', hd'e⟩ := isDist_exists he
    exact hwnotin (hlevel w d' hd' (Nat.le_trans hd'e he'))
  refine ⟨⟨?_, ?_, ?_, ?_, ?_⟩, hdw⟩
  · rw [hkeys']
    rw [List.nodup_append]
    exact ⟨hnodup, List.nodup_singleton w, by
      intro x hx hx'
      rw [List.mem_singleton] at hx'
      subst hx'
      exact hwnotin hx⟩
  · rw [alookup_append, hstart]
  · intro n hn
    rw [hkeys'] at hn
    rcases List.mem_append.mp hn with hn | hn
    · exact hsub n hn
    · rw [List.mem_singleton] at hn
      subst hn
      exact Or.inr hwtgt
  · intro n hn
    rw [hkeys'] at hn
    rcases List.mem_append.mp hn with hn | hn
    · exact hexn n hn
    · rw [List.mem_singleton] at hn
      subst hn
      exact hwexn
  · intro n hn
    rw [hkeys'] at hn
    have hlen' : (vis ++ [(w, (cur, rt, dr))]).length = vis.length + 1 := by
      simp
    rcases List.mem_append.mp hn with hn | hn
    · obtain ⟨l, d, hrec, hd, hlen, hnd, hsb, hhd, hlast⟩ := hwalk n hn
      refine ⟨l, d, ?_, hd, hlen, hnd, ?_, hhd, hlast⟩
      · rw [hlen']
        exact reconstructSpPath_fuel_mono g _ start vis.length (vis.length + 1) n l
          (Nat.le_succ _) (reconstructSpPath_append g vis _ start vis.length n l hrec)
      · intro m hm
        rw [hkeys']
        exact List.mem_append_left _ (hsb m hm)
    · rw [List.mem_singleton] at hn
      subst hn
      obtain ⟨lc, dc, hrecc, hdc, hlenc, hndc, hsbc, hhdc, hlastc⟩ := hwalk cur hcur
      have hdck : dc = k := isDist_unique hdc hcurd
      subst hdck
      have hlook : alookup n (vis ++ [(n, (cur, rt, dr))]) = some (cur, rt, dr) := by
        rw [alookup_append, hwfresh]
        simp [alookup]
      have hrecc' : reconstructSpPath g (vis ++ [(n, (cur, rt, dr))]) start
          vis.length cur = some lc :=
        reconstructSpPath_append g vis _ start vis.length cur lc hrecc
      refine ⟨lc ++ [spStepOf g start n rt dr], dc + 1, ?_, hdw, ?_, ?_, ?_, ?_, ?_⟩
      · rw [hlen']
        unfold reconstructSpPath
        rw [hlook]
        simp only [if_neg hws, hrecc']
      · simp [hlenc]
      · rw [List.map_append]
        rw [List.nodup_append]
        refine ⟨hndc, by simp, ?_⟩
        intro x hx hx'
        simp only [List.map_cons, List.map_nil, List.mem_singleton, spStepOf] at hx'
        subst hx'
        exact hwnotin (hsbc x hx)
      · intro m hm
        rw [List.map_append] at hm
        rw [hkeys']
        rcases List.mem_append.mp hm with hm | hm
        · exact List.mem_append_left _ (hsbc m hm)
        · simp only [List.map_cons, List.map_nil, List.mem_singleton, spStepOf] at hm
          subst hm
          exact List.mem_append_right _ (List.mem_singleton_self _)
      · rw [List.map_append]
        rw [List.head?_append_of_ne_nil]
        · exact hhdc
        · intro hnil
          rw [← List.length_eq_zero] at hnil
          rw [List.length_map, hlenc] at hnil
          cases hnil
      · rw [List.map_append]
        simp [spStepOf]

/-- Specification of the expansion fold `speExpand`: processed neighbors
end up visited (or are excluded / stale), freshly enqueued entries carry
distance `k + 1`, and the visited-map invariant is preserved; on early
exit the target is visited at distance exactly `k + 1`. -/
theorem speExpand_spec (g : Graph) (dir : TraversalDirection) (mc : Option ℚ)
    (target start cur k : Nat) (exn : List Nat) (exe : List (Nat × Nat))
    (hcurd : IsDist (stepExB g dir mc exn exe) start cur k) :
    ∀ (ns : List (Edge × Direction)) (vis : SpVis) (adds : List (Nat × Nat)),
      (∀ p ∈ ns, p ∈ iterNeighbors g cur dir mc) →
      VisGood g dir mc exn exe start vis →
      cur ∈ visKeys vis →
      alookup target vis = none →
      (∀ n d, IsDist (stepExB g dir mc exn exe) start n d → d ≤ k →
        n ∈ visKeys vis) →
      (∀ p ∈ adds, p.1 ∈ visKeys vis ∧
        IsDist (stepExB g dir mc exn exe) start p.1 p.2 ∧ p.2 = k + 1) →
      (∀ vis₂ adds₂,
        speExpand g exn exe target cur k ns vis adds = Sum.inl (vis₂, adds₂) →
        (∃ ext, vis₂ = vis ++ ext) ∧
        VisGood g dir mc exn exe start vis₂ ∧
        alookup target vis₂ = none ∧
        (∀ p ∈ adds₂, p.1 ∈ visKeys vis₂ ∧
          IsDist (stepExB g dir mc exn exe) start p.1 p.2 ∧ p.2 = k + 1) ∧
        (∀ p ∈ ns, stepExB g dir mc exn exe cur p.1.target = true →
          p.1.target ∈ visKeys vis₂) ∧
        (∃ addsExt, adds₂ = adds ++ addsExt) ∧
        (∀ n ∈ visKeys vis₂, n ∈ visKeys vis ∨ n ∈ adds₂.map Prod.fst) ∧
        adds₂.length + vis.length = adds.length + vis₂.length)
      ∧ (∀ vis₂,
        speExpand g exn exe target cur k ns vis adds = Sum.inr vis₂ →
        (∃ ext, vis₂ = vis ++ ext) ∧
        VisGood g dir mc exn exe start vis₂ ∧
        target ∈ visKeys vis₂ ∧
        IsDist (stepExB g dir mc exn exe) start target (k + 1)) := by
  intro ns
  induction ns with
  | nil =>
    intro vis adds hns hvg hcur htgt hlevel hadds
    constructor
    · intro vis₂ adds₂ h
      simp only [speExpand] at h
      cases h
      refine ⟨⟨[], by simp⟩, hvg, htgt, hadds, ?_, ⟨[], by simp⟩, ?_, rfl⟩
      · intro p hp
        cases hp
      · intro n hn
        exact Or.inl hn
    · intro vis₂ h
      simp only [speExpand] at h
      exact Sum.noConfusion h
  | cons hd rest ih =>
    obtain ⟨e, dr⟩ := hd
    intro vis adds hns hvg hcur htgt hlevel hadds
    have hns' : ∀ p ∈ rest, p ∈ iterNeighbors g cur dir mc := by
      intro p hp
      exact hns p (List.mem_cons_of_mem _ hp)
    by_cases hexn : (exn.any fun n => decide (n = e.target)) = true
    · -- excluded node: skipped
      have hstep_false : ∀ w, w = e.target →
          stepExB g dir mc exn exe cur w = false := by
        intro w hw
        subst hw
        unfold stepExB
        rw [hexn]
        simp
      have heq : speExpand g exn exe target cur k ((e, dr) :: rest) vis adds =
          speExpand g exn exe target cur k rest vis adds := by
        simp only [speExpand, hexn]
        simp
      rw [heq]
      have hih := ih vis adds hns' hvg hcur htgt hlevel hadds
      constructor
      · intro vis₂ adds₂ h
        obtain ⟨hext, hvg₂, htgt₂, hadds₂, hcov, hrest⟩ := hih.1 vis₂ adds₂ h
        refine ⟨hext, hvg₂, htgt₂, hadds₂, ?_, hrest⟩
        intro p hp hpstep
        rcases List.mem_cons.mp hp with hp | hp
        · subst hp
          rw [hstep_false _ rfl] at hpstep
          cases hpstep
        · exact hcov p hp hpstep
      · exact hih.2
    · by_cases hexe : (exe.any fun p => decide (p = (cur, e.target))) = true
      · -- excluded edge: skipped
        have hstep_false : stepExB g dir mc exn exe cur e.target = false := by
          unfold stepExB
          rw [hexe]
          simp
        have heq : speExpand g exn exe target cur k ((e, dr) :: rest) vis adds =
            speExpand g exn exe target cur k rest vis adds := by
          simp only [speExpand, hexn, hexe]
          simp
        rw [heq]
        have hih := ih vis adds hns' hvg hcur htgt hlevel hadds
        constructor
        · intro vis₂ adds₂ h
          obtain ⟨hext, hvg₂, htgt₂, hadds₂, hcov, hrest⟩ := hih.1 vis₂ adds₂ h
          refine ⟨hext, hvg₂, htgt₂, hadds₂, ?_, hrest⟩
          intro p hp hpstep
          rcases List.mem_cons.mp hp with hp | hp
          · subst hp
            rw [hstep_false] at hpstep
            cases hpstep
          · exact hcov p hp hpstep
        · exact hih.2
      · by_cases hvisited : (alookup e.target vis).isSome = true
        · -- already visited: skipped
          have hmem : e.target ∈ visKeys vis :=
            (alookup_isSome_iff e.target vis).mp hvisited
          have heq : speExpand g exn exe target cur k ((e, dr) :: rest) vis adds =
              speExpand g exn exe target cur k rest vis adds := by
            simp only [speExpand, hexn, hexe, hvisited]
            simp
          rw [heq]
          have hih := ih vis adds hns' hvg hcur htgt hlevel hadds
          constructor
          · intro vis₂ adds₂ h
            obtain ⟨⟨ext, hext⟩, hvg₂, htgt₂, hadds₂, hcov, hrest⟩ :=
              hih.1 vis₂ adds₂ h
            refine ⟨⟨ext, hext⟩, hvg₂, htgt₂, hadds₂, ?_, hrest⟩
            intro p hp hpstep
            rcases List.mem_cons.mp hp with hp | hp
            · subst hp
              rw [hext, visKeys_append]
              exact List.mem_append_left _ hmem
            · exact hcov p hp hpstep
          · exact hih.2
        · -- fresh node: inserted
          have hwfresh : alookup e.target vis = none := by
            cases hl : alookup e.target vis with
            | none => rfl
            | some v => exact absurd (by rw [hl]; rfl) hvisited
          have hstep : stepExB g dir mc exn exe cur e.target = true := by
            unfold stepExB
            have hb : stepB g dir mc cur e.target = true := by
              unfold stepB
              rw [List.any_eq_true]
              exact ⟨(e, dr), hns (e, dr) (List.mem_cons_self _ _), by simp⟩
            rw [hb, Bool.eq_false_iff.mpr (fun h => hexn h) ,
              Bool.eq_false_iff.mpr (fun h => hexe h)]
            rfl
          have hwexn : (exn.any fun m => decide (m = e.target)) = false :=
            Bool.eq_false_iff.mpr (fun h => hexn h)
          have hwtgt : e.target ∈ allTargets g :=
            iterNeighbors_target_mem g cur dir mc e dr
              (hns (e, dr) (List.mem_cons_self _ _))
          obtain ⟨hvg', hdw⟩ := visInsert_good g dir mc exn exe start cur k
            e.target e.relType dr vis hvg hcur hcurd hwfresh hstep hlevel
            hwexn hwtgt
          have hkeys' : visKeys (vis ++ [(e.target, (cur, e.relType, dr))]) =
              visKeys vis ++ [e.target] := by
            simp [visKeys]
          have hwmem : e.target ∈
              visKeys (vis ++ [(e.target, (cur, e.relType, dr))]) := by
            rw [hkeys']
            exact List.mem_append_right _ (List.mem_singleton_self _)
          by_cases htgteq : e.target = target
          · -- found the target: early exit
            have heq : speExpand g exn exe target cur k ((e, dr) :: rest) vis adds
                = Sum.inr (vis ++ [(e.target, (cur, e.relType, dr))]) := by
              simp only [speExpand]
              rw [if_neg hexn, if_neg hexe, if_neg hvisited, if_pos htgteq]
            rw [heq]
            constructor
            · intro vis₂ adds₂ h
              cases h
            · intro vis₂ h
              cases h
              refine ⟨⟨_, rfl⟩, hvg', ?_, ?_⟩
              · rw [← htgteq]
                exact hwmem
              · rw [← htgteq]
                exact hdw
          · -- not the target: continue with the grown map and queue
            have heq : speExpand g exn exe target cur k ((e, dr) :: rest) vis adds
                = speExpand g exn exe target cur k rest
                    (vis ++ [(e.target, (cur, e.relType, dr))])
                    (adds ++ [(e.target, k + 1)]) := by
              simp only [speExpand]
              rw [if_neg hexn, if_neg hexe, if_neg hvisited, if_neg htgteq]
            rw [heq]
            have hcur' : cur ∈
                visKeys (vis ++ [(e.target, (cur, e.relType, dr))]) := by
              rw [hkeys']
              exact List.mem_append_left _ hcur
            have htgt' : alookup target
                (vis ++ [(e.target, (cur, e.relType, dr))]) = none := by
              rw [alookup_append, htgt]
              simp [alookup, htgteq]
            have hlevel' : ∀ n d,
                IsDist (stepExB g dir mc exn exe) start n d → d ≤ k →
                n ∈ visKeys (vis ++ [(e.target, (cur, e.relType, dr))]) := by
              intro n d hd hdk
              rw [hkeys']
              exact List.mem_append_left _ (hlevel n d hd hdk)
            have hadds' : ∀ p ∈ adds ++ [(e.target, k + 1)],
                p.1 ∈ visKeys (vis ++ [(e.target, (cur, e.relType, dr))]) ∧
                IsDist (stepExB g dir mc exn exe) start p.1 p.2 ∧
                p.2 = k + 1 := by
              intro p hp
              rcases List.mem_append.mp hp with hp | hp
              · obtain ⟨hp1, hp2, hp3⟩ := hadds p hp
                exact ⟨by rw [hkeys']; exact List.mem_append_left _ hp1, hp2, hp3⟩
              · rw [List.mem_singleton] at hp
                subst hp
                exact ⟨hwmem, hdw, rfl⟩
            have hih := ih (vis ++ [(e.target, (cur, e.relType, dr))])
              (adds ++ [(e.target, k + 1)]) hns' hvg' hcur' htgt' hlevel' hadds'
            constructor
            · intro vis₂ adds₂ h
              obtain ⟨⟨ext, hext⟩, hvg₂, htgt₂, hadds₂, hcov, ⟨addsExt, haex⟩,
                hnewk, hbal⟩ := hih.1 vis₂ adds₂ h
              refine ⟨⟨(e.target, (cur, e.relType, dr)) :: ext, by
                rw [hext]; simp⟩, hvg₂, htgt₂, hadds₂, ?_, ?_, ?_, ?_⟩
              · intro p hp hpstep
                rcases List.mem_cons.mp hp with hp | hp
                · subst hp
                  rw [hext, visKeys_append]
                  exact List.mem_append_left _ hwmem
                · exact hcov p hp hpstep
              · exact ⟨(e.target, k + 1) :: addsExt, by rw [haex]; simp⟩
              · intro n hn
                rcases hnewk n hn with hn' | hn'
                · rw [hkeys'] at hn'
                  rcases List.mem_append.mp hn' with hn'' | hn''
                  · exact Or.inl hn''
                  · rw [List.mem_singleton] at hn''
                    subst hn''
                    refine Or.inr ?_
                    rw [haex]
                    simp
                · exact Or.inr hn'
              · have h1 : (vis ++ [(e.target, (cur, e.relType, dr))]).length
                    = vis.length + 1 := by simp
                have h2 : (adds ++ [(e.target, k + 1)]).length
                    = adds.length + 1 := by simp
                omega
            · intro vis₂ h
              obtain ⟨⟨ext, hext⟩, hvg₂, htgtm, hdt⟩ := hih.2 vis₂ h
              exact ⟨⟨(e.target, (cur, e.relType, dr)) :: ext, by
                rw [hext]; simp⟩, hvg₂, htgtm, hdt⟩

theorem visGood_length_le {β : Type} (g : Graph) (start : Nat)
    (vis : List (Nat × β))
    (hnodup : (visKeys vis).Nodup)
    (hsub : ∀ n ∈ visKeys vis, n = start ∨ n ∈ allTargets g) :
    vis.length ≤ visBound g := by
  have h1 : vis.length = (visKeys vis).length := by simp [visKeys]
  rw [h1, visBound]
  have h2 : ∀ x ∈ visKeys vis, x ∈ start :: allTargets g := by
    intro x hx
    rcases hsub x hx with h | h
    · subst h
      exact List.mem_cons_self _ _
    · exact List.mem_cons_of_mem _ h
  have h3 := nodup_length_le_of_subset hnodup h2
  simp only [List.length_cons] at h3
  omega

/-- When the queue is empty, every node reachable within `max_hops` is
visited, so an unvisited target is unreachable within the bound. -/
theorem speInv_no_path (g : Graph) (dir : TraversalDirection) (mc : Option ℚ)
    (maxHops target start : Nat) (exn : List Nat) (exe : List (Nat × Nat))
    (vis : SpVis) (k : Nat)
    (hinv : SpeInv g dir mc maxHops target start exn exe [] vis k) :
    ∀ e, RPath (stepExB g dir mc exn exe) start target e → maxHops < e := by
  intro e hpath
  by_contra hle
  have hle' : e ≤ maxHops := Nat.le_of_not_lt hle
  have htgtnot : target ∉ visKeys vis :=
    (alookup_eq_none_iff target vis).mp hinv.tgtNot
  have hstart : start ∈ visKeys vis := start_mem_keys hinv.startMem
  obtain ⟨u, v, m, hpu, hm, hruv, hPu, hPv⟩ :=
    rpath_crossing (· ∈ visKeys vis) hpath hstart htgtnot
  obtain ⟨du, hdu, hdum⟩ := isDist_exists hpu
  have hdmax : du < maxHops :=
    Nat.lt_of_le_of_lt hdum (Nat.lt_of_lt_of_le hm hle')
  rcases hinv.qcover u hPu du hdu hdmax with hqm | hexp
  · simp at hqm
  · exact hPv (hexp v hruv)

/-- Shifting the BFS level index once the current level is exhausted. -/
theorem speInv_shift (g : Graph) (dir : TraversalDirection) (mc : Option ℚ)
    (maxHops target start : Nat) (exn : List Nat) (exe : List (Nat × Nat))
    (q : List (Nat × Nat)) (vis : SpVis) (k : Nat)
    (hinv : SpeInv g dir mc maxHops target start exn exe q vis k)
    (hall : ∀ p ∈ q, p.2 = k + 1) (hne : q ≠ []) :
    SpeInv g dir mc maxHops target start exn exe q vis (k + 1) := by
  have hk1max : k + 1 ≤ maxHops := by
    cases q with
    | nil => exact absurd rfl hne
    | cons p ps =>
      have := hall p (List.mem_cons_self _ _)
      have hb := hinv.qbound p (List.mem_cons_self _ _)
      omega
  refine ⟨hinv.nodup, hinv.startMem, hinv.keysSub, hinv.tgtNot, hinv.visExn,
    hinv.walkOk, hinv.qmem, hinv.qbound, ⟨q, [], by simp, hall, by simp⟩,
    ?_, hinv.qcover⟩
  intro n d hd hdk
  by_cases hdk' : d ≤ k
  · exact hinv.level n d hd hdk'
  · have hdeq : d = k + 1 := by omega
    subst hdeq
    cases hd.1 with
    | @snoc m c nn p hr =>
      obtain ⟨dm, hdm, hdmk⟩ := isDist_exists p
      have hdmk' : dm = k := by
        have h1 : RPath (stepExB g dir mc exn exe) start n (dm + 1) :=
          RPath.snoc hdm.1 hr
        have h2 := hd.2 (dm + 1) h1
        omega
      subst hdmk'
      have hmvis : m ∈ visKeys vis := hinv.level m dm hdm (Nat.le_refl _)
      have hdmax : dm < maxHops := by omega
      rcases hinv.qcover m hmvis dm hdm hdmax with hqm | hexp
      · rw [List.mem_map] at hqm
        obtain ⟨p', hp', hp'eq⟩ := hqm
        have hd' := (hinv.qmem p' hp').2
        rw [hp'eq] at hd'
        have := hall p' hp'
        have := isDist_unique hdm hd'
        omega
      · exact hexp n hr

/-- What holds of the visited map returned by a successful
shortest-path BFS. -/
def SpeFound (g : Graph) (dir : TraversalDirection) (mc : Option ℚ)
    (maxHops target start : Nat) (exn : List Nat) (exe : List (Nat × Nat))
    (vis₂ : SpVis) : Prop :=
  ∃ l d, reconstructSpPath g vis₂ start vis₂.length target = some l ∧
    IsDist (stepExB g dir mc exn exe) start target d ∧
    l.length = d + 1 ∧ d ≤ maxHops ∧
    (l.map PathStep.nodeId).Nodup ∧
    (l.map PathStep.nodeId).head? = some start ∧
    (l.map PathStep.nodeId).getLast? = some target ∧
    (∀ m ∈ l.map PathStep.nodeId,
      (exn.any fun x => decide (x = m)) = false) ∧
    (∀ n ∈ visKeys vis₂,
      (reconstructSpPath g vis₂ start vis₂.length n).isSome = true)

/-- The two-sided specification of the BFS loop result. -/
def SpeConc (g : Graph) (dir : TraversalDirection) (mc : Option ℚ)
    (maxHops target start : Nat) (exn : List Nat) (exe : List (Nat × Nat))
    (out : Option SpVis) : Prop :=
  (∀ vis₂, out = some vis₂ →
    SpeFound g dir mc maxHops target start exn exe vis₂) ∧
  (out = none →
    ∀ e, RPath (stepExB g dir mc exn exe) start target e → maxHops < e)

theorem speFound_of_visGood (g : Graph) (dir : TraversalDirection)
    (mc : Option ℚ) (maxHops target start kk : Nat) (exn : List Nat)
    (exe : List (Nat × Nat)) (vis₂ : SpVis)
    (hvg : VisGood g dir mc exn exe start vis₂)
    (htgtmem : target ∈ visKeys vis₂)
    (hdt : IsDist (stepExB g dir mc exn exe) start target (kk + 1))
    (hk : kk + 1 ≤ maxHops) :
    SpeFound g dir mc maxHops target start exn exe vis₂ := by
  obtain ⟨hnodup, hstart, hsub, hexn, hwalk⟩ := hvg
  obtain ⟨l, dd, hrec, hdd, hlen, hnd, hsb, hhd, hlast⟩ := hwalk target htgtmem
  have hddev : dd = kk + 1 := isDist_unique hdd hdt
  refine ⟨l, dd, hrec, hdd, hlen, by omega, hnd, hhd, hlast, ?_, ?_⟩
  · intro m hm
    exact hexn m (hsb m hm)
  · intro n hn
    obtain ⟨l', d', hrec', _⟩ := hwalk n hn
    rw [hrec']
    rfl

/-- Correctness of the shortest-path BFS loop: enough fuel plus the
invariant give the full result specification. -/
theorem speLoop_correct (g : Graph) (dir : TraversalDirection) (mc : Option ℚ)
    (maxHops target start : Nat) (exn : List Nat) (exe : List (Nat × Nat)) :
    ∀ (fuel : Nat) (q : List (Nat × Nat)) (vis : SpVis) (k : Nat),
      SpeInv g dir mc maxHops target start exn exe q vis k →
      visBound g + q.length ≤ fuel + vis.length →
      SpeConc g dir mc maxHops target start exn exe
        (speLoop g dir mc maxHops target exn exe fuel q vis) := by
  intro fuel
  induction fuel with
  | zero =>
    intro q vis k hinv hfuel
    have hvb : vis.length ≤ visBound g :=
      visGood_length_le g start vis hinv.nodup hinv.keysSub
    have hq : q = [] := by
      have : q.length = 0 := by omega
      exact List.length_eq_zero.mp this
    subst hq
    constructor
    · intro vis₂ h
      simp [speLoop] at h
    · intro _
      exact speInv_no_path g dir mc maxHops target start exn exe vis k hinv
  | succ fuel ih =>
    intro q vis k hinv hfuel
    cases q with
    | nil =>
      constructor
      · intro vis₂ h
        simp [speLoop] at h
      · intro _
        exact speInv_no_path g dir mc maxHops target start exn exe vis k hinv
    | cons hd qs =>
      obtain ⟨cur, d⟩ := hd
      obtain ⟨A, B, hq, hA, hB⟩ := hinv.qsplit
      -- Normalize to the case where the head sits at the current level.
      have hnorm : ∃ kk, d = kk ∧
          SpeInv g dir mc maxHops target start exn exe ((cur, d) :: qs) vis kk := by
        cases A with
        | nil =>
          simp only [List.nil_append] at hq
          have hall : ∀ p ∈ (cur, d) :: qs, p.2 = k + 1 := by
            rw [hq]
            exact hB
          have hd' : d = k + 1 := hall (cur, d) (List.mem_cons_self _ _)
          exact ⟨k + 1, hd', speInv_shift g dir mc maxHops target start exn exe
            _ vis k hinv hall (by simp)⟩
        | cons a A' =>
          have ha : a = (cur, d) ∧ qs = A' ++ B := by
            rw [List.cons_append] at hq
            exact ⟨(List.cons.inj hq).1.symm, (List.cons.inj hq).2⟩
          have hd' : d = k := by
            have := hA a (List.mem_cons_self _ _)
            rw [ha.1] at this
            exact this
          exact ⟨k, hd', hinv⟩
      obtain ⟨kv, hdkv, hinv'⟩ := hnorm
      subst hdkv
      clear hinv hq hA hB A B
      -- Split the remaining queue at the current level.
      obtain ⟨A, B, hq, hA, hB⟩ := hinv'.qsplit
      have hsplit : ∃ A', qs = A' ++ B ∧ (∀ p ∈ A', p.2 = d) := by
        cases A with
        | nil =>
          simp only [List.nil_append] at hq
          have hmemB : ((cur, d) : Nat × Nat) ∈ B := by
            rw [← hq]
            exact List.mem_cons_self _ _
          have := hB _ hmemB
          omega
        | cons a A' =>
          rw [List.cons_append] at hq
          refine ⟨A', (List.cons.inj hq).2, ?_⟩
          intro p hp
          exact hA p (List.mem_cons_of_mem _ hp)
      obtain ⟨A', hqs, hA'⟩ := hsplit
      obtain ⟨hcurmem, hcurdist⟩ := hinv'.qmem (cur, d) (List.mem_cons_self _ _)
      by_cases hmax : maxHops ≤ d
      · -- depth at the bound: skip expansion
        have heq : speLoop g dir mc maxHops target exn exe (fuel + 1)
            ((cur, d) :: qs) vis = speLoop g dir mc maxHops target exn exe
            fuel qs vis := by
          simp only [speLoop]
          rw [if_pos hmax]
        rw [heq]
        have hinv₂ : SpeInv g dir mc maxHops target start exn exe qs vis d := by
          refine ⟨hinv'.nodup, hinv'.startMem, hinv'.keysSub, hinv'.tgtNot,
            hinv'.visExn, hinv'.walkOk, ?_, ?_, ⟨A', B, hqs, hA', hB⟩,
            hinv'.level, ?_⟩
          · intro p hp
            exact hinv'.qmem p (List.mem_cons_of_mem _ hp)
          · intro p hp
            exact hinv'.qbound p (List.mem_cons_of_mem _ hp)
          · intro n hn dd hdd hddmax
            rcases hinv'.qcover n hn dd hdd hddmax with hqm | hexp
            · rw [List.map_cons, List.mem_cons] at hqm
              rcases hqm with hqm | hqm
              · subst hqm
                have : dd = d := isDist_unique hdd hcurdist
                omega
              · exact Or.inl hqm
            · exact Or.inr hexp
        exact ih qs vis d hinv₂ (by
          simp only [List.length_cons] at hfuel
          omega)
      · -- expand the current node
        have hlt : d < maxHops := Nat.lt_of_not_le hmax
        have hexp := speExpand_spec g dir mc target start cur d exn exe
          hcurdist (iterNeighbors g cur dir mc) vis []
          (fun p hp => hp)
          ⟨hinv'.nodup, hinv'.startMem, hinv'.keysSub, hinv'.visExn,
            hinv'.walkOk⟩
          hcurmem hinv'.tgtNot hinv'.level (by intro p hp; cases hp)
        cases hres : speExpand g exn exe target cur d
            (iterNeighbors g cur dir mc) vis [] with
        | inr vis₂ =>
          have heq : speLoop g dir mc maxHops target exn exe (fuel + 1)
              ((cur, d) :: qs) vis = some vis₂ := by
            simp only [speLoop]
            rw [if_neg hmax, hres]
          rw [heq]
          obtain ⟨⟨ext, hext⟩, hvg₂, htgtmem, hdt⟩ := hexp.2 vis₂ hres
          constructor
          · intro vis₃ hsome
            cases Option.some.inj hsome
            exact speFound_of_visGood g dir mc maxHops target start d exn exe
              vis₂ hvg₂ htgtmem hdt (by omega)
          · intro hnone
            cases hnone
        | inl pr =>
          obtain ⟨vis₂, adds₂⟩ := pr
          have heq : speLoop g dir mc maxHops target exn exe (fuel + 1)
              ((cur, d) :: qs) vis = speLoop g dir mc maxHops target exn exe
              fuel (qs ++ adds₂) vis₂ := by
            simp only [speLoop]
            rw [if_neg hmax, hres]
          rw [heq]
          obtain ⟨⟨ext, hext⟩, hvg₂, htgt₂, hadds₂, hcov, ⟨addsExt, haex⟩,
            hnewk, hbal⟩ := hexp.1 vis₂ adds₂ hres
          obtain ⟨hnodup₂, hstart₂, hsub₂, hexn₂, hwalk₂⟩ := hvg₂
          have hkeysmono : ∀ n ∈ visKeys vis, n ∈ visKeys vis₂ := by
            intro n hn
            rw [hext, visKeys_append]
            exact List.mem_append_left _ hn
          have hinv₂ : SpeInv g dir mc maxHops target start exn exe
              (qs ++ adds₂) vis₂ d := by
            refine ⟨hnodup₂, hstart₂, hsub₂, htgt₂, hexn₂, hwalk₂, ?_, ?_,
              ?_, ?_, ?_⟩
            · intro p hp
              rcases List.mem_append.mp hp with hp | hp
              · obtain ⟨h1, h2⟩ := hinv'.qmem p (List.mem_cons_of_mem _ hp)
                exact ⟨hkeysmono p.1 h1, h2⟩
              · obtain ⟨h1, h2, _⟩ := hadds₂ p hp
                exact ⟨h1, h2⟩
            · intro p hp
              rcases List.mem_append.mp hp with hp | hp
              · exact hinv'.qbound p (List.mem_cons_of_mem _ hp)
              · obtain ⟨_, _, h3⟩ := hadds₂ p hp
                omega
            · refine ⟨A', B ++ adds₂, by rw [hqs]; simp, hA', ?_⟩
              intro p hp
              rcases List.mem_append.mp hp with hp | hp
              · exact hB p hp
              · exact (hadds₂ p hp).2.2
            · intro n dd hdd hddk
              exact hkeysmono n (hinv'.level n dd hdd hddk)
            · intro n hn dd hdd hddmax
              rcases hnewk n hn with hn' | hn'
              · rcases hinv'.qcover n hn' dd hdd hddmax with hqm | hexp'
                · rw [List.map_cons, List.mem_cons] at hqm
                  rcases hqm with hqm | hqm
                  · subst hqm
                    refine Or.inr ?_
                    intro w hw
                    have hb : stepB g dir mc n w = true := by
                      unfold stepExB at hw
                      exact (Bool.and_eq_true_iff.mp
                        (Bool.and_eq_true_iff.mp hw).1).1
                    unfold stepB at hb
                    rw [List.any_eq_true] at hb
                    obtain ⟨p, hp, hpt⟩ := hb
                    rw [decide_eq_true_eq] at hpt
                    have := hcov p hp (by rw [hpt]; exact hw)
                    rw [hpt] at this
                    exact this
                  · refine Or.inl ?_
                    rw [List.map_append, List.mem_append]
                    exact Or.inl hqm
                · refine Or.inr ?_
                  intro w hw
                  exact hkeysmono w (hexp' w hw)
              · refine Or.inl ?_
                rw [List.map_append, List.mem_append]
                exact Or.inr hn'
          refine ih (qs ++ adds₂) vis₂ d hinv₂ ?_
          have h1 : (qs ++ adds₂).length = qs.length + adds₂.length := by simp
          have h2 : adds₂.length + vis.length = vis₂.length := by
            simpa using hbal
          simp only [List.length_cons] at hfuel
          omega

theorem stepExB_nil_eq (g : Graph) (dir : TraversalDirection) (mc : Option ℚ) :
    stepExB g dir mc [] [] = stepB g dir mc := by
  funext v w
  unfold stepExB
  simp

/-- The invariant holds at loop entry. -/
theorem speInv_init (g : Graph) (dir : TraversalDirection) (mc : Option ℚ)
    (maxHops target start : Nat) (exn : List Nat) (exe : List (Nat × Nat))
    (hstartexn : (exn.any fun n => decide (n = start)) = false)
    (hne : start ≠ target) :
    SpeInv g dir mc maxHops target start exn exe [(start, 0)]
      [(start, (start, 0, Direction.outgoing))] 0 := by
  have hdist0 : IsDist (stepExB g dir mc exn exe) start start 0 :=
    ⟨RPath.single start, fun e _ => Nat.zero_le e⟩
  refine ⟨?_, ?_, ?_, ?_, ?_, ?_, ?_, ?_, ?_, ?_, ?_⟩
  · simp [visKeys]
  · simp [alookup]
  · intro n hn
    simp [visKeys] at hn
    exact Or.inl hn
  · simp only [alookup]
    rw [if_neg hne]
  · intro n hn
    simp [visKeys] at hn
    rw [hn]
    exact hstartexn
  · intro n hn
    simp [visKeys] at hn
    rw [hn]
    refine ⟨[spStepOf g start start 0 Direction.outgoing], 0, ?_, hdist0,
      by simp, by simp, ?_, by simp [spStepOf], by simp [spStepOf]⟩
    · simp [reconstructSpPath, alookup]
    · intro m hm
      simp [spStepOf] at hm
      simp [visKeys, hm]
  · intro p hp
    simp at hp
    rw [hp]
    exact ⟨by simp [visKeys], hdist0⟩
  · intro p hp
    simp at hp
    rw [hp]
    exact Nat.zero_le _
  · exact ⟨[(start, 0)], [], by simp, by simp, by simp⟩
  · intro n d hd hd0
    have hd0' : d = 0 := Nat.le_antisymm hd0 (Nat.zero_le d)
    rw [hd0'] at hd
    have hns := rpath_zero hd.1
    rw [← hns]
    simp [visKeys]
  · intro n hn d hd hdm
    refine Or.inl ?_
    simp [visKeys] at hn
    rw [hn]
    simp

/-- C1 — `shortest_path(a, b, h, direction, min_confidence)` for nodes
`a`, `b` present in the graph: when `a = b` it returns the single-step
path holding only the start (rel type and direction absent) for every
hop bound, including 0; when the true shortest-path distance `d` over
the direction- and confidence-filtered graph satisfies `d ≤ h` it
returns a path of exactly `d + 1` steps; and when no path of at most `h`
hops exists it returns `none`. -/
theorem shortest_path_spec (g : Graph) (a b h : Nat)
    (dir : TraversalDirection) (mc : Option ℚ)
    (ha : (g.node a).isSome = true) (hb : (g.node b).isSome = true) :
    (a = b → shortestPath g a b h dir mc = some [selfPathStep g a])
    ∧ (∀ d, IsDist (stepB g dir mc) a b d → d ≤ h →
        ∃ p, shortestPath g a b h dir mc = some p ∧ p.length = d + 1)
    ∧ ((∀ e, RPath (stepB g dir mc) a b e → h < e) →
        shortestPath g a b h dir mc = none) := by
  obtain ⟨ia, hia⟩ := Option.isSome_iff_exists.mp ha
  obtain ⟨ib, hib⟩ := Option.isSome_iff_exists.mp hb
  have hself : a = b → shortestPath g a b h dir mc = some [selfPathStep g a] := by
    intro hab
    subst hab
    simp [shortestPath, hia]
  refine ⟨hself, ?_, ?_⟩
  · intro d hd hdh
    by_cases hab : a = b
    · subst hab
      have hd0 : d = 0 :=
        isDist_unique hd ⟨RPath.single a, fun e _ => Nat.zero_le e⟩
      subst hd0
      exact ⟨[selfPathStep g a], hself rfl, rfl⟩
    · have hd1 : 1 ≤ d := by
        cases hdz : d with
        | zero =>
          rw [hdz] at hd
          exact absurd (rpath_zero hd.1) hab
        | succ n => exact Nat.succ_le_succ (Nat.zero_le n)
      have hh1 : h ≠ 0 := by omega
      have hinv := speInv_init g dir mc h b a [] [] (by simp) hab
      obtain ⟨hfound, hnone⟩ := speLoop_correct g dir mc h b a [] [] (visBound g)
        [(a, 0)] [(a, (a, 0, Direction.outgoing))] 0 hinv (by simp)
      rw [stepExB_nil_eq] at hnone
      cases hres : speLoop g dir mc h b [] [] (visBound g) [(a, 0)]
          [(a, (a, 0, Direction.outgoing))] with
      | none =>
        have := hnone hres d hd.1
        omega
      | some vis₂ =>
        obtain ⟨l, d', hrec, hd', hlen, hd'h, _⟩ := hfound vis₂ hres
        rw [stepExB_nil_eq] at hd'
        have hdd' : d' = d := isDist_unique hd' hd
        subst hdd'
        refine ⟨l, ?_, hlen⟩
        simp only [shortestPath, hia, hib]
        rw [if_neg hab, if_neg hh1, hres]
        exact hrec
  · intro hno
    by_cases hab : a = b
    · subst hab
      have := hno 0 (RPath.single a)
      omega
    · by_cases hh0 : h = 0
      · simp only [shortestPath, hia, hib]
        rw [if_neg hab, if_pos hh0]
      · have hinv := speInv_init g dir mc h b a [] [] (by simp) hab
        obtain ⟨hfound, hnone⟩ := speLoop_correct g dir mc h b a [] []
          (visBound g) [(a, 0)] [(a, (a, 0, Direction.outgoing))] 0 hinv
          (by simp)
        cases hres : speLoop g dir mc h b [] [] (visBound g) [(a, 0)]
            [(a, (a, 0, Direction.outgoing))] with
        | none =>
          simp only [shortestPath, hia, hib]
          rw [if_neg hab, if_neg hh0, hres]
        | some vis₂ =>
          obtain ⟨l, d', hrec, hd', hlen, hd'h, _⟩ := hfound vis₂ hres
          rw [stepExB_nil_eq] at hd'
          have := hno d' hd'.1
          omega

/-- A two-node graph with the single edge 0 → 1 (labelled `NEXT`),
used as the concrete witness input. -/
def gChain : Graph :=
  { outgoing := [(0, [{ target := 1, relType := 0, confidence := none }])],
    incoming := [(1, [{ target := 0, relType := 0, confidence := none }])],
    nodes := [(0, { label := "A", appId := none }),
              (1, { label := "A", appId := none })],
    appIdIndex := [],
    relTypes := ["NEXT"],
    relTypeMap := [("NEXT", 0)] }

/-- Witness for C1 at a concrete graph: distance 1 within bound 5. -/
theorem shortest_path_spec_witness :
    ∃ p, shortestPath gChain 0 1 5 TraversalDirection.both none = some p ∧
      p.length = 1 + 1 := by
  have hd : IsDist (stepB gChain TraversalDirection.both none) 0 1 1 := by
    constructor
    · exact RPath.snoc (RPath.single 0) (by decide)
    · intro e he
      cases e with
      | zero => exact absurd (rpath_zero he) (by decide)
      | succ n => exact Nat.succ_le_succ (Nat.zero_le n)
  exact (shortest_path_spec gChain 0 1 5 TraversalDirection.both none
    (by decide) (by decide)).2.1 1 hd (by decide)

/-! ## BFS neighborhood (traversal.rs, `bfs_neighborhood`) -/

/-- Visited map of the neighborhood BFS:
node ↦ (distance, parent, rel_type, traversed direction). -/
abbrev BfsVis : Type := List (Nat × (Nat × Nat × Nat × Direction))

/-- `reconstruct_path`: walk parent pointers from `node` back to `start`,
collecting relationship-type names (skipping unknown ids, as the source's
`if let Some(name)` does) and directions, start side first.  Fuel and
`none` as in `reconstructSpPath`. -/
def reconstructPath (g : Graph) (vis : BfsVis) (start : Nat) :
    Nat → Nat → Option (List String × List Direction)
  | 0, _ => none
  | fuel + 1, current =>
    if current = start then
      some ([], [])
    else
      match alookup current vis with
      | none => none
      | some (_, parent, rt, dr) =>
        match reconstructPath g vis start fuel parent with
        | none => none
        | some (types, dirs) =>
          some (types ++ (match g.relTypeName rt with
            | some nm => [nm]
            | none => []), dirs ++ [dr])

/-- Expansion of one dequeued node for the neighborhood BFS. -/
def bfsExpand (cur depth : Nat) :
    List (Edge × Direction) → BfsVis → List (Nat × Nat) →
    BfsVis × List (Nat × Nat)
  | [], vis, adds => (vis, adds)
  | (e, dr) :: rest, vis, adds =>
    if (alookup e.target vis).isSome then
      bfsExpand cur depth rest vis adds
    else
      bfsExpand cur depth rest
        (vis ++ [(e.target, (depth + 1, cur, e.relType, dr))])
        (adds ++ [(e.target, depth + 1)])

/-- The BFS loop of `bfs_neighborhood`: no early exit; nodes at
`depth ≥ max_depth` are kept but not expanded. -/
def bfsLoop (g : Graph) (dir : TraversalDirection) (mc : Option ℚ)
    (maxDepth : Nat) : Nat → List (Nat × Nat) → BfsVis → BfsVis
  | 0, _, vis => vis
  | _ + 1, [], vis => vis
  | fuel + 1, (cur, depth) :: qs, vis =>
    if maxDepth ≤ depth then
      bfsLoop g dir mc maxDepth fuel qs vis
    else
      match bfsExpand cur depth (iterNeighbors g cur dir mc) vis [] with
      | (vis', adds) => bfsLoop g dir mc maxDepth fuel (qs ++ adds) vis'

/-- The visited map computed by `bfs_neighborhood` for a start node that
exists in the graph. -/
def bfsVisited (g : Graph) (start maxDepth : Nat) (dir : TraversalDirection)
    (mc : Option ℚ) : BfsVis :=
  bfsLoop g dir mc maxDepth (visBound g) [(start, 0)]
    [(start, (0, start, 0, Direction.outgoing))]

/-- A row of the `bfs_neighborhood` result (`NeighborResult`). -/
structure NeighborResult : Type where
  nodeId : Nat
  label : String
  appId : Option String
  distance : Nat
  pathTypes : List String
  pathDirections : List Direction
  deriving DecidableEq

/-- `TraversalResult`. -/
structure TraversalResult : Type where
  neighbors : List NeighborResult
  nodesVisited : Nat

/-- `bfs_neighborhood`: pre-check, BFS, then one result row per visited
node other than the start, with lazily reconstructed paths. -/
def bfsNeighborhood (g : Graph) (start maxDepth : Nat)
    (dir : TraversalDirection) (mc : Option ℚ) : TraversalResult :=
  match g.node start with
  | none => { neighbors := [], nodesVisited := 0 }
  | some _ =>
    let vis := bfsVisited g start maxDepth dir mc
    { neighbors :=
        (vis.filter fun p => decide (p.1 ≠ start)).map fun p =>
          let info := g.node p.1
          let path := (reconstructPath g vis start vis.length p.1).getD ([], [])
          { nodeId := p.1,
            label := (info.map NodeInfo.label).getD "",
            appId := info.bind NodeInfo.appId,
            distance := p.2.1,
            pathTypes := path.1,
            pathDirections := path.2 },
      nodesVisited := vis.length }

/-! ## Invariant development for the neighborhood BFS -/

theorem reconstructPath_cons_eq (g : Graph) (vis : BfsVis)
    (start fuel n dd parent rt : Nat) (dr : Direction)
    (hns : n ≠ start) (hl : alookup n vis = some (dd, parent, rt, dr)) :
    reconstructPath g vis start (fuel + 1) n =
      match reconstructPath g vis start fuel parent with
      | none => none
      | some (types, dirs) =>
        some (types ++ (match g.relTypeName rt with
          | some nm => [nm]
          | none => []), dirs ++ [dr]) := by
  conv_lhs => simp only [reconstructPath]
  rw [if_neg hns, hl]

theorem reconstructPath_append (g : Graph) (vis ext : BfsVis) (start : Nat)
    (fuel n : Nat) (r : List String × List Direction)
    (h : reconstructPath g vis start fuel n = some r) :
    reconstructPath g (vis ++ ext) start fuel n = some r := by
  induction fuel generalizing n r with
  | zero => simp [reconstructPath] at h
  | succ fuel ih =>
    by_cases hns : n = start
    · unfold reconstructPath at h ⊢
      simp only [if_pos hns] at h ⊢
      exact h
    · cases hl : alookup n vis with
      | none =>
        unfold reconstructPath at h
        rw [if_neg hns, hl] at h
        cases h
      | some entry =>
        obtain ⟨dd, parent, rt, dr⟩ := entry
        have hl' : alookup n (vis ++ ext) = some (dd, parent, rt, dr) := by
          rw [alookup_append, hl]
        rw [reconstructPath_cons_eq g vis start fuel n dd parent rt dr hns hl] at h
        rw [reconstructPath_cons_eq g (vis ++ ext) start fuel n dd parent rt dr
          hns hl']
        cases hrec : reconstructPath g vis start fuel parent with
        | none => rw [hrec] at h; cases h
        | some r' =>
          rw [hrec] at h
          rw [ih parent r' hrec]
          exact h

theorem reconstructPath_fuel_mono (g : Graph) (vis : BfsVis) (start : Nat)
    (fuel fuel' n : Nat) (r : List String × List Direction) (hf : fuel ≤ fuel')
    (h : reconstructPath g vis start fuel n = some r) :
    reconstructPath g vis start fuel' n = some r := by
  induction fuel generalizing fuel' n r with
  | zero => simp [reconstructPath] at h
  | succ fuel ih =>
    obtain ⟨fuel'', rfl⟩ : ∃ j, fuel' = j + 1 := by
      cases fuel' with
      | zero => exact absurd hf (by simp)
      | succ j => exact ⟨j, rfl⟩
    have hf' : fuel ≤ fuel'' := Nat.le_of_succ_le_succ hf
    by_cases hns : n = start
    · unfold reconstructPath at h ⊢
      simp only [if_pos hns] at h ⊢
      exact h
    · cases hl : alookup n vis with
      | none =>
        unfold reconstructPath at h
        rw [if_neg hns, hl] at h
        cases h
      | some entry =>
        obtain ⟨dd, parent, rt, dr⟩ := entry
        rw [reconstructPath_cons_eq g vis start fuel n dd parent rt dr hns hl] at h
        rw [reconstructPath_cons_eq g vis start fuel'' n dd parent rt dr hns hl]
        cases hrec : reconstructPath g vis start fuel parent with
        | none => rw [hrec] at h; cases h
        | some r' =>
          rw [hrec] at h
          rw [ih fuel'' parent r' hf' hrec]
          exact h

/-- The visited-map part of the neighborhood BFS invariant. -/
def BfsVisGood (g : Graph) (dir : TraversalDirection) (mc : Option ℚ)
    (start maxDepth : Nat) (vis : BfsVis) : Prop :=
  (visKeys vis).Nodup ∧
  alookup start vis = some (0, start, 0, Direction.outgoing) ∧
  (∀ n ∈ visKeys vis, n = start ∨ n ∈ allTargets g) ∧
  ∀ n ∈ visKeys vis, ∃ d, IsDist (stepB g dir mc) start n d ∧ d ≤ maxDepth ∧
    (reconstructPath g vis start vis.length n).isSome = true

/-- Adding one freshly discovered node to the neighborhood BFS visited
map preserves the visited-map invariant. -/
theorem bfsInsert_good (g : Graph) (dir : TraversalDirection) (mc : Option ℚ)
    (start maxDepth cur k w rt : Nat) (dr : Direction) (vis : BfsVis)
    (hvg : BfsVisGood g dir mc start maxDepth vis)
    (hcur : cur ∈ visKeys vis)
    (hcurd : IsDist (stepB g dir mc) start cur k)
    (hkd : k < maxDepth)
    (hwfresh : alookup w vis = none)
    (hstep : stepB g dir mc cur w = true)
    (hlevel : ∀ n d, IsDist (stepB g dir mc) start n d → d ≤ k →
      n ∈ visKeys vis)
    (hwtgt : w ∈ allTargets g) :
    BfsVisGood g dir mc start maxDepth (vis ++ [(w, (k + 1, cur, rt, dr))]) ∧
      IsDist (stepB g dir mc) start w (k + 1) := by
  obtain ⟨hnodup, hstart, hsub, hwalk⟩ := hvg
  have hwnotin : w ∉ visKeys vis := (alookup_eq_none_iff w vis).mp hwfresh
  have hkeys' : visKeys (vis ++ [(w, (k + 1, cur, rt, dr))]) =
      visKeys vis ++ [w] := by
    simp [visKeys]
  have hws : w ≠ start := by
    intro he
    apply hwnotin
    rw [he, visKeys, ← alookup_isSome_iff start vis, hstart]
    rfl
  have hdw : IsDist (stepB g dir mc) start w (k + 1) := by
    refine ⟨RPath.snoc hcurd.1 hstep, ?_⟩
    intro e he
    by_contra hlt
    have he' : e ≤ k := Nat.le_of_lt_succ (Nat.lt_of_not_le hlt)
    obtain ⟨d', hd', hd'e⟩ := isDist_exists he
    exact hwnotin (hlevel w d' hd' (Nat.le_trans hd'e he'))
  have hlen' : (vis ++ [(w, (k + 1, cur, rt, dr))]).length = vis.length + 1 := by
    simp
  refine ⟨⟨?_, ?_, ?_, ?_⟩, hdw⟩
  · rw [hkeys', List.nodup_append]
    exact ⟨hnodup, List.nodup_singleton w, by
      intro x hx hx'
      rw [List.mem_singleton] at hx'
      subst hx'
      exact hwnotin hx⟩
  · rw [alookup_append, hstart]
  · intro n hn
    rw [hkeys'] at hn
    rcases List.mem_append.mp hn with hn | hn
    · exact hsub n hn
    · rw [List.mem_singleton] at hn
      rw [hn]
      exact Or.inr hwtgt
  · intro n hn
    rw [hkeys'] at hn
    rcases List.mem_append.mp hn with hn | hn
    · obtain ⟨d, hd, hdm, hrec⟩ := hwalk n hn
      obtain ⟨r, hr⟩ := Option.isSome_iff_exists.mp hrec
      refine ⟨d, hd, hdm, ?_⟩
      rw [hlen', reconstructPath_fuel_mono g _ start vis.length (vis.length + 1)
        n r (Nat.le_succ _) (reconstructPath_append g vis _ start vis.length n r hr)]
      rfl
    · rw [List.mem_singleton] at hn
      subst hn
      obtain ⟨dc, hdc, hdcm, hrecc⟩ := hwalk cur hcur
      obtain ⟨rc, hrc⟩ := Option.isSome_iff_exists.mp hrecc
      have hrc' : reconstructPath g (vis ++ [(n, (k + 1, cur, rt, dr))]) start
          vis.length cur = some rc :=
        reconstructPath_append g vis _ start vis.length cur rc hrc
      refine ⟨k + 1, hdw, hkd, ?_⟩
      rw [hlen']
      have hlook : alookup n (vis ++ [(n, (k + 1, cur, rt, dr))]) =
          some (k + 1, cur, rt, dr) := by
        rw [alookup_append, hwfresh]
        simp [alookup]
      rw [reconstructPath_cons_eq g _ start vis.length n (k + 1) cur rt dr hws
        hlook, hrc']
      rfl

/-- The full invariant for the neighborhood BFS loop. -/
structure BfsInv (g : Graph) (dir : TraversalDirection) (mc : Option ℚ)
    (maxDepth start : Nat) (q : List (Nat × Nat)) (vis : BfsVis)
    (k : Nat) : Prop where
  good : BfsVisGood g dir mc start maxDepth vis
  qmem : ∀ p ∈ q, p.1 ∈ visKeys vis ∧ IsDist (stepB g dir mc) start p.1 p.2
  qbound : ∀ p ∈ q, p.2 ≤ maxDepth
  qsplit : ∃ A B, q = A ++ B ∧ (∀ p ∈ A, p.2 = k) ∧ (∀ p ∈ B, p.2 = k + 1)
  level : ∀ n d, IsDist (stepB g dir mc) start n d → d ≤ k → n ∈ visKeys vis
  qcover : ∀ n ∈ visKeys vis, ∀ d, IsDist (stepB g dir mc) start n d →
      d < maxDepth →
      n ∈ q.map Prod.fst ∨ ∀ w, stepB g dir mc n w = true → w ∈ visKeys vis

/-- Specification of the neighborhood BFS expansion fold. -/
theorem bfsExpand_spec (g : Graph) (dir : TraversalDirection) (mc : Option ℚ)
    (start maxDepth cur k : Nat)
    (hcurd : IsDist (stepB g dir mc) start cur k) (hkd : k < maxDepth) :
    ∀ (ns : List (Edge × Direction)) (vis : BfsVis) (adds : List (Nat × Nat)),
      (∀ p ∈ ns, p ∈ iterNeighbors g cur dir mc) →
      BfsVisGood g dir mc start maxDepth vis →
      cur ∈ visKeys vis →
      (∀ n d, IsDist (stepB g dir mc) start n d → d ≤ k → n ∈ visKeys vis) →
      (∀ p ∈ adds, p.1 ∈ visKeys vis ∧
        IsDist (stepB g dir mc) start p.1 p.2 ∧ p.2 = k + 1) →
      ∀ vis₂ adds₂,
        bfsExpand cur k ns vis adds = (vis₂, adds₂) →
        (∃ ext, vis₂ = vis ++ ext) ∧
        BfsVisGood g dir mc start maxDepth vis₂ ∧
        (∀ p ∈ adds₂, p.1 ∈ visKeys vis₂ ∧
          IsDist (stepB g dir mc) start p.1 p.2 ∧ p.2 = k + 1) ∧
        (∀ p ∈ ns, stepB g dir mc cur p.1.target = true →
          p.1.target ∈ visKeys vis₂) ∧
        (∃ addsExt, adds₂ = adds ++ addsExt) ∧
        (∀ n ∈ visKeys vis₂, n ∈ visKeys vis ∨ n ∈ adds₂.map Prod.fst) ∧
        adds₂.length + vis.length = adds.length + vis₂.length := by
  intro ns
  induction ns with
  | nil =>
    intro vis adds hns hvg hcur hlevel hadds vis₂ adds₂ h
    simp only [bfsExpand] at h
    cases h
    refine ⟨⟨[], by simp⟩, hvg, hadds, ?_, ⟨[], by simp⟩, ?_, rfl⟩
    · intro p hp
      cases hp
    · intro n hn
      exact Or.inl hn
  | cons hd rest ih =>
    obtain ⟨e, dr⟩ := hd
    intro vis adds hns hvg hcur hlevel hadds vis₂ adds₂ h
    have hns' : ∀ p ∈ rest, p ∈ iterNeighbors g cur dir mc := by
      intro p hp
      exact hns p (List.mem_cons_of_mem _ hp)
    by_cases hvisited : (alookup e.target vis).isSome = true
    · have hmem : e.target ∈ visKeys vis :=
        (alookup_isSome_iff e.target vis).mp hvisited
      have heq : bfsExpand cur k ((e, dr) :: rest) vis adds =
          bfsExpand cur k rest vis adds := by
        simp only [bfsExpand, hvisited]
        simp
      rw [heq] at h
      obtain ⟨⟨ext, hext⟩, hvg₂, hadds₂, hcov, haex, hnewk, hbal⟩ :=
        ih vis adds hns' hvg hcur hlevel hadds vis₂ adds₂ h
      refine ⟨⟨ext, hext⟩, hvg₂, hadds₂, ?_, haex, hnewk, hbal⟩
      intro p hp hpstep
      rcases List.mem_cons.mp hp with hp | hp
      · rw [hp]
        rw [hext, visKeys_append]
        exact List.mem_append_left _ hmem
      · exact hcov p hp hpstep
    · have hwfresh : alookup e.target vis = none := by
        cases hl : alookup e.target vis with
        | none => rfl
        | some v => exact absurd (by rw [hl]; rfl) hvisited
      have hstep : stepB g dir mc cur e.target = true := by
        unfold stepB
        rw [List.any_eq_true]
        exact ⟨(e, dr), hns (e, dr) (List.mem_cons_self _ _), by simp⟩
      have hwtgt : e.target ∈ allTargets g :=
        iterNeighbors_target_mem g cur dir mc e dr
          (hns (e, dr) (List.mem_cons_self _ _))
      obtain ⟨hvg', hdw⟩ := bfsInsert_good g dir mc start maxDepth cur k
        e.target e.relType dr vis hvg hcur hcurd hkd hwfresh hstep hlevel hwtgt
      have hkeys' : visKeys (vis ++ [(e.target, (k + 1, cur, e.relType, dr))]) =
          visKeys vis ++ [e.target] := by
        simp [visKeys]
      have hwmem : e.target ∈
          visKeys (vis ++ [(e.target, (k + 1, cur, e.relType, dr))]) := by
        rw [hkeys']
        exact List.mem_append_right _ (List.mem_singleton_self _)
      have heq : bfsExpand cur k ((e, dr) :: rest) vis adds =
          bfsExpand cur k rest (vis ++ [(e.target, (k + 1, cur, e.relType, dr))])
            (adds ++ [(e.target, k + 1)]) := by
        simp only [bfsExpand, hvisited]
        simp [hwfresh]
      rw [heq] at h
      have hcur' : cur ∈
          visKeys (vis ++ [(e.target, (k + 1, cur, e.relType, dr))]) := by
        rw [hkeys']
        exact List.mem_append_left _ hcur
      have hlevel' : ∀ n d, IsDist (stepB g dir mc) start n d → d ≤ k →
          n ∈ visKeys (vis ++ [(e.target, (k + 1, cur, e.relType, dr))]) := by
        intro n d hd hdk
        rw [hkeys']
        exact List.mem_append_left _ (hlevel n d hd hdk)
      have hadds' : ∀ p ∈ adds ++ [(e.target, k + 1)],
          p.1 ∈ visKeys (vis ++ [(e.target, (k + 1, cur, e.relType, dr))]) ∧
          IsDist (stepB g dir mc) start p.1 p.2 ∧ p.2 = k + 1 := by
        intro p hp
        rcases List.mem_append.mp hp with hp | hp
        · obtain ⟨hp1, hp2, hp3⟩ := hadds p hp
          exact ⟨by rw [hkeys']; exact List.mem_append_left _ hp1, hp2, hp3⟩
        · rw [List.mem_singleton] at hp
          rw [hp]
          exact ⟨hwmem, hdw, rfl⟩
      obtain ⟨⟨ext, hext⟩, hvg₂, hadds₂, hcov, ⟨addsExt, haex⟩, hnewk, hbal⟩ :=
        ih (vis ++ [(e.target, (k + 1, cur, e.relType, dr))])
          (adds ++ [(e.target, k + 1)]) hns' hvg' hcur' hlevel' hadds'
          vis₂ adds₂ h
      refine ⟨⟨(e.target, (k + 1, cur, e.relType, dr)) :: ext, by
        rw [hext]; simp⟩, hvg₂, hadds₂, ?_, ?_, ?_, ?_⟩
      · intro p hp hpstep
        rcases List.mem_cons.mp hp with hp | hp
        · rw [hp]
          rw [hext, visKeys_append]
          exact List.mem_append_left _ hwmem
        · exact hcov p hp hpstep
      · exact ⟨(e.target, k + 1) :: addsExt, by rw [haex]; simp⟩
      · intro n hn
        rcases hnewk n hn with hn' | hn'
        · rw [hkeys'] at hn'
          rcases List.mem_append.mp hn' with hn'' | hn''
          · exact Or.inl hn''
          · rw [List.mem_singleton] at hn''
            refine Or.inr ?_
            rw [hn'', haex]
            simp
        · exact Or.inr hn'
      · have h1 : (vis ++ [(e.target, (k + 1, cur, e.relType, dr))]).length
            = vis.length + 1 := by simp
        have h2 : (adds ++ [(e.target, k + 1)]).length = adds.length + 1 := by
          simp
        omega

/-- Shifting the level index for the neighborhood BFS. -/
theorem bfsInv_shift (g : Graph) (dir : TraversalDirection) (mc : Option ℚ)
    (maxDepth start : Nat) (q : List (Nat × Nat)) (vis : BfsVis) (k : Nat)
    (hinv : BfsInv g dir mc maxDepth start q vis k)
    (hall : ∀ p ∈ q, p.2 = k + 1) (hne : q ≠ []) :
    BfsInv g dir mc maxDepth start q vis (k + 1) := by
  have hk1max : k + 1 ≤ maxDepth := by
    cases q with
    | nil => exact absurd rfl hne
    | cons p ps =>
      have := hall p (List.mem_cons_self _ _)
      have hb := hinv.qbound p (List.mem_cons_self _ _)
      omega
  refine ⟨hinv.good, hinv.qmem, hinv.qbound,
    ⟨q, [], by simp, hall, by simp⟩, ?_, hinv.qcover⟩
  intro n d hd hdk
  by_cases hdk' : d ≤ k
  · exact hinv.level n d hd hdk'
  · have hdeq : d = k + 1 := by omega
    rw [hdeq] at hd
    cases hd.1 with
    | @snoc m c nn p hr =>
      obtain ⟨dm, hdm, hdmk⟩ := isDist_exists p
      have hdmk' : dm = k := by
        have h1 : RPath (stepB g dir mc) start n (dm + 1) :=
          RPath.snoc hdm.1 hr
        have h2 := hd.2 (dm + 1) h1
        omega
      rw [hdmk'] at hdm
      have hmvis : m ∈ visKeys vis := hinv.level m k hdm (Nat.le_refl _)
      have hdmax : k < maxDepth := by omega
      rcases hinv.qcover m hmvis k hdm hdmax with hqm | hexp
      · rw [List.mem_map] at hqm
        obtain ⟨p', hp', hp'eq⟩ := hqm
        have hd' := (hinv.qmem p' hp').2
        rw [hp'eq] at hd'
        have := hall p' hp'
        have := isDist_unique hdm hd'
        omega
      · exact hexp n hr

/-- Correctness of the neighborhood BFS loop: the final visited keys are
exactly the nodes within `max_depth` of the start over the filtered step
relation, and every visited node's path reconstruction succeeds. -/
theorem bfsLoop_correct (g : Graph) (dir : TraversalDirection) (mc : Option ℚ)
    (maxDepth start : Nat) :
    ∀ (fuel : Nat) (q : List (Nat × Nat)) (vis : BfsVis) (k : Nat),
      BfsInv g dir mc maxDepth start q vis k →
      visBound g + q.length ≤ fuel + vis.length →
      (∀ n ∈ visKeys (bfsLoop g dir mc maxDepth fuel q vis),
        ∃ d, IsDist (stepB g dir mc) start n d ∧ d ≤ maxDepth ∧
          (reconstructPath g (bfsLoop g dir mc maxDepth fuel q vis) start
            (bfsLoop g dir mc maxDepth fuel q vis).length n).isSome = true)
      ∧ (∀ n d, IsDist (stepB g dir mc) start n d → d ≤ maxDepth →
          n ∈ visKeys (bfsLoop g dir mc maxDepth fuel q vis)) := by
  intro fuel
  induction fuel with
  | zero =>
    intro q vis k hinv hfuel
    obtain ⟨hnodup, hstart, hsub, hwalk⟩ := hinv.good
    have hvb : vis.length ≤ visBound g :=
      visGood_length_le g start vis hnodup hsub
    have hq : q = [] := by
      have : q.length = 0 := by omega
      exact List.length_eq_zero.mp this
    subst hq
    have hloop : bfsLoop g dir mc maxDepth 0 [] vis = vis := by
      simp [bfsLoop]
    rw [hloop]
    constructor
    · exact hwalk
    · intro n d hd hdm
      by_contra hnot
      have hstartmem : start ∈ visKeys vis := by
        rw [visKeys, ← alookup_isSome_iff start vis, hstart]
        rfl
      obtain ⟨u, v, m, hpu, hm, hruv, hPu, hPv⟩ :=
        rpath_crossing (· ∈ visKeys vis) hd.1 hstartmem hnot
      obtain ⟨du, hdu, hdum⟩ := isDist_exists hpu
      have hdmax : du < maxDepth := by omega
      rcases hinv.qcover u hPu du hdu hdmax with hqm | hexp
      · simp at hqm
      · exact hPv (hexp v hruv)
  | succ fuel ih =>
    intro q vis k hinv hfuel
    cases q with
    | nil =>
      obtain ⟨hnodup, hstart, hsub, hwalk⟩ := hinv.good
      have hloop : bfsLoop g dir mc maxDepth (fuel + 1) [] vis = vis := by
        simp [bfsLoop]
      rw [hloop]
      constructor
      · exact hwalk
      · intro n d hd hdm
        by_contra hnot
        have hstartmem : start ∈ visKeys vis := by
          rw [visKeys, ← alookup_isSome_iff start vis, hstart]
          rfl
        obtain ⟨u, v, m, hpu, hm, hruv, hPu, hPv⟩ :=
          rpath_crossing (· ∈ visKeys vis) hd.1 hstartmem hnot
        obtain ⟨du, hdu, hdum⟩ := isDist_exists hpu
        have hdmax : du < maxDepth := by omega
        rcases hinv.qcover u hPu du hdu hdmax with hqm | hexp
        · simp at hqm
        · exact hPv (hexp v hruv)
    | cons hd qs =>
      obtain ⟨cur, d⟩ := hd
      obtain ⟨A, B, hq, hA, hB⟩ := hinv.qsplit
      have hnorm : ∃ kv, d = kv ∧
          BfsInv g dir mc maxDepth start ((cur, d) :: qs) vis kv := by
        cases A with
        | nil =>
          simp only [List.nil_append] at hq
          have hall : ∀ p ∈ (cur, d) :: qs, p.2 = k + 1 := by
            rw [hq]
            exact hB
          have hd' : d = k + 1 := hall (cur, d) (List.mem_cons_self _ _)
          exact ⟨k + 1, hd', bfsInv_shift g dir mc maxDepth start _ vis k hinv
            hall (by simp)⟩
        | cons a A' =>
          have ha : a = (cur, d) ∧ qs = A' ++ B := by
            rw [List.cons_append] at hq
            exact ⟨(List.cons.inj hq).1.symm, (List.cons.inj hq).2⟩
          have hd' : d = k := by
            have := hA a (List.mem_cons_self _ _)
            rw [ha.1] at this
            exact this
          exact ⟨k, hd', hinv⟩
      obtain ⟨kv, hdkv, hinv'⟩ := hnorm
      subst hdkv
      clear hinv hq hA hB A B
      obtain ⟨A, B, hq, hA, hB⟩ := hinv'.qsplit
      have hsplit : ∃ A', qs = A' ++ B ∧ (∀ p ∈ A', p.2 = d) := by
        cases A with
        | nil =>
          simp only [List.nil_append] at hq
          have hmemB : ((cur, d) : Nat × Nat) ∈ B := by
            rw [← hq]
            exact List.mem_cons_self _ _
          have := hB _ hmemB
          omega
        | cons a A' =>
          rw [List.cons_append] at hq
          refine ⟨A', (List.cons.inj hq).2, ?_⟩
          intro p hp
          exact hA p (List.mem_cons_of_mem _ hp)
      obtain ⟨A', hqs, hA'⟩ := hsplit
      obtain ⟨hcurmem, hcurdist⟩ := hinv'.qmem (cur, d) (List.mem_cons_self _ _)
      by_cases hmax : maxDepth ≤ d
      · have heq : bfsLoop g dir mc maxDepth (fuel + 1) ((cur, d) :: qs) vis =
            bfsLoop g dir mc maxDepth fuel qs vis := by
          simp only [bfsLoop]
          rw [if_pos hmax]
        rw [heq]
        have hinv₂ : BfsInv g dir mc maxDepth start qs vis d := by
          refine ⟨hinv'.good, ?_, ?_, ⟨A', B, hqs, hA', hB⟩, hinv'.level, ?_⟩
          · intro p hp
            exact hinv'.qmem p (List.mem_cons_of_mem _ hp)
          · intro p hp
            exact hinv'.qbound p (List.mem_cons_of_mem _ hp)
          · intro n hn dd hdd hddmax
            rcases hinv'.qcover n hn dd hdd hddmax with hqm | hexp
            · rw [List.map_cons, List.mem_cons] at hqm
              rcases hqm with hqm | hqm
              · rw [hqm] at hdd
                have : dd = d := isDist_unique hdd hcurdist
                omega
              · exact Or.inl hqm
            · exact Or.inr hexp
        exact ih qs vis d hinv₂ (by
          simp only [List.length_cons] at hfuel
          omega)
      · have hlt : d < maxDepth := Nat.lt_of_not_le hmax
        cases hres : bfsExpand cur d (iterNeighbors g cur dir mc) vis [] with
        | mk vis₂ adds₂ =>
          have heq : bfsLoop g dir mc maxDepth (fuel + 1) ((cur, d) :: qs) vis =
              bfsLoop g dir mc maxDepth fuel (qs ++ adds₂) vis₂ := by
            simp only [bfsLoop]
            rw [if_neg hmax, hres]
          rw [heq]
          obtain ⟨⟨ext, hext⟩, hvg₂, hadds₂, hcov, ⟨addsExt, haex⟩, hnewk,
            hbal⟩ := bfsExpand_spec g dir mc start maxDepth cur d hcurdist hlt
            (iterNeighbors g cur dir mc) vis [] (fun p hp => hp) hinv'.good
            hcurmem hinv'.level (by intro p hp; cases hp) vis₂ adds₂ hres
          have hkeysmono : ∀ n ∈ visKeys vis, n ∈ visKeys vis₂ := by
            intro n hn
            rw [hext, visKeys_append]
            exact List.mem_append_left _ hn
          have hinv₂ : BfsInv g dir mc maxDepth start (qs ++ adds₂) vis₂ d := by
            refine ⟨hvg₂, ?_, ?_, ?_, ?_, ?_⟩
            · intro p hp
              rcases List.mem_append.mp hp with hp | hp
              · obtain ⟨h1, h2⟩ := hinv'.qmem p (List.mem_cons_of_mem _ hp)
                exact ⟨hkeysmono p.1 h1, h2⟩
              · obtain ⟨h1, h2, _⟩ := hadds₂ p hp
                exact ⟨h1, h2⟩
            · intro p hp
              rcases List.mem_append.mp hp with hp | hp
              · exact hinv'.qbound p (List.mem_cons_of_mem _ hp)
              · obtain ⟨_, _, h3⟩ := hadds₂ p hp
                omega
            · refine ⟨A', B ++ adds₂, by rw [hqs]; simp, hA', ?_⟩
              intro p hp
              rcases List.mem_append.mp hp with hp | hp
              · exact hB p hp
              · exact (hadds₂ p hp).2.2
            · intro n dd hdd hddk
              exact hkeysmono n (hinv'.level n dd hdd hddk)
            · intro n hn dd hdd hddmax
              rcases hnewk n hn with hn' | hn'
              · rcases hinv'.qcover n hn' dd hdd hddmax with hqm | hexp'
                · rw [List.map_cons, List.mem_cons] at hqm
                  rcases hqm with hqm | hqm
                  · refine Or.inr ?_
                    intro w hw
                    unfold stepB at hw
                    rw [List.any_eq_true] at hw
                    obtain ⟨p, hp, hpt⟩ := hw
                    rw [decide_eq_true_eq] at hpt
                    rw [hqm] at hp
                    have := hcov p hp (by
                      unfold stepB
                      rw [List.any_eq_true]
                      exact ⟨p, hp, by simp⟩)
                    rw [hpt] at this
                    exact this
                  · refine Or.inl ?_
                    rw [List.map_append, List.mem_append]
                    exact Or.inl hqm
                · refine Or.inr ?_
                  intro w hw
                  exact hkeysmono w (hexp' w hw)
              · refine Or.inl ?_
                rw [List.map_append, List.mem_append]
                exact Or.inr hn'
          refine ih (qs ++ adds₂) vis₂ d hinv₂ ?_
          have h1 : (qs ++ adds₂).length = qs.length + adds₂.length := by simp
          have h2 : adds₂.length + vis.length = vis₂.length := by
            simpa using hbal
          simp only [List.length_cons] at hfuel
          omega

/-- The neighborhood BFS invariant holds at loop entry. -/
theorem bfsInv_init (g : Graph) (dir : TraversalDirection) (mc : Option ℚ)
    (maxDepth start : Nat) :
    BfsInv g dir mc maxDepth start [(start, 0)]
      [(start, (0, start, 0, Direction.outgoing))] 0 := by
  have hdist0 : IsDist (stepB g dir mc) start start 0 :=
    ⟨RPath.single start, fun e _ => Nat.zero_le e⟩
  refine ⟨⟨?_, ?_, ?_, ?_⟩, ?_, ?_, ?_, ?_, ?_⟩
  · simp [visKeys]
  · simp [alookup]
  · intro n hn
    simp [visKeys] at hn
    exact Or.inl hn
  · intro n hn
    simp [visKeys] at hn
    rw [hn]
    refine ⟨0, hdist0, Nat.zero_le _, ?_⟩
    simp [reconstructPath]
  · intro p hp
    simp at hp
    rw [hp]
    exact ⟨by simp [visKeys], hdist0⟩
  · intro p hp
    simp at hp
    rw [hp]
    exact Nat.zero_le _
  · exact ⟨[(start, 0)], [], by simp, by simp, by simp⟩
  · intro n d hd hd0
    have hd0' : d = 0 := Nat.le_antisymm hd0 (Nat.zero_le d)
    rw [hd0'] at hd
    have hns := rpath_zero hd.1
    rw [← hns]
    simp [visKeys]
  · intro n hn d hd hdm
    refine Or.inl ?_
    simp [visKeys] at hn
    rw [hn]
    simp

/-- The visited keys of `bfs_neighborhood` are exactly the nodes whose
true filtered distance from the start is at most `max_depth`, and every
visited node's path reconstruction succeeds. -/
theorem bfsVisited_keys (g : Graph) (start maxDepth : Nat)
    (dir : TraversalDirection) (mc : Option ℚ) :
    (∀ n ∈ visKeys (bfsVisited g start maxDepth dir mc),
      ∃ d, IsDist (stepB g dir mc) start n d ∧ d ≤ maxDepth ∧
        (reconstructPath g (bfsVisited g start maxDepth dir mc) start
          (bfsVisited g start maxDepth dir mc).length n).isSome = true)
    ∧ (∀ n d, IsDist (stepB g dir mc) start n d → d ≤ maxDepth →
        n ∈ visKeys (bfsVisited g start maxDepth dir mc)) := by
  exact bfsLoop_correct g dir mc maxDepth start (visBound g) [(start, 0)]
    [(start, (0, start, 0, Direction.outgoing))] 0
    (bfsInv_init g dir mc maxDepth start) (by simp)

/-- The node-id multiset of the `bfs_neighborhood` rows: membership is
exactly visitedness apart from the start. -/
theorem bfsNeighborhood_ids (g : Graph) (start maxDepth : Nat)
    (dir : TraversalDirection) (mc : Option ℚ) (info : NodeInfo)
    (hstart : g.node start = some info) (n : Nat) :
    n ∈ (bfsNeighborhood g start maxDepth dir mc).neighbors.map
        NeighborResult.nodeId ↔
      n ∈ visKeys (bfsVisited g start maxDepth dir mc) ∧ n ≠ start := by
  unfold bfsNeighborhood
  rw [hstart]
  simp only [List.map_map, List.mem_map]
  constructor
  · rintro ⟨p, hp, hpn⟩
    rw [List.mem_filter] at hp
    have hpn' : p.1 = n := by simpa using hpn
    refine ⟨?_, ?_⟩
    · rw [visKeys, List.mem_map]
      exact ⟨p, hp.1, hpn'⟩
    · have hne := hp.2
      rw [decide_eq_true_eq] at hne
      rw [← hpn']
      exact hne
  · rintro ⟨hmem, hne⟩
    rw [visKeys, List.mem_map] at hmem
    obtain ⟨p, hp, hpn⟩ := hmem
    refine ⟨p, ?_, by simpa using hpn⟩
    rw [List.mem_filter]
    refine ⟨hp, ?_⟩
    rw [decide_eq_true_eq, hpn]
    exact hne

theorem stepB_mono_both (g : Graph) (mc : Option ℚ)
    (dir : TraversalDirection) (v w : Nat)
    (h : stepB g dir mc v w = true) : stepB g TraversalDirection.both mc v w = true := by
  unfold stepB at h ⊢
  rw [List.any_eq_true] at h ⊢
  obtain ⟨p, hp, hpt⟩ := h
  refine ⟨p, ?_, hpt⟩
  unfold iterNeighbors at hp ⊢
  rw [List.mem_filter] at hp ⊢
  refine ⟨?_, hp.2⟩
  rcases List.mem_append.mp hp.1 with hm | hm
  · refine List.mem_append_left _ ?_
    rw [List.mem_filter] at hm ⊢
    cases dir <;> simp_all
  · refine List.mem_append_right _ ?_
    rw [List.mem_filter] at hm ⊢
    cases dir <;> simp_all

/-- C3 counterexample input: edges 0 → 1 and 2 → 1 (the mixed-direction
bridge makes node 2 Both-reachable from 0 but neither Outgoing- nor
Incoming-reachable). -/
def gBridge : Graph :=
  { outgoing := [(0, [{ target := 1, relType := 0, confidence := none }]),
                 (2, [{ target := 1, relType := 1, confidence := none }])],
    incoming := [(1, [{ target := 0, relType := 0, confidence := none },
                      { target := 2, relType := 1, confidence := none }])],
    nodes := [(0, { label := "N", appId := none }),
              (1, { label := "N", appId := none }),
              (2, { label := "N", appId := none })],
    appIdIndex := [],
    relTypes := ["A", "B"],
    relTypeMap := [("A", 0), ("B", 1)] }

/-- C3 counterexample — with edges 0 → 1 and 2 → 1, starting at 0 with
depth 2 and no confidence filter, node 2 appears among the `Both`
neighbors but in neither the `Outgoing` nor the `Incoming` neighbors, so
`Both` is strictly larger than the union. -/
theorem bfs_both_union_counterexample :
    2 ∈ (bfsNeighborhood gBridge 0 2 TraversalDirection.both none).neighbors.map
        NeighborResult.nodeId
    ∧ 2 ∉ (bfsNeighborhood gBridge 0 2 TraversalDirection.outgoingOnly
        none).neighbors.map NeighborResult.nodeId
    ∧ 2 ∉ (bfsNeighborhood gBridge 0 2 TraversalDirection.incomingOnly
        none).neighbors.map NeighborResult.nodeId := by
  refine ⟨?_, ?_, ?_⟩ <;> decide

/-- C3 (amended) — without a confidence filter, the node-id set of
`bfs_neighborhood(s, d, Both)` contains the union of the `Outgoing` and
`Incoming` node-id sets; the converse inclusion (and hence the claimed
equality) fails because `Both` may reach nodes over mixed-direction
paths (see the counterexample). -/
theorem bfs_both_contains_union (g : Graph) (s maxDepth n : Nat) :
    (n ∈ (bfsNeighborhood g s maxDepth TraversalDirection.outgoingOnly
        none).neighbors.map NeighborResult.nodeId ∨
      n ∈ (bfsNeighborhood g s maxDepth TraversalDirection.incomingOnly
        none).neighbors.map NeighborResult.nodeId) →
    n ∈ (bfsNeighborhood g s maxDepth TraversalDirection.both
        none).neighbors.map NeighborResult.nodeId := by
  intro h
  cases hs : g.node s with
  | none =>
    rcases h with h | h <;>
    · unfold bfsNeighborhood at h
      rw [hs] at h
      simp at h
  | some info =>
    have htrans : ∀ dir : TraversalDirection,
        n ∈ (bfsNeighborhood g s maxDepth dir none).neighbors.map
          NeighborResult.nodeId →
        n ∈ (bfsNeighborhood g s maxDepth TraversalDirection.both
          none).neighbors.map NeighborResult.nodeId := by
      intro dir hmem
      rw [bfsNeighborhood_ids g s maxDepth dir none info hs n] at hmem
      obtain ⟨hkeys, hne⟩ := hmem
      obtain ⟨d, hd, hdm, _⟩ := (bfsVisited_keys g s maxDepth dir none).1 n hkeys
      have hpath : RPath (stepB g TraversalDirection.both none) s n d :=
        rpath_mono (fun v w hw => stepB_mono_both g none dir v w hw) hd.1
      obtain ⟨d', hd', hd'd⟩ := isDist_exists hpath
      have hmem' := (bfsVisited_keys g s maxDepth TraversalDirection.both
        none).2 n d' hd' (Nat.le_trans hd'd hdm)
      rw [bfsNeighborhood_ids g s maxDepth TraversalDirection.both none info
        hs n]
      exact ⟨hmem', hne⟩
    rcases h with h | h
    · exact htrans TraversalDirection.outgoingOnly h
    · exact htrans TraversalDirection.incomingOnly h

/-- Witness for C3's amended theorem at a concrete graph. -/
theorem bfs_both_contains_union_witness :
    1 ∈ (bfsNeighborhood gChain 0 2 TraversalDirection.both
      none).neighbors.map NeighborResult.nodeId :=
  bfs_both_contains_union gChain 0 2 1 (Or.inl (by decide))

/-- C10 — For every visited map produced by a BFS traversal
(`bfs_neighborhood`'s map, or the map of the `shortest_path` loop at the
moment the target is found), the parent-pointer walk of every visited
node terminates: it reaches the start in at most `|visited|` steps and
never looks up a missing key, so `reconstruct_path` /
`reconstruct_sp_path` return a result (`isSome`) rather than looping or
panicking. -/
theorem parent_walks_terminate (g : Graph) (dir : TraversalDirection)
    (mc : Option ℚ) (start maxDepth : Nat) :
    (∀ n ∈ visKeys (bfsVisited g start maxDepth dir mc),
      (reconstructPath g (bfsVisited g start maxDepth dir mc) start
        (bfsVisited g start maxDepth dir mc).length n).isSome = true)
    ∧ (∀ target maxHops vis₂,
        start ≠ target →
        speLoop g dir mc maxHops target [] [] (visBound g) [(start, 0)]
          [(start, (start, 0, Direction.outgoing))] = some vis₂ →
        ∀ n ∈ visKeys vis₂,
          (reconstructSpPath g vis₂ start vis₂.length n).isSome = true) := by
  constructor
  · intro n hn
    obtain ⟨d, _, _, hrec⟩ := (bfsVisited_keys g start maxDepth dir mc).1 n hn
    exact hrec
  · intro target maxHops vis₂ hne hloop n hn
    have hinv := speInv_init g dir mc maxHops target start [] [] (by simp) hne
    obtain ⟨hfound, _⟩ := speLoop_correct g dir mc maxHops target start [] []
      (visBound g) [(start, 0)] [(start, (start, 0, Direction.outgoing))] 0
      hinv (by simp)
    obtain ⟨l, d, _, _, _, _, _, _, _, _, hall⟩ := hfound vis₂ hloop
    exact hall n hn

/-- Witness for C10 at a concrete graph: both reconstructions succeed on
the two-node chain. -/
theorem parent_walks_terminate_witness :
    (reconstructPath gChain (bfsVisited gChain 0 5 TraversalDirection.both none)
      0 (bfsVisited gChain 0 5 TraversalDirection.both none).length 1).isSome
        = true
    ∧ (reconstructSpPath gChain
        ((speLoop gChain TraversalDirection.both none 5 1 [] []
          (visBound gChain) [(0, 0)]
          [(0, (0, 0, Direction.outgoing))]).getD [])
        0 ((speLoop gChain TraversalDirection.both none 5 1 [] []
          (visBound gChain) [(0, 0)]
          [(0, (0, 0, Direction.outgoing))]).getD []).length 1).isSome = true :=
  ⟨(parent_walks_terminate gChain TraversalDirection.both none 0 5).1 1
      (by decide),
    (parent_walks_terminate gChain TraversalDirection.both none 0 5).2 1 5
      ((speLoop gChain TraversalDirection.both none 5 1 [] []
        (visBound gChain) [(0, 0)] [(0, (0, 0, Direction.outgoing))]).getD [])
      (by decide) (by decide) 1 (by decide)⟩

/-! ## Yen's algorithm: `k_shortest_paths` (traversal.rs 306-410) -/

/-- The node-id sequence of a path. -/
def pathIds (p : List PathStep) : List Nat :=
  p.map PathStep.nodeId

/-- The excluded-edge set built at a spur node (traversal.rs 343-358):
for every accepted path that shares the root (its first `spurIdx + 1`
node ids equal `rootIds`), the edge it takes out of the spur node.  The
source indexes `path[spur_idx + 1]`, which is in bounds for every
sharing loop-free accepted path; a sharing path with no entry after the
spur node is skipped here. -/
def yenExcludedEdges (result : List (List PathStep)) (spurIdx : Nat)
    (rootIds : List Nat) : List (Nat × Nat) :=
  result.filterMap fun path =>
    if spurIdx < path.length ∧ (pathIds path).take (spurIdx + 1) = rootIds
    then
      match (pathIds path).drop spurIdx with
      | a :: b :: _ => some (a, b)
      | _ => none
    else none

/-- One spur-index step of Yen's candidate generation (traversal.rs
333-401 loop body): root path, exclusion sets, remaining hop budget,
spur search, candidate assembly and node-sequence deduplication. -/
def yenSpurStep (g : Graph) (dir : TraversalDirection) (mc : Option ℚ)
    (maxHops target : Nat) (result : List (List PathStep))
    (prevPath : List PathStep) (cands : List (List PathStep))
    (spurIdx : Nat) : List (List PathStep) :=
  if maxHops - spurIdx = 0 then cands
  else
    match (pathIds (prevPath.take (spurIdx + 1))).getLast? with
    | none => cands
    | some spurNode =>
      match shortestPathExcluding g spurNode target (maxHops - spurIdx) dir
          mc ((pathIds (prevPath.take (spurIdx + 1))).take spurIdx)
          (yenExcludedEdges result spurIdx
            (pathIds (prevPath.take (spurIdx + 1))))
        with
      | none => cands
      | some spurPath =>
        if (result ++ cands).any fun p =>
            decide (pathIds p =
              pathIds (prevPath.take (spurIdx + 1) ++ spurPath.drop 1))
        then cands
        else cands ++ [prevPath.take (spurIdx + 1) ++ spurPath.drop 1]

/-- The candidate-generation pass of one Yen iteration: every spur index
of the previous path, in ascending order. -/
def yenScan (g : Graph) (dir : TraversalDirection) (mc : Option ℚ)
    (maxHops target : Nat) (result : List (List PathStep))
    (prevPath : List PathStep) (cands : List (List PathStep)) :
    List (List PathStep) :=
  (List.range (prevPath.length - 1)).foldl
    (yenSpurStep g dir mc maxHops target result prevPath) cands

/-- Yen's main loop (traversal.rs 329-408): `iters` iterations remain
(`k - 1` at the top call).  Each iteration generates candidates from the
last accepted path, stops when the pool is empty, otherwise accepts the
shortest candidate (stable sort by length, remove the head) and keeps
the rest as the pool.  `result.getLast?` is never `none`: `result`
starts nonempty and only grows. -/
def yenLoop (g : Graph) (dir : TraversalDirection) (mc : Option ℚ)
    (maxHops target : Nat) :
    Nat → List (List PathStep) → List (List PathStep) → List (List PathStep)
  | 0, result, _ => result
  | iters + 1, result, cands =>
    match result.getLast? with
    | none => result
    | some prevPath =>
      match (yenScan g dir mc maxHops target result prevPath cands).mergeSort
          (fun p q => decide (p.length ≤ q.length)) with
      | [] => result
      | best :: rest =>
        yenLoop g dir mc maxHops target iters (result ++ [best]) rest

/-- `k_shortest_paths` (traversal.rs 306-410): empty for `k = 0` or when
no first path exists, otherwise Yen's loop seeded with the plain BFS
shortest path. -/
def kShortestPaths (g : Graph) (start target maxHops k : Nat)
    (dir : TraversalDirection) (mc : Option ℚ) : List (List PathStep) :=
  if k = 0 then []
  else
    match shortestPath g start target maxHops dir mc with
    | none => []
    | some first => yenLoop g dir mc maxHops target (k - 1) [first] []

/-! ## Walks as node-id lists

For Yen's algorithm the spur paths produced by the inner BFS must be
usable as walks again (to splice, bound, and transfer between exclusion
sets), so the step-chain structure of reconstructed paths is made
explicit here. -/

/-- A node-id list whose consecutive pairs are all allowed steps. -/
abbrev BChain (R : Nat → Nat → Bool) : List Nat → Prop :=
  List.Chain' (fun a b => R a b = true)

theorem rpath_append {R : Nat → Nat → Bool} {a b c : Nat} {n m : Nat}
    (h₁ : RPath R a b n) (h₂ : RPath R b c m) : RPath R a c (n + m) := by
  induction h₂ with
  | single => exact h₁
  | @snoc x y k p hr ih => exact RPath.snoc ih hr

theorem rpath_of_chain {R : Nat → Nat → Bool} :
    ∀ (l : List Nat) (a b : Nat), l.head? = some a → l.getLast? = some b →
      BChain R l → RPath R a b (l.length - 1) := by
  intro l
  induction l using List.reverseRecOn with
  | nil => intro a b ha _ _; cases ha
  | append_singleton l x ih =>
    intro a b ha hb hc
    rw [List.getLast?_concat] at hb
    cases hb
    by_cases hlne : l = []
    · subst hlne
      simp at ha
      subst ha
      exact RPath.single x
    · obtain ⟨w, hw⟩ :=
        Option.isSome_iff_exists.mp (List.getLast?_isSome.mpr hlne)
      have hha : l.head? = some a := by
        rw [List.head?_append_of_ne_nil _ hlne] at ha
        exact ha
      obtain ⟨hcl, _, hglue⟩ := List.chain'_append.mp hc
      have hstep : R w x = true := by
        refine hglue w hw x ?_
        simp
      have hp := ih a w hha hw hcl
      have hlp : 1 ≤ l.length := List.length_pos.mpr hlne
      have hfin := RPath.snoc hp hstep
      have hap : (l ++ [x]).length = l.length + 1 := by simp
      have hlen : l.length - 1 + 1 = (l ++ [x]).length - 1 := by
        rw [hap]
        omega
      rw [hlen] at hfin
      exact hfin

/-- Every non-head element of a step chain passes the exclusion check of
the step function (the head is only ever a step source). -/
theorem chain_tail_exn {g : Graph} {dir : TraversalDirection} {mc : Option ℚ}
    {exn : List Nat} {exe : List (Nat × Nat)} :
    ∀ (l : List Nat), BChain (stepExB g dir mc exn exe) l →
      ∀ x ∈ l, l.head? = some x ∨ (exn.any fun n => decide (n = x)) = false := by
  intro l
  induction l with
  | nil => intro _ x hx; cases hx
  | cons a rest ih =>
    intro hc x hx
    cases rest with
    | nil =>
      simp at hx
      exact Or.inl (by simp [hx])
    | cons b rest' =>
      obtain ⟨hab, hc'⟩ := List.chain'_cons.mp hc
      rcases List.mem_cons.mp hx with hx | hx
      · exact Or.inl (by simp [hx])
      · refine Or.inr ?_
        rcases ih hc' x hx with hhd | hok
        · simp at hhd
          unfold stepExB at hab
          simp only [Bool.and_eq_true, Bool.not_eq_true'] at hab
          rw [← hhd]
          exact hab.1.2
        · exact hok

/-- A chain may be transferred to another step function that agrees on
pairs of its elements. -/
theorem chain_imp_mem {R S : Nat → Nat → Bool} :
    ∀ (l : List Nat), BChain R l →
      (∀ a ∈ l, ∀ b ∈ l, R a b = true → S a b = true) → BChain S l := by
  intro l
  induction l with
  | nil => intro _ _; exact List.chain'_nil
  | cons a rest ih =>
    intro hc hab
    cases rest with
    | nil => exact List.chain'_singleton a
    | cons b rest' =>
      have h1 := List.chain'_cons.mp hc
      refine List.chain'_cons.mpr ⟨hab a (by simp) b (by simp) h1.1, ?_⟩
      exact ih h1.2 fun x hx y hy hr =>
        hab x (List.mem_cons_of_mem a hx) y (List.mem_cons_of_mem a hy) hr

/-- Weakening a step to smaller exclusion sets. -/
theorem stepExB_weaken {g : Graph} {dir : TraversalDirection} {mc : Option ℚ}
    {exn exn' : List Nat} {exe exe' : List (Nat × Nat)} {v w : Nat}
    (hn : ∀ x ∈ exn', x ∈ exn) (he : ∀ x ∈ exe', x ∈ exe)
    (h : stepExB g dir mc exn exe v w = true) :
    stepExB g dir mc exn' exe' v w = true := by
  unfold stepExB at h ⊢
  simp only [Bool.and_eq_true, Bool.not_eq_true'] at h ⊢
  obtain ⟨⟨hb, hexn⟩, hexe⟩ := h
  rw [List.any_eq_false] at hexn hexe
  refine ⟨⟨hb, ?_⟩, ?_⟩
  · rw [List.any_eq_false]
    intro x hx
    exact hexn x (hn x hx)
  · rw [List.any_eq_false]
    intro x hx
    exact hexe x (he x hx)

/-- Per-entry soundness of a shortest-path visited map: every non-start
entry records an allowed step from its parent. -/
def EntriesOk (g : Graph) (dir : TraversalDirection) (mc : Option ℚ)
    (exn : List Nat) (exe : List (Nat × Nat)) (start : Nat)
    (vis : SpVis) : Prop :=
  ∀ p ∈ vis, p.1 ≠ start → stepExB g dir mc exn exe p.2.1 p.1 = true

theorem speExpand_entriesOk (g : Graph) (dir : TraversalDirection)
    (mc : Option ℚ) (target start cur depth : Nat) (exn : List Nat)
    (exe : List (Nat × Nat)) :
    ∀ (ns : List (Edge × Direction)) (vis : SpVis) (adds : List (Nat × Nat)),
      (∀ p ∈ ns, p ∈ iterNeighbors g cur dir mc) →
      EntriesOk g dir mc exn exe start vis →
      (∀ vis' adds', speExpand g exn exe target cur depth ns vis adds =
          Sum.inl (vis', adds') → EntriesOk g dir mc exn exe start vis') ∧
      (∀ vis', speExpand g exn exe target cur depth ns vis adds =
          Sum.inr vis' → EntriesOk g dir mc exn exe start vis') := by
  intro ns
  induction ns with
  | nil =>
    intro vis adds _ hE
    constructor
    · intro vis' adds' h
      simp [speExpand] at h
      rw [← h.1]
      exact hE
    · intro vis' h
      simp [speExpand] at h
  | cons p rest ih =>
    intro vis adds hns hE
    obtain ⟨e, dr⟩ := p
    have hrest : ∀ q ∈ rest, q ∈ iterNeighbors g cur dir mc := by
      intro q hq
      exact hns q (List.mem_cons_of_mem _ hq)
    by_cases hexn : (exn.any fun n => decide (n = e.target)) = true
    · unfold speExpand
      rw [if_pos hexn]
      exact ih vis adds hrest hE
    · rw [Bool.not_eq_true] at hexn
      by_cases hexe : (exe.any fun q => decide (q = (cur, e.target))) = true
      · unfold speExpand
        rw [if_neg (by rw [hexn]; simp), if_pos hexe]
        exact ih vis adds hrest hE
      · rw [Bool.not_eq_true] at hexe
        by_cases hvisited : (alookup e.target vis).isSome = true
        · unfold speExpand
          rw [if_neg (by rw [hexn]; simp), if_neg (by rw [hexe]; simp),
            if_pos hvisited]
          exact ih vis adds hrest hE
        · have hstep : stepExB g dir mc exn exe cur e.target = true := by
            unfold stepExB stepB
            simp only [Bool.and_eq_true, Bool.not_eq_true']
            refine ⟨⟨?_, hexn⟩, hexe⟩
            rw [List.any_eq_true]
            exact ⟨(e, dr), hns (e, dr) (by simp), by simp⟩
          have hE' : EntriesOk g dir mc exn exe start
              (vis ++ [(e.target, (cur, e.relType, dr))]) := by
            intro q hq hqs
            rcases List.mem_append.mp hq with hq | hq
            · exact hE q hq hqs
            · rw [List.mem_singleton] at hq
              rw [hq]
              exact hstep
          unfold speExpand
          rw [if_neg (by rw [hexn]; simp), if_neg (by rw [hexe]; simp),
            if_neg (by rw [Bool.not_eq_true] at hvisited; rw [hvisited]; simp)]
          by_cases htgt : e.target = target
          · rw [if_pos htgt]
            constructor
            · intro vis' adds' h
              cases h
            · intro vis' h
              cases h
              exact hE'
          · rw [if_neg htgt]
            exact ih _ _ hrest hE'

theorem speLoop_entriesOk (g : Graph) (dir : TraversalDirection)
    (mc : Option ℚ) (maxHops target start : Nat) (exn : List Nat)
    (exe : List (Nat × Nat)) :
    ∀ (fuel : Nat) (q : List (Nat × Nat)) (vis vis₂ : SpVis),
      EntriesOk g dir mc exn exe start vis →
      speLoop g dir mc maxHops target exn exe fuel q vis = some vis₂ →
      EntriesOk g dir mc exn exe start vis₂ := by
  intro fuel
  induction fuel with
  | zero =>
    intro q vis vis₂ _ h
    simp [speLoop] at h
  | succ fuel ih =>
    intro q vis vis₂ hE h
    cases q with
    | nil => simp [speLoop] at h
    | cons c qs =>
      obtain ⟨cur, depth⟩ := c
      unfold speLoop at h
      by_cases hd : maxHops ≤ depth
      · rw [if_pos hd] at h
        exact ih qs vis vis₂ hE h
      · rw [if_neg hd] at h
        have hexp := speExpand_entriesOk g dir mc target start cur depth exn exe
          (iterNeighbors g cur dir mc) vis [] (fun p hp => hp) hE
        cases hres : speExpand g exn exe target cur depth
            (iterNeighbors g cur dir mc) vis [] with
        | inl pr =>
          obtain ⟨vis', adds⟩ := pr
          rw [hres] at h
          exact ih (qs ++ adds) vis' vis₂ (hexp.1 vis' adds hres) h
        | inr vis' =>
          rw [hres] at h
          cases h
          exact hexp.2 vis₂ hres

/-- A successfully reconstructed path is a step chain ending at the
queried node. -/
theorem reconstructSpPath_chain (g : Graph) (dir : TraversalDirection)
    (mc : Option ℚ) (exn : List Nat) (exe : List (Nat × Nat)) (start : Nat)
    (vis : SpVis) (hE : EntriesOk g dir mc exn exe start vis) :
    ∀ (fuel n : Nat) (l : List PathStep),
      reconstructSpPath g vis start fuel n = some l →
      (pathIds l).getLast? = some n ∧
        BChain (stepExB g dir mc exn exe) (pathIds l) := by
  intro fuel
  induction fuel with
  | zero => intro n l h; simp [reconstructSpPath] at h
  | succ fuel ih =>
    intro n l h
    unfold reconstructSpPath at h
    cases hl : alookup n vis with
    | none => rw [hl] at h; cases h
    | some entry =>
      rw [hl] at h
      obtain ⟨parent, rt, dr⟩ := entry
      by_cases hns : n = start
      · simp only [if_pos hns] at h
        cases h
        simp [pathIds, spStepOf]
      · simp only [if_neg hns] at h
        cases hrec : reconstructSpPath g vis start fuel parent with
        | none => rw [hrec] at h; cases h
        | some l' =>
          rw [hrec] at h
          cases h
          obtain ⟨hlast, hchain⟩ := ih parent l' hrec
          have hstep : stepExB g dir mc exn exe parent n = true :=
            hE (n, (parent, rt, dr)) (alookup_mem hl) hns
          have hids : pathIds (l' ++ [spStepOf g start n rt dr]) =
              pathIds l' ++ [n] := by
            simp [pathIds, spStepOf]
          rw [hids]
          constructor
          · rw [List.getLast?_concat]
          · refine List.chain'_append.mpr ⟨hchain, List.chain'_singleton n, ?_⟩
            intro x hx y hy
            rw [hlast] at hx
            simp at hx hy
            rw [← hx, ← hy]
            exact hstep

/-- Soundness of `shortest_path_excluding` on success (for distinct
endpoints): the result is a loop-free step chain from `start` to
`target` realizing the exact filtered distance within the hop bound and
avoiding the excluded nodes, and both endpoints are registered. -/
theorem spe_sound (g : Graph) (dir : TraversalDirection) (mc : Option ℚ)
    (v t hops : Nat) (exn : List Nat) (exe : List (Nat × Nat))
    (p : List PathStep) (hvt : v ≠ t)
    (h : shortestPathExcluding g v t hops dir mc exn exe = some p) :
    ∃ d, IsDist (stepExB g dir mc exn exe) v t d ∧
      p.length = d + 1 ∧ d ≤ hops ∧ 1 ≤ d ∧
      (pathIds p).Nodup ∧
      (pathIds p).head? = some v ∧
      (pathIds p).getLast? = some t ∧
      (∀ m ∈ pathIds p, (exn.any fun x => decide (x = m)) = false) ∧
      BChain (stepExB g dir mc exn exe) (pathIds p) ∧
      (g.node v).isSome = true ∧ (g.node t).isSome = true := by
  cases hnv : g.node v with
  | none => simp [shortestPathExcluding, hnv] at h
  | some iv =>
  cases hnt : g.node t with
  | none => simp [shortestPathExcluding, hnv, hnt] at h
  | some it =>
  simp only [shortestPathExcluding, hnv, hnt] at h
  cases hex : (exn.any fun n => decide (n = v)) ||
      (exn.any fun n => decide (n = t)) with
  | true => rw [if_pos (by rw [hex])] at h; cases h
  | false =>
  rw [if_neg (by rw [hex]; simp), if_neg hvt] at h
  by_cases hh0 : hops = 0
  · rw [if_pos hh0] at h; cases h
  · rw [if_neg hh0] at h
    obtain ⟨hvexn, htexn⟩ := Bool.or_eq_false_iff.mp hex
    have hinv := speInv_init g dir mc hops t v exn exe hvexn hvt
    obtain ⟨hfound, _⟩ := speLoop_correct g dir mc hops t v exn exe
      (visBound g) [(v, 0)] [(v, (v, 0, Direction.outgoing))] 0 hinv (by simp)
    cases hloop : speLoop g dir mc hops t exn exe (visBound g) [(v, 0)]
        [(v, (v, 0, Direction.outgoing))] with
    | none => rw [hloop] at h; cases h
    | some vis₂ =>
      rw [hloop] at h
      obtain ⟨l, d, hrec, hdist, hlen, hdmax, hnodup, hhead, hlast, hexn,
        hall⟩ := hfound vis₂ hloop
      have hlp : l = p := Option.some.inj (hrec.symm.trans h)
      subst hlp
      have hd1 : 1 ≤ d := by
        cases hd0 : d with
        | zero => rw [hd0] at hdist; exact absurd (rpath_zero hdist.1) hvt
        | succ k => omega
      have hE0 : EntriesOk g dir mc exn exe v
          [(v, (v, 0, Direction.outgoing))] := by
        intro q hq hqs
        simp at hq
        rw [hq] at hqs
        simp at hqs
      have hE2 := speLoop_entriesOk g dir mc hops t v exn exe (visBound g)
        [(v, 0)] [(v, (v, 0, Direction.outgoing))] vis₂ hE0 hloop
      have hchain := (reconstructSpPath_chain g dir mc exn exe v vis₂ hE2
        vis₂.length t l h).2
      exact ⟨d, hdist, hlen, hdmax, hd1, hnodup, hhead, hlast, hexn, hchain,
        rfl, rfl⟩

/-- Completeness of `shortest_path_excluding`: an allowed walk within
the hop budget (between distinct registered non-excluded endpoints)
forces success, the result realizing the exact distance, which the walk
bounds. -/
theorem spe_complete (g : Graph) (dir : TraversalDirection) (mc : Option ℚ)
    (v t hops : Nat) (exn : List Nat) (exe : List (Nat × Nat))
    (hv : (g.node v).isSome = true) (ht : (g.node t).isSome = true)
    (hvexn : (exn.any fun n => decide (n = v)) = false)
    (htexn : (exn.any fun n => decide (n = t)) = false)
    (hvt : v ≠ t) (hh0 : hops ≠ 0) (e : Nat)
    (he : RPath (stepExB g dir mc exn exe) v t e) (hehops : e ≤ hops) :
    ∃ p d, shortestPathExcluding g v t hops dir mc exn exe = some p ∧
      IsDist (stepExB g dir mc exn exe) v t d ∧ p.length = d + 1 ∧ d ≤ e := by
  obtain ⟨iv, hnv⟩ := Option.isSome_iff_exists.mp hv
  obtain ⟨it, hnt⟩ := Option.isSome_iff_exists.mp ht
  have hinv := speInv_init g dir mc hops t v exn exe hvexn hvt
  obtain ⟨hfound, hnone⟩ := speLoop_correct g dir mc hops t v exn exe
    (visBound g) [(v, 0)] [(v, (v, 0, Direction.outgoing))] 0 hinv (by simp)
  cases hloop : speLoop g dir mc hops t exn exe (visBound g) [(v, 0)]
      [(v, (v, 0, Direction.outgoing))] with
  | none =>
    have := hnone hloop e he
    omega
  | some vis₂ =>
    obtain ⟨l, d, hrec, hdist, hlen, hdmax, _⟩ := hfound vis₂ hloop
    refine ⟨l, d, ?_, hdist, hlen, hdist.2 e he⟩
    have hex : ((exn.any fun n => decide (n = v)) ||
        (exn.any fun n => decide (n = t))) = false := by
      rw [hvexn, htexn]
      rfl
    simp only [shortestPathExcluding, hnv, hnt]
    rw [if_neg (by rw [hex]; simp), if_neg hvt, if_neg hh0, hloop]
    exact hrec

/-! ## Invariants of Yen's loop -/

/-- The excluded-edge set over a concatenation of accepted lists. -/
theorem yenExcludedEdges_append (l₁ l₂ : List (List PathStep)) (j : Nat)
    (R : List Nat) :
    yenExcludedEdges (l₁ ++ l₂) j R =
      yenExcludedEdges l₁ j R ++ yenExcludedEdges l₂ j R :=
  List.filterMap_append _ _ _

/-- Splitting a list at two known consecutive entries. -/
theorem drop_two_split {l : List Nat} {j a b : Nat}
    (ha : l[j]? = some a) (hb : l[j + 1]? = some b) :
    l.drop j = a :: b :: l.drop (j + 2) := by
  have hja : j < l.length := by
    by_contra hc
    rw [List.getElem?_eq_none (by omega)] at ha
    cases ha
  have hjb : j + 1 < l.length := by
    by_contra hc
    rw [List.getElem?_eq_none (by omega)] at hb
    cases hb
  rw [List.drop_eq_getElem_cons hja, List.drop_eq_getElem_cons hjb]
  rw [List.getElem?_eq_getElem hja] at ha
  rw [List.getElem?_eq_getElem hjb] at hb
  cases ha
  cases hb
  rfl

/-- Every excluded edge recorded at a spur node leaves that node. -/
theorem yenExcludedEdges_fst (result : List (List PathStep)) (j : Nat)
    (R : List Nat) (v : Nat) (hv : R[j]? = some v) :
    ∀ pr ∈ yenExcludedEdges result j R, pr.1 = v := by
  intro pr hpr
  obtain ⟨path, hpath, hf⟩ := List.mem_filterMap.mp hpr
  by_cases hc : j < path.length ∧ (pathIds path).take (j + 1) = R
  · rw [if_pos hc] at hf
    cases hdrop : (pathIds path).drop j with
    | nil => rw [hdrop] at hf; cases hf
    | cons a tail =>
      cases tail with
      | nil => rw [hdrop] at hf; cases hf
      | cons b rest =>
        rw [hdrop] at hf
        cases hf
        have hhd : (pathIds path)[j]? = some a := by
          rw [← List.head?_drop, hdrop]
          rfl
        have hRj : R[j]? = (pathIds path)[j]? := by
          rw [← hc.2, List.getElem?_take]
          rw [if_pos (by omega)]
        rw [hRj, hhd] at hv
        cases hv
        rfl
  · rw [if_neg hc] at hf
    cases hf

/-- A sharing accepted path contributes its outgoing spur edge to the
excluded set. -/
theorem yenExcludedEdges_mem (result : List (List PathStep)) (j : Nat)
    (R : List Nat) (p : List PathStep) (hp : p ∈ result)
    (hlen : j + 2 ≤ p.length)
    (htake : (pathIds p).take (j + 1) = R) (a b : Nat)
    (ha : (pathIds p)[j]? = some a) (hb : (pathIds p)[j + 1]? = some b) :
    (a, b) ∈ yenExcludedEdges result j R := by
  refine List.mem_filterMap.mpr ⟨p, hp, ?_⟩
  rw [if_pos ⟨by omega, htake⟩, drop_two_split ha hb]

/-- A genuine traversal path of the Yen state: loop-free, running from
`s` to `t`, a chain of allowed (unexcluded) steps, within the hop
budget. -/
def GoodPath (g : Graph) (dir : TraversalDirection) (mc : Option ℚ)
    (s t maxHops : Nat) (p : List PathStep) : Prop :=
  (pathIds p).Nodup ∧
  (pathIds p).head? = some s ∧
  (pathIds p).getLast? = some t ∧
  BChain (stepExB g dir mc [] []) (pathIds p) ∧
  p.length ≤ maxHops + 1 ∧ 2 ≤ p.length

theorem goodPath_rpath {g : Graph} {dir : TraversalDirection} {mc : Option ℚ}
    {s t maxHops : Nat} {p : List PathStep}
    (h : GoodPath g dir mc s t maxHops p) :
    RPath (stepExB g dir mc [] []) s t (p.length - 1) := by
  obtain ⟨_, hhd, hlast, hchain, _, _⟩ := h
  have := rpath_of_chain (pathIds p) s t hhd hlast hchain
  rw [pathIds, List.length_map] at this
  exact this

/-- The length certificate of the seed path: one more than the true
base distance from `s` to `t`. -/
def BaseLen (g : Graph) (dir : TraversalDirection) (mc : Option ℚ)
    (s t : Nat) (p : List PathStep) : Prop :=
  ∃ d₀, IsDist (stepExB g dir mc [] []) s t d₀ ∧ p.length = d₀ + 1

/-- The creation event of a candidate: it was assembled from the root of
an accepted path `q` and the output of the recorded spur search from
`q`'s node at the spur index. -/
def Pedigree (g : Graph) (dir : TraversalDirection) (mc : Option ℚ)
    (maxHops target : Nat) (qs : List (List PathStep))
    (w : List PathStep) : Prop :=
  ∃ q ∈ qs, ∃ j v exe sp,
    j + 2 ≤ q.length ∧
    maxHops - j ≠ 0 ∧
    (pathIds q)[j]? = some v ∧
    (∀ pr ∈ exe, pr.1 = v) ∧
    shortestPathExcluding g v target (maxHops - j) dir mc
      ((pathIds q).take j) exe = some sp ∧
    pathIds w = (pathIds q).take (j + 1) ++ pathIds (sp.drop 1)

theorem pedigree_mono {g : Graph} {dir : TraversalDirection} {mc : Option ℚ}
    {maxHops target : Nat} {qs qs' : List (List PathStep)}
    {w : List PathStep} (hsub : ∀ q ∈ qs, q ∈ qs')
    (h : Pedigree g dir mc maxHops target qs w) :
    Pedigree g dir mc maxHops target qs' w := by
  obtain ⟨q, hq, rest⟩ := h
  exact ⟨q, hsub q hq, rest⟩

/-- Pairwise distinctness of node-id sequences (the loop's
deduplication invariant). -/
def IdsDistinct (ps : List (List PathStep)) : Prop :=
  ps.Pairwise fun p q => pathIds p ≠ pathIds q

/-- A path sharing a root of length `j + 1` with an accepted path that
continues past index `j` must itself continue past the root: otherwise
its final node `t` would repeat inside the accepted path. -/
theorem share_two (t : Nat) (M q : List PathStep) (j : Nat)
    (hMlast : (pathIds M).getLast? = some t)
    (hqnd : (pathIds q).Nodup) (hqlast : (pathIds q).getLast? = some t)
    (hql : j + 2 ≤ q.length)
    (htake : (pathIds M).take (j + 1) = (pathIds q).take (j + 1)) :
    j + 2 ≤ M.length := by
  have hlq : (pathIds q).length = q.length := by rw [pathIds, List.length_map]
  have hlM : (pathIds M).length = M.length := by rw [pathIds, List.length_map]
  have hjq : j < (pathIds q).length := by omega
  have hM1 : j + 1 ≤ M.length := by
    have h1 : ((pathIds M).take (j + 1)).length =
        ((pathIds q).take (j + 1)).length := by rw [htake]
    rw [List.length_take, List.length_take] at h1
    omega
  by_contra hcon
  have hMj : M.length = j + 1 := by omega
  have hMall : (pathIds M).take (j + 1) = pathIds M :=
    List.take_of_length_le (by omega)
  have hqj : (pathIds q)[j]? = some t := by
    have h2 : ((pathIds q).take (j + 1)).getLast? = some t := by
      rw [← htake, hMall]
      exact hMlast
    rw [List.getLast?_take] at h2
    simp only [Nat.add_sub_cancel] at h2
    rw [if_neg (by omega)] at h2
    rw [List.getElem?_eq_getElem hjq] at h2
    simp at h2
    rw [List.getElem?_eq_getElem hjq]
    rw [h2]
  have hqlast' : (pathIds q)[(pathIds q).length - 1]? = some t := by
    rw [← List.getLast?_eq_getElem?]
    exact hqlast
  have hj' : j < (pathIds q).length := hjq
  have hl' : (pathIds q).length - 1 < (pathIds q).length := by omega
  rw [List.getElem?_eq_getElem hj'] at hqj
  rw [List.getElem?_eq_getElem hl'] at hqlast'
  have heq : (pathIds q)[j] = (pathIds q)[(pathIds q).length - 1] := by
    rw [Option.some.inj hqj, Option.some.inj hqlast']
  rw [hqnd.getElem_inj_iff] at heq
  omega

/-- The state invariant of Yen's loop, holding at entry of every
`yenLoop` call (just after a pick): the accepted list is nonempty and
sorted, every stored path is genuine and distinct, pool paths carry
their creation events and are no shorter than the last accepted path,
and for every root of a previously accepted path the recorded spur
search output (with the last pick still excluded from the edge set) is
represented in the pool or is the last pick itself. -/
structure YenState (g : Graph) (dir : TraversalDirection) (mc : Option ℚ)
    (s t maxHops : Nat) (result cands : List (List PathStep)) : Prop where
  resNe : result ≠ []
  good : ∀ p ∈ result ++ cands, GoodPath g dir mc s t maxHops p
  distinct : IdsDistinct (result ++ cands)
  ped : ∀ w ∈ cands, Pedigree g dir mc maxHops t result.dropLast w
  pedRes : ∀ p ∈ result,
    Pedigree g dir mc maxHops t result.dropLast p ∨ BaseLen g dir mc s t p
  minLast : ∀ M, result.getLast? = some M → ∀ w ∈ cands, M.length ≤ w.length
  sorted : List.Chain' (· ≤ ·) (result.map List.length)
  inv : ∀ q ∈ result.dropLast, ∀ j v, j + 2 ≤ q.length → maxHops - j ≠ 0 →
    (pathIds q)[j]? = some v →
    ∀ sp, shortestPathExcluding g v t (maxHops - j) dir mc
        ((pathIds q).take j)
        (yenExcludedEdges result.dropLast j ((pathIds q).take (j + 1)))
        = some sp →
      ∃ w, (result.getLast? = some w ∨ w ∈ cands) ∧
        pathIds w = (pathIds q).take (j + 1) ++ pathIds (sp.drop 1)

/-! ## Small list facts used by the Yen invariant proofs -/

theorem pathIds_append (A B : List PathStep) :
    pathIds (A ++ B) = pathIds A ++ pathIds B :=
  List.map_append _ _ _

theorem pathIds_take (p : List PathStep) (n : Nat) :
    pathIds (p.take n) = (pathIds p).take n :=
  List.map_take _ _ _

theorem pathIds_drop (p : List PathStep) (n : Nat) :
    pathIds (p.drop n) = (pathIds p).drop n :=
  List.map_drop _ _ _

theorem pathIds_length (p : List PathStep) :
    (pathIds p).length = p.length :=
  List.length_map _ _

theorem mem_of_getElemEq {α : Type} {l : List α} {n : Nat} {a : α}
    (h : l[n]? = some a) : a ∈ l := by
  have hn : n < l.length := by
    by_contra hc
    rw [List.getElem?_eq_none (by omega)] at h
    cases h
  rw [List.getElem?_eq_getElem hn] at h
  cases h
  exact List.getElem_mem hn

theorem mem_of_getLastEq {α : Type} {l : List α} {a : α}
    (h : l.getLast? = some a) : a ∈ l := by
  rw [List.getLast?_eq_getElem?] at h
  exact mem_of_getElemEq h

theorem dropLast_append_of_getLastEq {α : Type} {l : List α} {a : α}
    (h : l.getLast? = some a) : l.dropLast ++ [a] = l := by
  have hne : l ≠ [] := by
    intro hc
    rw [hc] at h
    cases h
  rw [List.getLast?_eq_getLast l hne] at h
  have hfull := List.dropLast_append_getLast hne
  have ha := Option.some.inj h
  rw [ha] at hfull
  exact hfull

theorem any_decide_eq_false {l : List Nat} {x : Nat} :
    (l.any fun n => decide (n = x)) = false ↔ x ∉ l := by
  rw [List.any_eq_false]
  constructor
  · intro h hx
    exact h x hx (by simp)
  · intro h y hy hc
    simp at hc
    rw [hc] at hy
    exact h hy

theorem any_decide_pair_eq_false {l : List (Nat × Nat)} {e : Nat × Nat} :
    (l.any fun p => decide (p = e)) = false ↔ e ∉ l := by
  rw [List.any_eq_false]
  constructor
  · intro h hx
    exact h e hx (by simp)
  · intro h y hy hc
    simp at hc
    rw [hc] at hy
    exact h hy

/-- A non-final entry of a loop-free list differs from its final
entry. -/
theorem idx_ne_last {l : List Nat} {j x y : Nat} (hnd : l.Nodup)
    (hj : l[j]? = some x) (hlast : l.getLast? = some y)
    (hjl : j + 1 < l.length) : x ≠ y := by
  have hj' : j < l.length := by omega
  have hl' : l.length - 1 < l.length := by omega
  rw [List.getElem?_eq_getElem hj'] at hj
  rw [List.getLast?_eq_getElem?, List.getElem?_eq_getElem hl'] at hlast
  intro hc
  have heq : l[j] = l[l.length - 1] := by
    rw [Option.some.inj hj, Option.some.inj hlast, hc]
  rw [hnd.getElem_inj_iff] at heq
  omega

/-- Two distinct positions of a loop-free list hold distinct values. -/
theorem idx_ne_idx {l : List Nat} {i j x y : Nat} (hnd : l.Nodup)
    (hi : l[i]? = some x) (hj : l[j]? = some y) (hij : i ≠ j) : x ≠ y := by
  have hi' : i < l.length := by
    by_contra hc
    rw [List.getElem?_eq_none (by omega)] at hi
    cases hi
  have hj' : j < l.length := by
    by_contra hc
    rw [List.getElem?_eq_none (by omega)] at hj
    cases hj
  rw [List.getElem?_eq_getElem hi'] at hi
  rw [List.getElem?_eq_getElem hj'] at hj
  intro hc
  have heq : l[i] = l[j] := by
    rw [Option.some.inj hi, Option.some.inj hj, hc]
  rw [hnd.getElem_inj_iff] at heq
  exact hij heq

theorem mem_take_mono {α : Type} {l : List α} {m n : Nat} {x : α}
    (hmn : m ≤ n) (hx : x ∈ l.take m) : x ∈ l.take n := by
  have h1 : l.take m = (l.take n).take m := by
    rw [List.take_take, inf_eq_left.mpr hmn]
  rw [h1] at hx
  exact (List.take_sublist _ _).mem hx

theorem getLast?_drop_one {α : Type} {l : List α} (h : 2 ≤ l.length) :
    (l.drop 1).getLast? = l.getLast? := by
  match l, h with
  | a :: b :: rest, _ =>
    rw [List.drop_one]
    rfl

/-- A nonempty list is its head consed onto its tail (`head?` form). -/
theorem eq_cons_of_headEq {α : Type} {l : List α} {a : α}
    (h : l.head? = some a) : l = a :: l.drop 1 := by
  cases l with
  | nil => cases h
  | cons x rest =>
    have hx : x = a := Option.some.inj h
    simp [hx]

/-- Core of Yen ordering: a candidate generated by the spur search at
index `n` of the last accepted path `M` is no shorter than `M`.  For
spur indices at or past `M`'s own creation index the spur search's
output is bounded below through the creation search's minimality (a
triangle inequality over the creation constraints); for earlier indices
the same search ran against the pre-pick exclusion set, and its recorded
pool representative was available when `M` was picked as the pool
minimum. -/
theorem yenCandidate_length (g : Graph) (dir : TraversalDirection)
    (mc : Option ℚ) (s t maxHops : Nat)
    (result cands : List (List PathStep)) (M : List PathStep)
    (hstate : YenState g dir mc s t maxHops result cands)
    (hM : result.getLast? = some M)
    (n vM : Nat) (hn : n < M.length - 1) (hbud : maxHops - n ≠ 0)
    (hv : (pathIds M)[n]? = some vM)
    (sp : List PathStep)
    (hsearch : shortestPathExcluding g vM t (maxHops - n) dir mc
      ((pathIds M).take n)
      (yenExcludedEdges result n ((pathIds M).take (n + 1))) = some sp) :
    M.length ≤ n + sp.length := by
  have hMmem : M ∈ result := mem_of_getLastEq hM
  obtain ⟨hMnd, hMhd, hMlast, hMchain, hMbound, hMlen2⟩ :=
    hstate.good M (List.mem_append_left _ hMmem)
  have hlM : (pathIds M).length = M.length := pathIds_length M
  have hvt : vM ≠ t := idx_ne_last hMnd hv hMlast (by omega)
  obtain ⟨dc, hdc, hsplen, hdcmax, hdc1, hspnd, hsphd, hsplast, hspexn,
    hspchain, hvnode, htnode⟩ := spe_sound g dir mc vM t (maxHops - n)
      ((pathIds M).take n)
      (yenExcludedEdges result n ((pathIds M).take (n + 1))) sp hvt hsearch
  rw [hsplen]
  rcases hstate.pedRes M hMmem with hped | hbase
  · -- M has a creation event
    obtain ⟨q, hq, j', v', exe', sp', hj'q, hbud', hv', hfst', hsearch',
      hMideq⟩ := hped
    have hqmem : q ∈ result := (List.dropLast_sublist result).mem hq
    obtain ⟨hqnd, hqhd, hqlast, hqchain, hqbound, hqlen2⟩ :=
      hstate.good q (List.mem_append_left _ hqmem)
    have hlq : (pathIds q).length = q.length := pathIds_length q
    have hv't : v' ≠ t := idx_ne_last hqnd hv' hqlast (by omega)
    obtain ⟨d', hd', hsp'len, hd'max, hd'1, hsp'nd, hsp'hd, hsp'last,
      hsp'exn, hsp'chain, _, _⟩ := spe_sound g dir mc v' t (maxHops - j')
        ((pathIds q).take j') exe' sp' hv't hsearch'
    have hRlen : ((pathIds q).take (j' + 1)).length = j' + 1 := by
      rw [List.length_take]
      exact inf_eq_left.mpr (by omega)
    have htakeM : ∀ m, m ≤ j' + 1 →
        (pathIds M).take m = (pathIds q).take m := by
      intro m hm
      rw [hMideq, List.take_append_of_le_length (by rw [hRlen]; omega),
        List.take_take, inf_eq_left.mpr hm]
    have hMdecomp : (pathIds M).length = (j' + 1) + (sp'.length - 1) := by
      rw [hMideq, List.length_append, hRlen, pathIds_length,
        List.length_drop]
    have hMcreate : M.length = j' + d' + 1 := by
      rw [← hlM, hMdecomp, hsp'len]
      omega
    by_cases hcase : n ≤ j'
    · -- the spur index falls inside the shared root with q
      have htkn1 : (pathIds M).take (n + 1) = (pathIds q).take (n + 1) :=
        htakeM (n + 1) (by omega)
      have htkn : (pathIds M).take n = (pathIds q).take n :=
        htakeM n (by omega)
      have hvq : (pathIds q)[n]? = some vM := by
        have h1 : ((pathIds M).take (n + 1))[n]? = (pathIds M)[n]? := by
          rw [List.getElem?_take, if_pos (by omega)]
        have h2 : ((pathIds q).take (n + 1))[n]? = (pathIds q)[n]? := by
          rw [List.getElem?_take, if_pos (by omega)]
        rw [← h2, ← htkn1, h1, hv]
      have hresEq : result.dropLast ++ [M] = result :=
        dropLast_append_of_getLastEq hM
      have hEsplit : yenExcludedEdges result n ((pathIds M).take (n + 1)) =
          yenExcludedEdges result.dropLast n ((pathIds M).take (n + 1)) ++
          yenExcludedEdges [M] n ((pathIds M).take (n + 1)) := by
        rw [← yenExcludedEdges_append, hresEq]
      have hchainW : BChain (stepExB g dir mc ((pathIds M).take n)
          (yenExcludedEdges result.dropLast n ((pathIds M).take (n + 1))))
          (pathIds sp) := by
        refine List.Chain'.imp ?_ hspchain
        intro a b hab
        refine stepExB_weaken (fun x hx => hx) ?_ hab
        intro x hx
        rw [hEsplit]
        exact List.mem_append_left _ hx
      have hrp : RPath (stepExB g dir mc ((pathIds M).take n)
          (yenExcludedEdges result.dropLast n ((pathIds M).take (n + 1))))
          vM t dc := by
        have hr := rpath_of_chain (pathIds sp) vM t hsphd hsplast hchainW
        rw [pathIds_length, hsplen] at hr
        simpa using hr
      have hvexn : (((pathIds M).take n).any fun x => decide (x = vM))
          = false :=
        hspexn vM (List.mem_of_mem_head? (Option.mem_def.mpr hsphd))
      have htexn : (((pathIds M).take n).any fun x => decide (x = t))
          = false :=
        hspexn t (mem_of_getLastEq hsplast)
      obtain ⟨spLo, dLo, hspLo, hdLo, hspLolen, hdLole⟩ := spe_complete g dir mc vM t
        (maxHops - n) ((pathIds M).take n)
        (yenExcludedEdges result.dropLast n ((pathIds M).take (n + 1)))
        hvnode htnode hvexn htexn hvt hbud dc hrp hdcmax
      rw [htkn, htkn1] at hspLo
      obtain ⟨w, hwor, hwids⟩ := hstate.inv q hq n vM (by omega) hbud hvq
        spLo hspLo
      have hwlen : w.length = n + dLo + 1 := by
        have hw1 := congrArg List.length hwids
        rw [pathIds_length, List.length_append, List.length_take,
          pathIds_drop, List.length_drop, pathIds_length, pathIds_length,
          hspLolen] at hw1
        have hw2 : (n + 1) ⊓ q.length = n + 1 :=
          inf_eq_left.mpr (by omega)
        rw [hw2] at hw1
        omega
      have hwM : M.length ≤ w.length := by
        rcases hwor with hwor | hwor
        · have hMw : M = w := Option.some.inj (hM.symm.trans hwor)
          rw [hMw]
        · exact hstate.minLast M hM w hwor
      omega
    · -- the spur index lies past M's creation index
      have htakej1 : (pathIds M).take (j' + 1) = (pathIds q).take (j' + 1) :=
        htakeM (j' + 1) (by omega)
      have hv'M : (pathIds M)[j']? = some v' := by
        have h1 : ((pathIds M).take (j' + 1))[j']? = (pathIds M)[j']? := by
          rw [List.getElem?_take, if_pos (by omega)]
        have h2 : ((pathIds q).take (j' + 1))[j']? = (pathIds q)[j']? := by
          rw [List.getElem?_take, if_pos (by omega)]
        rw [← h1, htakej1, h2, hv']
      have hv'mem : v' ∈ (pathIds M).take n := by
        refine mem_of_getElemEq (l := (pathIds M).take n) (n := j') ?_
        rw [List.getElem?_take, if_pos (by omega)]
        exact hv'M
      have hspne : ∀ x ∈ pathIds sp, x ≠ v' := by
        intro x hx
        rcases chain_tail_exn (pathIds sp) hspchain x hx with hhd | hok
        · have hxv : x = vM := Option.some.inj (hhd.symm.trans hsphd)
          rw [hxv]
          exact idx_ne_idx hMnd hv hv'M (by omega)
        · rw [any_decide_eq_false] at hok
          intro hc
          rw [hc] at hok
          exact hok hv'mem
      have hchainC : BChain (stepExB g dir mc ((pathIds q).take j') exe')
          (pathIds sp) := by
        refine chain_imp_mem (pathIds sp) hspchain ?_
        intro a ha b hb hab
        unfold stepExB at hab ⊢
        simp only [Bool.and_eq_true, Bool.not_eq_true'] at hab ⊢
        obtain ⟨⟨hstep, hexnb⟩, hexeb⟩ := hab
        refine ⟨⟨hstep, ?_⟩, ?_⟩
        · rw [any_decide_eq_false] at hexnb ⊢
          intro hmem
          apply hexnb
          have hq'M : (pathIds M).take j' = (pathIds q).take j' :=
            htakeM j' (by omega)
          rw [← hq'M] at hmem
          exact mem_take_mono (by omega) hmem
        · rw [any_decide_pair_eq_false]
          intro hmem
          exact hspne a ha (hfst' (a, b) hmem)
      have hrpC : RPath (stepExB g dir mc ((pathIds q).take j') exe')
          vM t dc := by
        have hr := rpath_of_chain (pathIds sp) vM t hsphd hsplast hchainC
        rw [pathIds_length, hsplen] at hr
        simpa using hr
      have hsp'cons : pathIds sp' = v' :: pathIds (sp'.drop 1) := by
        rw [pathIds_drop]
        exact eq_cons_of_headEq hsp'hd
      have hdropM : (pathIds M).drop j' = v' :: pathIds (sp'.drop 1) := by
        rw [hMideq, List.drop_append_eq_append_drop]
        have hfirst : ((pathIds q).take (j' + 1)).drop j' = [v'] := by
          rw [List.drop_take]
          have h1 : j' + 1 - j' = 1 := by omega
          rw [h1]
          have hj'q2 : j' < (pathIds q).length := by omega
          rw [List.drop_eq_getElem_cons hj'q2]
          rw [List.getElem?_eq_getElem hj'q2] at hv'
          have h2 : (pathIds q)[j'] = v' := Option.some.inj hv'
          rw [h2]
          simp
        rw [hfirst, hRlen]
        have h0 : j' - (j' + 1) = 0 := by omega
        rw [h0]
        simp
      have hspM : pathIds sp' = (pathIds M).drop j' := by
        rw [hdropM, hsp'cons]
      have hlsp' : (pathIds sp').length = (pathIds M).length - j' := by
        rw [hspM, List.length_drop]
      have hP : RPath (stepExB g dir mc ((pathIds q).take j') exe')
          v' vM (n - j') := by
        have hPchain : BChain (stepExB g dir mc ((pathIds q).take j') exe')
            ((pathIds sp').take (n - j' + 1)) :=
          hsp'chain.take _
        have hPhd : ((pathIds sp').take (n - j' + 1)).head? = some v' := by
          rw [List.head?_take]
          rw [if_neg (by omega)]
          exact hsp'hd
        have hPv : (pathIds sp')[n - j']? = some vM := by
          rw [hspM, List.getElem?_drop]
          have h3 : j' + (n - j') = n := by omega
          rw [h3]
          exact hv
        have hPlast : ((pathIds sp').take (n - j' + 1)).getLast? = some vM := by
          rw [List.getLast?_take]
          rw [if_neg (by omega)]
          have h4 : n - j' + 1 - 1 = n - j' := by omega
          rw [h4, hPv]
          rfl
        have hr := rpath_of_chain ((pathIds sp').take (n - j' + 1)) v' vM
          hPhd hPlast hPchain
        have hPlen : ((pathIds sp').take (n - j' + 1)).length = n - j' + 1 := by
          rw [List.length_take]
          refine inf_eq_left.mpr ?_
          rw [hlsp']
          omega
        rw [hPlen] at hr
        simpa using hr
      have happ := rpath_append hP hrpC
      have hd'le : d' ≤ n - j' + dc := hd'.2 _ happ
      omega
  · -- M realizes the base distance
    obtain ⟨d₀, hd₀, hMbase⟩ := hbase
    have hA : RPath (stepExB g dir mc [] []) s vM n := by
      have hAchain : BChain (stepExB g dir mc [] [])
          ((pathIds M).take (n + 1)) := hMchain.take _
      have hAhd : ((pathIds M).take (n + 1)).head? = some s := by
        rw [List.head?_take, if_neg (by omega)]
        exact hMhd
      have hAlast : ((pathIds M).take (n + 1)).getLast? = some vM := by
        rw [List.getLast?_take, if_neg (by omega)]
        have h4 : n + 1 - 1 = n := by omega
        rw [h4, hv]
        rfl
      have hr := rpath_of_chain ((pathIds M).take (n + 1)) s vM hAhd hAlast
        hAchain
      have hAlen : ((pathIds M).take (n + 1)).length = n + 1 := by
        rw [List.length_take]
        exact inf_eq_left.mpr (by omega)
      rw [hAlen] at hr
      simpa using hr
    have hB : RPath (stepExB g dir mc [] []) vM t dc := by
      have hBchain : BChain (stepExB g dir mc [] []) (pathIds sp) := by
        refine List.Chain'.imp ?_ hspchain
        intro a b hab
        exact stepExB_weaken (fun x hx => (List.not_mem_nil x hx).elim)
          (fun x hx => (List.not_mem_nil x hx).elim) hab
      have hr := rpath_of_chain (pathIds sp) vM t hsphd hsplast hBchain
      rw [pathIds_length, hsplen] at hr
      simpa using hr
    have hd₀le : d₀ ≤ n + dc := hd₀.2 _ (rpath_append hA hB)
    omega

/-- A candidate assembled from the root of a good path and a successful
spur search is itself a good path, of length `n + |spur|`. -/
theorem yenCandidate_good (g : Graph) (dir : TraversalDirection)
    (mc : Option ℚ) (s t maxHops : Nat) (result : List (List PathStep))
    (M : List PathStep) (hMgood : GoodPath g dir mc s t maxHops M)
    (n vM : Nat) (hn : n < M.length - 1) (hbud : maxHops - n ≠ 0)
    (hv : (pathIds M)[n]? = some vM) (sp : List PathStep)
    (hsearch : shortestPathExcluding g vM t (maxHops - n) dir mc
      ((pathIds M).take n)
      (yenExcludedEdges result n ((pathIds M).take (n + 1))) = some sp) :
    GoodPath g dir mc s t maxHops (M.take (n + 1) ++ sp.drop 1) ∧
      (M.take (n + 1) ++ sp.drop 1).length = n + sp.length := by
  obtain ⟨hMnd, hMhd, hMlast, hMchain, hMbound, hMlen2⟩ := hMgood
  have hlM : (pathIds M).length = M.length := pathIds_length M
  have hvt : vM ≠ t := idx_ne_last hMnd hv hMlast (by omega)
  obtain ⟨dc, hdc, hsplen, hdcmax, hdc1, hspnd, hsphd, hsplast, hspexn,
    hspchain, hvnode, htnode⟩ := spe_sound g dir mc vM t (maxHops - n)
      ((pathIds M).take n)
      (yenExcludedEdges result n ((pathIds M).take (n + 1))) sp hvt hsearch
  have hlsp : (pathIds sp).length = sp.length := pathIds_length sp
  have hcandids : pathIds (M.take (n + 1) ++ sp.drop 1) =
      (pathIds M).take (n + 1) ++ (pathIds sp).drop 1 := by
    rw [pathIds_append, pathIds_take, pathIds_drop]
  have hspcons : pathIds sp = vM :: (pathIds sp).drop 1 :=
    eq_cons_of_headEq hsphd
  have hBne : (pathIds sp).drop 1 ≠ [] := by
    intro hc
    have := congrArg List.length hc
    rw [List.length_drop] at this
    simp at this
    omega
  have hAlen : ((pathIds M).take (n + 1)).length = n + 1 := by
    rw [List.length_take]
    exact inf_eq_left.mpr (by omega)
  have hAlast : ((pathIds M).take (n + 1)).getLast? = some vM := by
    rw [List.getLast?_take, if_neg (by omega)]
    have h4 : n + 1 - 1 = n := by omega
    rw [h4, hv]
    rfl
  have hbase : BChain (stepExB g dir mc [] []) (pathIds sp) := by
    refine List.Chain'.imp ?_ hspchain
    intro a b hab
    exact stepExB_weaken (fun x hx => (List.not_mem_nil x hx).elim)
      (fun x hx => (List.not_mem_nil x hx).elim) hab
  have hlencand : (M.take (n + 1) ++ sp.drop 1).length = n + sp.length := by
    rw [List.length_append, List.length_take, List.length_drop,
      inf_eq_left.mpr (by omega : n + 1 ≤ M.length)]
    omega
  refine ⟨⟨?_, ?_, ?_, ?_, ?_, ?_⟩, hlencand⟩
  · -- nodup
    rw [hcandids, List.nodup_append]
    refine ⟨List.Nodup.sublist (List.take_sublist _ _) hMnd,
      List.Nodup.sublist (List.drop_sublist _ _) hspnd, ?_⟩
    intro x hxA hxB
    have hAsplit : (pathIds M).take (n + 1) =
        (pathIds M).take n ++ [vM] := by
      have hnlt : n < (pathIds M).length := by omega
      have h5 := List.take_concat_get (pathIds M) n hnlt
      rw [List.concat_eq_append] at h5
      rw [List.getElem?_eq_getElem hnlt] at hv
      rw [← Option.some.inj hv]
      exact h5.symm
    rw [hAsplit] at hxA
    rcases List.mem_append.mp hxA with hxA | hxA
    · have hxsp : x ∈ pathIds sp := (List.drop_sublist _ _).mem hxB
      have := hspexn x hxsp
      rw [any_decide_eq_false] at this
      exact this hxA
    · rw [List.mem_singleton] at hxA
      rw [hxA] at hxB
      have hnd2 := hspcons ▸ hspnd
      exact (List.nodup_cons.mp hnd2).1 hxB
  · -- head
    rw [hcandids, List.head?_append_of_ne_nil]
    · rw [List.head?_take, if_neg (by omega)]
      exact hMhd
    · intro hc
      have := congrArg List.length hc
      rw [hAlen] at this
      cases this
  · -- last
    rw [hcandids, List.getLast?_append]
    rw [getLast?_drop_one (by omega), hsplast]
    rfl
  · -- chain
    rw [hcandids]
    cases hB : (pathIds sp).drop 1 with
    | nil => exact absurd hB hBne
    | cons b₀ rest =>
      have hbase' : BChain (stepExB g dir mc [] []) (vM :: b₀ :: rest) := by
        rw [← hB, ← hspcons]
        exact hbase
      obtain ⟨hstep0, hchainB⟩ := List.chain'_cons.mp hbase'
      refine List.chain'_append.mpr ⟨hMchain.take _, hchainB, ?_⟩
      intro x hx y hy
      rw [hAlast] at hx
      simp at hx hy
      rw [← hx, ← hy]
      exact hstep0
  · rw [hlencand]
    omega
  · rw [hlencand]
    omega

/-- The candidate built at a spur index differs (as a node sequence)
from every accepted path: a sharing accepted path's outgoing spur edge
is excluded, while the spur search's first step is not. -/
theorem yenCandidate_not_mem (g : Graph) (dir : TraversalDirection)
    (mc : Option ℚ) (t maxHops : Nat) (result : List (List PathStep))
    (M : List PathStep) (n vM : Nat) (hnM : n < (pathIds M).length)
    (hvt : vM ≠ t) (hv : (pathIds M)[n]? = some vM) (sp : List PathStep)
    (hsearch : shortestPathExcluding g vM t (maxHops - n) dir mc
      ((pathIds M).take n)
      (yenExcludedEdges result n ((pathIds M).take (n + 1))) = some sp) :
    ∀ p ∈ result, pathIds p ≠ pathIds (M.take (n + 1) ++ sp.drop 1) := by
  obtain ⟨dc, hdc, hsplen, hdcmax, hdc1, hspnd, hsphd, hsplast, hspexn,
    hspchain, hvnode, htnode⟩ := spe_sound g dir mc vM t (maxHops - n)
      ((pathIds M).take n)
      (yenExcludedEdges result n ((pathIds M).take (n + 1))) sp hvt hsearch
  intro p hp hpc
  have hcandids : pathIds (M.take (n + 1) ++ sp.drop 1) =
      (pathIds M).take (n + 1) ++ (pathIds sp).drop 1 := by
    rw [pathIds_append, pathIds_take, pathIds_drop]
  have hspcons : pathIds sp = vM :: (pathIds sp).drop 1 :=
    eq_cons_of_headEq hsphd
  rw [hcandids] at hpc
  cases hB : (pathIds sp).drop 1 with
  | nil =>
    have := congrArg List.length hB
    rw [List.length_drop, pathIds_length] at this
    simp at this
    omega
  | cons b₀ rest =>
    rw [hB] at hpc
    have hAlen : ((pathIds M).take (n + 1)).length = n + 1 := by
      rw [List.length_take]
      exact inf_eq_left.mpr (by omega)
    have hpn : (pathIds p)[n]? = some vM := by
      rw [hpc, List.getElem?_append, if_pos (by omega)]
      rw [List.getElem?_take, if_pos (by omega)]
      exact hv
    have hpn1 : (pathIds p)[n + 1]? = some b₀ := by
      rw [hpc, List.getElem?_append, if_neg (by omega)]
      rw [hAlen]
      simp
    have hptake : (pathIds p).take (n + 1) = (pathIds M).take (n + 1) := by
      rw [hpc, List.take_append_of_le_length (by omega), List.take_take]
      rw [inf_eq_left.mpr (by omega)]
    have hplen : n + 2 ≤ p.length := by
      have := congrArg List.length hpc
      rw [pathIds_length, List.length_append, hAlen] at this
      simp at this
      omega
    have hmem := yenExcludedEdges_mem result n ((pathIds M).take (n + 1)) p
      hp hplen hptake vM b₀ hpn hpn1
    have hchain0 : BChain (stepExB g dir mc ((pathIds M).take n)
        (yenExcludedEdges result n ((pathIds M).take (n + 1))))
        (vM :: b₀ :: rest) := by
      rw [← hB, ← hspcons]
      exact hspchain
    have hstep0 := (List.chain'_cons.mp hchain0).1
    unfold stepExB at hstep0
    simp only [Bool.and_eq_true, Bool.not_eq_true'] at hstep0
    have := hstep0.2
    rw [any_decide_pair_eq_false] at this
    exact this hmem

/-- The invariant carried through one candidate-generation pass over the
spur indices of the last accepted path `M`: the pool only grows, every
pool path is good, no shorter than `M`, and carries a creation event;
everything stays deduplicated; and for every processed spur index whose
search succeeds, the resulting candidate is represented in the pool. -/
def ScanInv (g : Graph) (dir : TraversalDirection) (mc : Option ℚ)
    (s t maxHops : Nat) (result cands : List (List PathStep))
    (M : List PathStep) (n : Nat) (cc : List (List PathStep)) : Prop :=
  (∃ Δ, cc = cands ++ Δ) ∧
  (∀ w ∈ cc, GoodPath g dir mc s t maxHops w ∧ M.length ≤ w.length ∧
    Pedigree g dir mc maxHops t result w) ∧
  IdsDistinct (result ++ cc) ∧
  (∀ j, j < n → maxHops - j ≠ 0 → ∀ v, (pathIds M)[j]? = some v →
    ∀ sp, shortestPathExcluding g v t (maxHops - j) dir mc
        ((pathIds M).take j)
        (yenExcludedEdges result j ((pathIds M).take (j + 1))) = some sp →
      ∃ w ∈ cc, pathIds w = (pathIds M).take (j + 1) ++ pathIds (sp.drop 1))

/-- One spur-index step preserves the scan invariant. -/
theorem yenSpurStep_inv (g : Graph) (dir : TraversalDirection)
    (mc : Option ℚ) (s t maxHops : Nat)
    (result cands : List (List PathStep)) (M : List PathStep)
    (hstate : YenState g dir mc s t maxHops result cands)
    (hM : result.getLast? = some M)
    (n : Nat) (hn : n < M.length - 1) (cc : List (List PathStep))
    (hinv : ScanInv g dir mc s t maxHops result cands M n cc) :
    ScanInv g dir mc s t maxHops result cands M (n + 1)
      (yenSpurStep g dir mc maxHops t result M cc n) := by
  obtain ⟨hΔ, helts, hdistcc, hobl⟩ := hinv
  have hMmem : M ∈ result := mem_of_getLastEq hM
  have hMgood := hstate.good M (List.mem_append_left _ hMmem)
  have hlM : (pathIds M).length = M.length := pathIds_length M
  have hnM : n < (pathIds M).length := by
    have := hMgood.2.2.2.2.2
    omega
  have hv := List.getElem?_eq_getElem hnM
  have hrootIds : pathIds (M.take (n + 1)) = (pathIds M).take (n + 1) :=
    pathIds_take M (n + 1)
  have hroot : (pathIds (M.take (n + 1))).getLast? =
      some ((pathIds M)[n]) := by
    rw [hrootIds, List.getLast?_take, if_neg (by omega),
      Nat.add_sub_cancel, hv]
    rfl
  have hexnEq : (pathIds (M.take (n + 1))).take n = (pathIds M).take n := by
    rw [hrootIds, List.take_take, inf_eq_left.mpr (Nat.le_succ n)]
  by_cases hbud : maxHops - n = 0
  · have heq : yenSpurStep g dir mc maxHops t result M cc n = cc := by
      unfold yenSpurStep
      rw [if_pos hbud]
    rw [heq]
    refine ⟨hΔ, helts, hdistcc, ?_⟩
    intro j hj hbudj v hvj sp hsp
    by_cases hjn : j < n
    · exact hobl j hjn hbudj v hvj sp hsp
    · have hjeq : j = n := by omega
      rw [hjeq] at hbudj
      exact absurd hbud hbudj
  · cases hsearch : shortestPathExcluding g ((pathIds M)[n]) t (maxHops - n)
        dir mc ((pathIds M).take n)
        (yenExcludedEdges result n ((pathIds M).take (n + 1))) with
    | none =>
      have heq : yenSpurStep g dir mc maxHops t result M cc n = cc := by
        unfold yenSpurStep
        rw [if_neg hbud]
        simp only [hroot]
        rw [hexnEq, hrootIds]
        simp only [hsearch]
      rw [heq]
      refine ⟨hΔ, helts, hdistcc, ?_⟩
      intro j hj hbudj v hvj sp hsp
      by_cases hjn : j < n
      · exact hobl j hjn hbudj v hvj sp hsp
      · have hjeq : j = n := by omega
        subst hjeq
        have hveq : (pathIds M)[j] = v := Option.some.inj (hv.symm.trans hvj)
        rw [← hveq] at hsp
        cases hsearch.symm.trans hsp
    | some sp =>
      have hMnd := hMgood.1
      have hMlast := hMgood.2.2.1
      have hvt : (pathIds M)[n] ≠ t := idx_ne_last hMnd hv hMlast (by omega)
      have hclen := yenCandidate_length g dir mc s t maxHops result cands M
        hstate hM n ((pathIds M)[n]) hn hbud hv sp hsearch
      obtain ⟨hcGood, hcLen⟩ := yenCandidate_good g dir mc s t maxHops result
        M hMgood n ((pathIds M)[n]) hn hbud hv sp hsearch
      have hnotmem := yenCandidate_not_mem g dir mc t maxHops result M n
        ((pathIds M)[n]) hnM hvt hv sp hsearch
      have hcped : Pedigree g dir mc maxHops t result
          (M.take (n + 1) ++ sp.drop 1) := by
        refine ⟨M, hMmem, n, (pathIds M)[n],
          yenExcludedEdges result n ((pathIds M).take (n + 1)), sp,
          by omega, hbud, hv, ?_, hsearch, ?_⟩
        · refine yenExcludedEdges_fst result n ((pathIds M).take (n + 1))
            ((pathIds M)[n]) ?_
          rw [List.getElem?_take, if_pos (by omega)]
          exact hv
        · rw [pathIds_append, pathIds_take]
      by_cases hdup : ((result ++ cc).any fun p =>
          decide (pathIds p = pathIds (M.take (n + 1) ++ sp.drop 1))) = true
      · have heq : yenSpurStep g dir mc maxHops t result M cc n = cc := by
          unfold yenSpurStep
          rw [if_neg hbud]
          simp only [hroot]
          rw [hexnEq, hrootIds]
          simp only [hsearch]
          rw [if_pos hdup]
        rw [heq]
        obtain ⟨p, hpmem, hpeq⟩ := List.any_eq_true.mp hdup
        simp only [decide_eq_true_eq] at hpeq
        have hpcc : p ∈ cc := by
          rcases List.mem_append.mp hpmem with hpr | hpcc
          · exact absurd hpeq (hnotmem p hpr)
          · exact hpcc
        refine ⟨hΔ, helts, hdistcc, ?_⟩
        intro j hj hbudj v hvj sp' hsp'
        by_cases hjn : j < n
        · exact hobl j hjn hbudj v hvj sp' hsp'
        · have hjeq : j = n := by omega
          subst hjeq
          have hveq : (pathIds M)[j] = v := Option.some.inj (hv.symm.trans hvj)
          rw [← hveq] at hsp'
          have hspeq : sp = sp' := Option.some.inj (hsearch.symm.trans hsp')
          refine ⟨p, hpcc, ?_⟩
          rw [hpeq, pathIds_append, pathIds_take, ← hspeq]
      · have heq : yenSpurStep g dir mc maxHops t result M cc n =
            cc ++ [M.take (n + 1) ++ sp.drop 1] := by
          unfold yenSpurStep
          rw [if_neg hbud]
          simp only [hroot]
          rw [hexnEq, hrootIds]
          simp only [hsearch]
          rw [if_neg hdup]
        rw [heq]
        rw [Bool.not_eq_true] at hdup
        rw [List.any_eq_false] at hdup
        refine ⟨?_, ?_, ?_, ?_⟩
        · obtain ⟨Δ₀, hΔ₀⟩ := hΔ
          exact ⟨Δ₀ ++ [M.take (n + 1) ++ sp.drop 1],
            by rw [hΔ₀, List.append_assoc]⟩
        · intro w hw
          rcases List.mem_append.mp hw with hw | hw
          · exact helts w hw
          · rw [List.mem_singleton] at hw
            subst hw
            refine ⟨hcGood, ?_, hcped⟩
            rw [hcLen]
            exact hclen
        · rw [← List.append_assoc]
          refine List.pairwise_append.mpr ⟨hdistcc, List.pairwise_singleton _ _, ?_⟩
          intro a ha b hb
          rw [List.mem_singleton] at hb
          subst hb
          have := hdup a ha
          simp only [decide_eq_true_eq] at this
          exact this
        · intro j hj hbudj v hvj sp' hsp'
          by_cases hjn : j < n
          · obtain ⟨w, hw, hwids⟩ := hobl j hjn hbudj v hvj sp' hsp'
            exact ⟨w, List.mem_append_left _ hw, hwids⟩
          · have hjeq : j = n := by omega
            subst hjeq
            have hveq : (pathIds M)[j] = v := Option.some.inj (hv.symm.trans hvj)
            rw [← hveq] at hsp'
            have hspeq : sp = sp' := Option.some.inj (hsearch.symm.trans hsp')
            refine ⟨M.take (j + 1) ++ sp.drop 1,
              List.mem_append_right _ (List.mem_singleton_self _), ?_⟩
            rw [pathIds_append, pathIds_take, ← hspeq]

/-- Invariant propagation along a fold over `List.range`. -/
theorem foldl_range_inv {β : Type} (P : Nat → β → Prop) (f : β → Nat → β) :
    ∀ (N : Nat) (init : β), P 0 init →
      (∀ n b, n < N → P n b → P (n + 1) (f b n)) →
      P N ((List.range N).foldl f init) := by
  intro N
  induction N with
  | zero =>
    intro init h0 _
    exact h0
  | succ N ih =>
    intro init h0 hstep
    rw [List.range_succ, List.foldl_append]
    exact hstep N _ (Nat.lt_succ_self N)
      (ih init h0 fun n b hn hb => hstep n b (Nat.lt_succ_of_lt hn) hb)

/-- The candidate-generation pass establishes the scan invariant at all
spur indices. -/
theorem yenScan_inv (g : Graph) (dir : TraversalDirection) (mc : Option ℚ)
    (s t maxHops : Nat) (result cands : List (List PathStep))
    (M : List PathStep)
    (hstate : YenState g dir mc s t maxHops result cands)
    (hM : result.getLast? = some M) :
    ScanInv g dir mc s t maxHops result cands M (M.length - 1)
      (yenScan g dir mc maxHops t result M cands) := by
  unfold yenScan
  refine foldl_range_inv (ScanInv g dir mc s t maxHops result cands M)
    (yenSpurStep g dir mc maxHops t result M) (M.length - 1) cands
    ⟨⟨[], by simp⟩, ?_, hstate.distinct, by omega⟩
    (fun n cc hn hinv => yenSpurStep_inv g dir mc s t maxHops result cands M
      hstate hM n hn cc hinv)
  intro w hw
  exact ⟨hstate.good w (List.mem_append_right _ hw),
    hstate.minLast M hM w hw,
    pedigree_mono (fun q hq => (List.dropLast_sublist result).mem hq)
      (hstate.ped w hw)⟩

/-- Transitivity and totality of the length comparison used by the
candidate sort. -/
theorem lenLe_trans : ∀ (a b c : List PathStep),
    (decide (a.length ≤ b.length)) = true →
    (decide (b.length ≤ c.length)) = true →
    (decide (a.length ≤ c.length)) = true := by
  intro a b c h1 h2
  simp at h1 h2 ⊢
  omega

theorem lenLe_total : ∀ (a b : List PathStep),
    ((decide (a.length ≤ b.length)) || (decide (b.length ≤ a.length)))
      = true := by
  intro a b
  simp
  omega

/-- Yen's loop preserves the state invariant across one pick and yields
the claimed result-list properties: sorted lengths, loop-free paths, and
the count bound. -/
theorem yenLoop_props (g : Graph) (dir : TraversalDirection) (mc : Option ℚ)
    (s t maxHops : Nat) :
    ∀ (iters : Nat) (result cands : List (List PathStep)),
      YenState g dir mc s t maxHops result cands →
      List.Chain' (· ≤ ·)
        ((yenLoop g dir mc maxHops t iters result cands).map List.length) ∧
      (∀ p ∈ yenLoop g dir mc maxHops t iters result cands,
        (pathIds p).Nodup) ∧
      (yenLoop g dir mc maxHops t iters result cands).length ≤
        result.length + iters := by
  intro iters
  induction iters with
  | zero =>
    intro result cands hstate
    refine ⟨hstate.sorted, ?_, ?_⟩
    · intro p hp
      exact (hstate.good p (List.mem_append_left _ hp)).1
    · show result.length ≤ result.length + 0
      omega
  | succ iters ih =>
    intro result cands hstate
    obtain ⟨M, hM⟩ := Option.isSome_iff_exists.mp
      (List.getLast?_isSome.mpr hstate.resNe)
    have hMmem : M ∈ result := mem_of_getLastEq hM
    have hscan := yenScan_inv g dir mc s t maxHops result cands M hstate hM
    obtain ⟨hΔsc, heltssc, hdistsc, hoblsc⟩ := hscan
    simp only [yenLoop, hM]
    cases hsort : (yenScan g dir mc maxHops t result M cands).mergeSort
        (fun p q => decide (p.length ≤ q.length)) with
    | nil =>
      refine ⟨hstate.sorted, ?_, ?_⟩
      · intro p hp
        exact (hstate.good p (List.mem_append_left _ hp)).1
      · show result.length ≤ result.length + (iters + 1)
        omega
    | cons best rest =>
      have hperm : (best :: rest).Perm
          (yenScan g dir mc maxHops t result M cands) := by
        rw [← hsort]
        exact List.mergeSort_perm _ _
      have hmemz : ∀ w ∈ best :: rest,
          w ∈ yenScan g dir mc maxHops t result M cands := by
        intro w hw
        exact hperm.mem_iff.mp hw
      have hbestsc := heltssc best (hmemz best (by simp))
      have hsorted := @List.sorted_mergeSort (List PathStep)
        (fun p q => decide (p.length ≤ q.length)) lenLe_trans lenLe_total
        (yenScan g dir mc maxHops t result M cands)
      rw [hsort] at hsorted
      have hnext : YenState g dir mc s t maxHops (result ++ [best]) rest := by
        refine ⟨by simp, ?_, ?_, ?_, ?_, ?_, ?_, ?_⟩
        · -- good
          intro p hp
          rw [List.append_assoc] at hp
          rcases List.mem_append.mp hp with hp | hp
          · exact hstate.good p (List.mem_append_left _ hp)
          · rw [List.singleton_append] at hp
            exact (heltssc p (hmemz p hp)).1
        · -- distinct
          have hpermBig : ((result ++ [best]) ++ rest).Perm
              (result ++ yenScan g dir mc maxHops t result M cands) := by
            rw [List.append_assoc, List.singleton_append]
            exact List.Perm.append_left result hperm
          exact (hpermBig.pairwise_iff fun h => h.symm).mpr hdistsc
        · -- ped
          intro w hw
          rw [List.dropLast_concat]
          exact (heltssc w (hmemz w (List.mem_cons_of_mem best hw))).2.2
        · -- pedRes
          intro p hp
          rw [List.dropLast_concat]
          rcases List.mem_append.mp hp with hp | hp
          · rcases hstate.pedRes p hp with hped | hbase
            · exact Or.inl (pedigree_mono
                (fun q hq => (List.dropLast_sublist result).mem hq) hped)
            · exact Or.inr hbase
          · rw [List.mem_singleton] at hp
            subst hp
            exact Or.inl (heltssc p (hmemz p (by simp))).2.2
        · -- minLast
          intro M' hM' w hw
          rw [List.getLast?_concat] at hM'
          have hMb : M' = best := (Option.some.inj hM').symm
          subst hMb
          have := List.rel_of_pairwise_cons hsorted hw
          simp at this
          exact this
        · -- sorted
          rw [List.map_append]
          refine List.chain'_append.mpr ⟨hstate.sorted, by simp, ?_⟩
          intro x hx y hy
          simp only [List.map_cons, List.map_nil] at hy
          have hx' : (result.map List.length).getLast? = some x := hx
          rw [List.getLast?_map, hM] at hx'
          simp at hx' hy
          rw [← hx', ← hy]
          exact hbestsc.2.1
        · -- inv
          intro q hq j v hj2 hbudj hvq sp' hsp'
          rw [List.dropLast_concat] at hq hsp'
          have hlq : (pathIds q).length = q.length := pathIds_length q
          have hqgood := hstate.good q (List.mem_append_left _ hq)
          by_cases hshare : j < M.length ∧
              (pathIds M).take (j + 1) = (pathIds q).take (j + 1)
          · have hM2 : j + 2 ≤ M.length :=
              share_two t M q j (hstate.good M (List.mem_append_left _
                hMmem)).2.2.1 hqgood.1 hqgood.2.2.1 hj2 hshare.2
            have hvM : (pathIds M)[j]? = some v := by
              have h1 : ((pathIds M).take (j + 1))[j]? = (pathIds M)[j]? := by
                rw [List.getElem?_take, if_pos (by omega)]
              have h2 : ((pathIds q).take (j + 1))[j]? = (pathIds q)[j]? := by
                rw [List.getElem?_take, if_pos (by omega)]
              rw [← h1, hshare.2, h2, hvq]
            have htkj : (pathIds q).take j = (pathIds M).take j := by
              have h3 : (pathIds M).take j =
                  ((pathIds M).take (j + 1)).take j := by
                rw [List.take_take, inf_eq_left.mpr (Nat.le_succ j)]
              have h4 : (pathIds q).take j =
                  ((pathIds q).take (j + 1)).take j := by
                rw [List.take_take, inf_eq_left.mpr (Nat.le_succ j)]
              rw [h3, h4, hshare.2]
            rw [htkj, ← hshare.2] at hsp'
            obtain ⟨w, hwcc, hwids⟩ := hoblsc j (by omega) hbudj v hvM sp' hsp'
            have hwz : w ∈ best :: rest := hperm.mem_iff.mpr hwcc
            refine ⟨w, ?_, ?_⟩
            · rcases List.mem_cons.mp hwz with hwz | hwz
              · subst hwz
                exact Or.inl (List.getLast?_concat _)
              · exact Or.inr hwz
            · rw [hwids, hshare.2]
          · have hq' : q ∈ result.dropLast := by
              rw [← dropLast_append_of_getLastEq hM] at hq
              rcases List.mem_append.mp hq with hq | hq
              · exact hq
              · rw [List.mem_singleton] at hq
                subst hq
                exact absurd ⟨by omega, rfl⟩ hshare
            have hEeq : yenExcludedEdges result j ((pathIds q).take (j + 1)) =
                yenExcludedEdges result.dropLast j
                  ((pathIds q).take (j + 1)) := by
              conv_lhs => rw [← dropLast_append_of_getLastEq hM]
              rw [yenExcludedEdges_append]
              have hMnil : yenExcludedEdges [M] j ((pathIds q).take (j + 1))
                  = [] := by
                unfold yenExcludedEdges
                rw [List.filterMap_cons, if_neg hshare]
                rfl
              rw [hMnil, List.append_nil]
            rw [hEeq] at hsp'
            obtain ⟨w, hwor, hwids⟩ := hstate.inv q hq' j v hj2 hbudj hvq
              sp' hsp'
            rcases hwor with hwor | hwor
            · exfalso
              have hMw : M = w := Option.some.inj (hM.symm.trans hwor)
              rw [← hMw] at hwids
              refine hshare ⟨?_, ?_⟩
              · have := congrArg List.length hwids
                rw [pathIds_length, List.length_append, List.length_take]
                  at this
                have h5 : (j + 1) ⊓ (pathIds q).length = j + 1 :=
                  inf_eq_left.mpr (by omega)
                rw [h5] at this
                omega
              · rw [hwids, List.take_append_of_le_length, List.take_take]
                · rw [inf_eq_left.mpr (le_refl (j + 1))]
                · rw [List.length_take]
                  rw [inf_eq_left.mpr (by omega : j + 1 ≤ (pathIds q).length)]
            · obtain ⟨Δ₀, hΔ₀⟩ := hΔsc
              have hwcc : w ∈ yenScan g dir mc maxHops t result M cands := by
                rw [hΔ₀]
                exact List.mem_append_left _ hwor
              have hwz : w ∈ best :: rest := hperm.mem_iff.mpr hwcc
              refine ⟨w, ?_, hwids⟩
              rcases List.mem_cons.mp hwz with hwz | hwz
              · subst hwz
                exact Or.inl (List.getLast?_concat _)
              · exact Or.inr hwz
      have hres := ih (result ++ [best]) rest hnext
      refine ⟨hres.1, hres.2.1, ?_⟩
      have h6 := hres.2.2
      rw [List.length_append] at h6
      simp at h6
      show (yenLoop g dir mc maxHops t iters (result ++ [best]) rest).length ≤
        result.length + (iters + 1)
      omega

/-- `shortest_path` is the exclusion search with empty exclusion sets
(traversal.rs 207-261 vs 416-480 differ only in the exclusion tests,
which are vacuous on empty sets). -/
theorem shortestPath_eq_excluding (g : Graph) (a b h : Nat)
    (dir : TraversalDirection) (mc : Option ℚ) :
    shortestPath g a b h dir mc =
      shortestPathExcluding g a b h dir mc [] [] := by
  unfold shortestPath shortestPathExcluding
  cases g.node a <;> cases g.node b <;> simp

/-- Yen's loop is inert on a single-step seed: there is no spur index to
deviate from. -/
theorem yenLoop_self (g : Graph) (dir : TraversalDirection) (mc : Option ℚ)
    (maxHops t : Nat) (ps : PathStep) :
    ∀ iters, yenLoop g dir mc maxHops t iters [[ps]] [] = [[ps]] := by
  intro iters
  cases iters with
  | zero => rfl
  | succ iters => simp [yenLoop, yenScan, List.mergeSort_nil]

/-- C2 — `k_shortest_paths(start, target, max_hops, k, direction,
min_confidence)` returns at most `k` paths, each loop-free (no repeated
node id), sorted by hop count ascending (consecutive lengths are
monotone non-decreasing), and returns the empty list when `k = 0`. -/
theorem k_shortest_paths_spec (g : Graph) (start target maxHops k : Nat)
    (dir : TraversalDirection) (mc : Option ℚ) :
    (k = 0 → kShortestPaths g start target maxHops k dir mc = []) ∧
    (kShortestPaths g start target maxHops k dir mc).length ≤ k ∧
    (∀ p ∈ kShortestPaths g start target maxHops k dir mc,
      (pathIds p).Nodup) ∧
    List.Chain' (· ≤ ·)
      ((kShortestPaths g start target maxHops k dir mc).map List.length)
    := by
  by_cases hk : k = 0
  · subst hk
    have heq : kShortestPaths g start target maxHops 0 dir mc = [] := rfl
    rw [heq]
    exact ⟨fun _ => rfl, by simp, by simp, by simp⟩
  · cases hfirst : shortestPath g start target maxHops dir mc with
    | none =>
      have heq : kShortestPaths g start target maxHops k dir mc = [] := by
        unfold kShortestPaths
        rw [if_neg hk]
        simp only [hfirst]
      rw [heq]
      exact ⟨fun _ => rfl, by simp, by simp, by simp⟩
    | some first =>
      have heq : kShortestPaths g start target maxHops k dir mc =
          yenLoop g dir mc maxHops target (k - 1) [first] [] := by
        unfold kShortestPaths
        rw [if_neg hk]
        simp only [hfirst]
      by_cases hst : start = target
      · subst hst
        have hfval : first = [selfPathStep g start] := by
          cases hnv : g.node start with
          | none => simp [shortestPath, hnv] at hfirst
          | some iv =>
            have hself : shortestPath g start start maxHops dir mc =
                some [selfPathStep g start] := by
              simp [shortestPath, hnv]
            exact (Option.some.inj (hself.symm.trans hfirst)).symm
        rw [heq, hfval, yenLoop_self]
        refine ⟨fun h => absurd h hk, ?_, ?_, ?_⟩
        · simp
          omega
        · intro p hp
          simp at hp
          rw [hp]
          simp [pathIds]
        · simp
      · have hfirstEx : shortestPathExcluding g start target maxHops dir mc
            [] [] = some first := by
          rw [← shortestPath_eq_excluding]
          exact hfirst
        obtain ⟨d₀, hd₀, hflen, hfmax, hf1, hfnd, hfhd, hflast, _, hfchain,
          _, _⟩ := spe_sound g dir mc start target maxHops [] [] first hst
            hfirstEx
        have hfgood : GoodPath g dir mc start target maxHops first :=
          ⟨hfnd, hfhd, hflast, hfchain, by omega, by omega⟩
        have hinit : YenState g dir mc start target maxHops [first] [] := by
          refine ⟨by simp, ?_, ?_, ?_, ?_, ?_, ?_, ?_⟩
          · intro p hp
            simp at hp
            rw [hp]
            exact hfgood
          · simp only [List.append_nil]
            exact List.pairwise_singleton _ _
          · intro w hw
            exact absurd hw (List.not_mem_nil w)
          · intro p hp
            simp at hp
            rw [hp]
            exact Or.inr ⟨d₀, hd₀, hflen⟩
          · intro M hM w hw
            exact absurd hw (List.not_mem_nil w)
          · exact List.chain'_singleton _
          · intro q hq
            simp at hq
        obtain ⟨hchain, hnodup, hlen⟩ :=
          yenLoop_props g dir mc start target maxHops (k - 1) [first] [] hinit
        rw [heq]
        refine ⟨fun h => absurd h hk, ?_, hnodup, hchain⟩
        simp at hlen
        omega

/-- Witness for C2 at concrete inputs: the `k = 0` case returns the
empty list, and a `k = 3` run on the bridge graph is within bounds,
loop-free and sorted. -/
theorem k_shortest_paths_spec_witness :
    kShortestPaths gBridge 0 1 5 0 TraversalDirection.both none = [] ∧
    (kShortestPaths gBridge 0 1 5 3 TraversalDirection.both none).length ≤ 3
    ∧ (pathIds [selfPathStep gChain 0]).Nodup
    ∧ List.Chain' (· ≤ ·)
      ((kShortestPaths gBridge 0 1 5 3 TraversalDirection.both
        none).map List.length) :=
  ⟨(k_shortest_paths_spec gBridge 0 1 5 0 TraversalDirection.both none).1
      rfl,
    (k_shortest_paths_spec gBridge 0 1 5 3 TraversalDirection.both
      none).2.1,
    (k_shortest_paths_spec gChain 0 0 5 2 TraversalDirection.both
      none).2.2.1 [selfPathStep gChain 0] (by
        have h1 : kShortestPaths gChain 0 0 5 2 TraversalDirection.both none
            = [[selfPathStep gChain 0]] := by
          unfold kShortestPaths
          rw [if_neg (by omega : (2 : Nat) ≠ 0)]
          have h2 : shortestPath gChain 0 0 5 TraversalDirection.both none =
              some [selfPathStep gChain 0] := rfl
          simp only [h2]
          exact yenLoop_self gChain TraversalDirection.both none 5 0
            (selfPathStep gChain 0) 1
        rw [h1]
        simp),
    (k_shortest_paths_spec gBridge 0 1 5 3 TraversalDirection.both
      none).2.2.2⟩
